import Mathlib

/-!
# TinyInfiniTensor: allocator, graph and MatMul shape rule

A shallow embedding of `src/core/allocator.cc`, `src/core/graph.cc` and
`src/operators/matmul.cc`.

* `size_t` values are natural numbers below `2 ^ 64`; every `size_t` operation of the
  source is followed by an explicit reduction modulo `2 ^ 64` (`wrap`, `wsub`).
* `std::map<size_t, size_t> free_blocks_` is an association list in ascending key order;
  the map operations used by the source are `mapAssign` (`m[k] = v`), `mapFloor`
  (`--m.upper_bound(k)`) and `mapErase` (`m.erase(it)`).
* `IT_ASSERT` throws; a call that throws yields `Result.raised`, carrying the allocator as
  the exception leaves it.
-/

namespace infini

/-! # Definitions -/

/-! ## Machine arithmetic -/

/-- Number of `size_t` values (64-bit). -/
def SIZE_MOD : Nat := 2 ^ 64

/-- Reduction of a `size_t` result modulo `2 ^ 64`. -/
def wrap (n : Nat) : Nat := n % SIZE_MOD

/-- The `size_t` subtraction `a - b` (wraps below zero). -/
def wsub (a b : Nat) : Nat := (a + SIZE_MOD - b % SIZE_MOD) % SIZE_MOD

/-! ## The ledger `free_blocks_` -/

/-- The type of `free_blocks_`: start offset and length of every live range, by ascending
offset. -/
abbrev Ledger := List (Nat × Nat)

/-- The map assignment `free_blocks_[k] = v`: overwrite the entry of key `k` or insert a new
entry at its place in key order. -/
def mapAssign : Ledger → Nat → Nat → Ledger
  | [], k, v => [(k, v)]
  | (k', v') :: rest, k, v =>
      if k < k' then (k, v) :: (k', v') :: rest
      else if k = k' then (k, v) :: rest
      else (k', v') :: mapAssign rest k v

/-- The entry reached by `--free_blocks_.upper_bound(addr)`: the entry with the greatest key
not exceeding `addr`; `none` when `upper_bound` is `begin()`. -/
def mapFloor : Ledger → Nat → Option (Nat × Nat)
  | [], _ => none
  | (k, v) :: rest, addr =>
      if addr < k then none
      else
        match mapFloor rest addr with
        | some e => some e
        | none => some (k, v)

/-- The erasure `free_blocks_.erase(iter)` of the entry with key `k`. -/
def mapErase : Ledger → Nat → Ledger
  | [], _ => []
  | (k', v') :: rest, k => if k' = k then rest else (k', v') :: mapErase rest k

/-! ## Allocator -/

/-- The fields of `Allocator`. `ptr` records whether the backing buffer has been obtained
from the runtime (`ptr != nullptr`). -/
structure Allocator where
  used : Nat
  peak : Nat
  last_addr_ : Nat
  free_blocks_ : Ledger
  ptr : Bool
  alignment : Nat
deriving DecidableEq, Repr

/-- Outcome of an allocator call: a returned value with the new state, or a failed
`IT_ASSERT` with the state at the point of the throw. -/
inductive Result (α : Type) where
  | ok (val : α) (st : Allocator)
  | raised (st : Allocator)
deriving DecidableEq, Repr

namespace Allocator

/-- The constructor `Allocator::Allocator`: nothing used, nothing planned, no buffer,
`alignment = sizeof(uint64_t)`; the ledger is empty and the tail is zero. -/
def fresh : Allocator :=
  { used := 0, peak := 0, last_addr_ := 0, free_blocks_ := [], ptr := false, alignment := 8 }

/-- The padding `Allocator::getAlignedSize`: `((size - 1) / alignment + 1) * alignment`. -/
def getAlignedSize (a : Allocator) (size : Nat) : Nat :=
  wrap ((wrap (wsub size 1 / a.alignment + 1)) * a.alignment)

/-- The first-fit scan of `Allocator::alloc` over the ledger entries from `cursor`: the start
of the first gap that holds `size`. -/
def findGap (size : Nat) : Nat → Ledger → Option Nat
  | _, [] => none
  | cursor, (offset, block_size) :: rest =>
      if wrap (cursor + size) ≤ offset then some cursor
      else findGap size (wrap (offset + block_size)) rest

/-- The method `Allocator::alloc`. -/
def alloc (a : Allocator) (size : Nat) : Result Nat :=
  if a.ptr then Result.raised a
  else
    let size := a.getAlignedSize size
    let a1 := { a with used := wrap (a.used + size) }
    if wrap (size + a1.last_addr_) ≤ a1.peak then
      let a2 := { a1 with free_blocks_ := mapAssign a1.free_blocks_ a1.last_addr_ size }
      let a3 := { a2 with last_addr_ := wrap (a2.last_addr_ + size) }
      Result.ok (wsub a3.last_addr_ size) a3
    else
      match findGap size 0 a1.free_blocks_ with
      | some cursor =>
          Result.ok cursor { a1 with free_blocks_ := mapAssign a1.free_blocks_ cursor size }
      | none =>
          let a2 := { a1 with peak := wrap (a1.last_addr_ + size) }
          let a3 := { a2 with free_blocks_ := mapAssign a2.free_blocks_ a2.last_addr_ size }
          let a4 := { a3 with last_addr_ := wrap (a3.last_addr_ + size) }
          Result.ok (wsub a4.last_addr_ size) a4

/-- The method `Allocator::free`. The entry is erased before the containment assertion is
evaluated, as in the source. -/
def free (a : Allocator) (addr size : Nat) : Result Unit :=
  if a.ptr then Result.raised a
  else
    let size := a.getAlignedSize size
    match mapFloor a.free_blocks_ addr with
    | none => Result.raised a
    | some (offset, block_size) =>
        let a1 := { a with free_blocks_ := mapErase a.free_blocks_ offset }
        if addr ≠ offset ∨ size ≠ block_size then
          if ¬ (wrap (addr + size) ≤ wrap (offset + block_size)) then Result.raised a1
          else if addr = offset then
            let m := mapAssign a1.free_blocks_ (wrap (addr + size)) (wsub block_size size)
            let a2 := { a1 with free_blocks_ := m }
            Result.ok () { a2 with used := wsub a2.used size }
          else if wrap (addr + size) = wrap (offset + block_size) then
            let m := mapAssign a1.free_blocks_ offset (wsub addr offset)
            let a2 := { a1 with free_blocks_ := m }
            let a3 := if wrap (addr + size) = a2.last_addr_ then
              { a2 with last_addr_ := addr } else a2
            Result.ok () { a3 with used := wsub a3.used size }
          else
            let m := mapAssign a1.free_blocks_ offset (wsub addr offset)
            let m2 := mapAssign m (wrap (addr + size))
              (wsub (wsub (wrap (offset + block_size)) addr) size)
            let a2 := { a1 with free_blocks_ := m2 }
            Result.ok () { a2 with used := wsub a2.used size }
        else
          let a2 := if wrap (offset + block_size) = a1.last_addr_ then
            { a1 with last_addr_ := offset } else a1
          Result.ok () { a2 with used := wsub a2.used size }

/-- The method `Allocator::getPtr`: the buffer of `peak` bytes is requested on the first call
only. -/
def getPtr (a : Allocator) : Allocator :=
  if a.ptr then a else { a with ptr := true }

end Allocator

/-! ## Specification vocabulary for the allocator -/

/-- The padded size without wrap-around: `size` rounded up to a multiple of eight. -/
def align8 (size : Nat) : Nat := ((size - 1) / 8 + 1) * 8

/-- Total length of the ledger entries. -/
def ledgerTotal (m : Ledger) : Nat := (m.map Prod.snd).sum

/-- Two ledger entries `[offset, offset + length)` do not overlap. -/
def Disjoint2 (e1 e2 : Nat × Nat) : Prop := e1.1 + e1.2 ≤ e2.1 ∨ e2.1 + e2.2 ≤ e1.1

/-- The ledger entries are pairwise non-overlapping. -/
def NonOverlapping (m : Ledger) : Prop := m.Pairwise Disjoint2

/-- The entries of `m` are non-empty ranges laid out in ascending order inside `[lo, hi]`
without overlap: each starts at or after the end of the one before. -/
def Chain : Nat → Ledger → Nat → Prop
  | lo, [], hi => lo ≤ hi
  | lo, (o, l) :: rest, hi => lo ≤ o ∧ 0 < l ∧ Chain (o + l) rest hi

/-- The call `alloc(size)` in state `a` has a size of at least one and computes no value of
`2 ^ 64` or more: the padding and the tail sum `size + last_addr_` fit in a `size_t`. -/
def AllocFits (a : Allocator) (size : Nat) : Prop :=
  1 ≤ size ∧ size + 7 < SIZE_MOD ∧ a.last_addr_ + align8 size < SIZE_MOD

/-- The call `free(addr, size)` has a size of at least one and computes no value of `2 ^ 64`
or more: the padding and the end `addr + size` fit in a `size_t`. -/
def FreeFits (addr size : Nat) : Prop :=
  1 ≤ size ∧ size + 7 < SIZE_MOD ∧ addr + align8 size < SIZE_MOD

instance (a : Allocator) (size : Nat) : Decidable (AllocFits a size) := by
  unfold AllocFits
  infer_instance

instance (addr size : Nat) : Decidable (FreeFits addr size) := by
  unfold FreeFits
  infer_instance

/-- States reached from a fresh allocator by `alloc` calls and succeeding `free` calls, none of
which overflows. -/
inductive Reachable : Allocator → Prop
  | fresh : Reachable Allocator.fresh
  | alloc (a a1 : Allocator) (size off : Nat) :
      Reachable a → AllocFits a size → a.alloc size = Result.ok off a1 → Reachable a1
  | free (a a1 : Allocator) (addr size : Nat) :
      Reachable a → FreeFits addr size → a.free addr size = Result.ok () a1 → Reachable a1

/-- The allocator invariant: the ledger is a chain of live ranges below the tail, the tail is
below `peak`, `used` is the total live length, and the buffer is not materialized. -/
structure Inv (a : Allocator) : Prop where
  chain : Chain 0 a.free_blocks_ a.last_addr_
  tail_le : a.last_addr_ ≤ a.peak
  peak_lt : a.peak < SIZE_MOD
  used_eq : a.used = ledgerTotal a.free_blocks_
  not_mat : a.ptr = false
  align : a.alignment = 8

/-- The allocator state after `alloc` placed `size` padded bytes at the tail. -/
def placeAtTail (a : Allocator) (len : Nat) (peak1 : Nat) : Allocator :=
  { a with used := a.used + len, peak := peak1,
           free_blocks_ := a.free_blocks_ ++ [(a.last_addr_, len)],
           last_addr_ := a.last_addr_ + len }

/-- The allocator state after `alloc` placed `size` padded bytes in the gap at `c`. -/
def placeInGap (a : Allocator) (len c : Nat) : Allocator :=
  { a with used := a.used + len, free_blocks_ := mapAssign a.free_blocks_ c len }

/-- The allocator after `alloc(100)` on a fresh allocator. -/
def demo1 : Allocator :=
  { used := 104, peak := 104, last_addr_ := 104, free_blocks_ := [(0, 104)], ptr := false,
    alignment := 8 }

/-- The allocator after `alloc(100)`, `alloc(50)`. -/
def demo2 : Allocator :=
  { used := 160, peak := 160, last_addr_ := 160, free_blocks_ := [(0, 104), (104, 56)],
    ptr := false, alignment := 8 }

/-- The allocator after `alloc(100)`, `alloc(50)`, `free(0, 100)`. -/
def demoRun : Allocator :=
  { used := 56, peak := 160, last_addr_ := 160, free_blocks_ := [(104, 56)], ptr := false,
    alignment := 8 }

/-- The allocator after `alloc(100)` then `free(20, 30)`: the padded sizes are 104 and 32. -/
def split1 : Allocator :=
  { used := 72, peak := 104, last_addr_ := 104, free_blocks_ := [(0, 20), (52, 52)],
    ptr := false, alignment := 8 }

/-- The allocator after `alloc(100)`, `free(20, 30)`, `alloc(30)`. -/
def split2 : Allocator :=
  { used := 104, peak := 104, last_addr_ := 104, free_blocks_ := [(0, 20), (20, 32), (52, 52)],
    ptr := false, alignment := 8 }

/-- The allocator after `alloc(100)`, `alloc(50)`, `alloc(50)`. -/
def demo3 : Allocator :=
  { used := 216, peak := 216, last_addr_ := 216,
    free_blocks_ := [(0, 104), (104, 56), (160, 56)], ptr := false, alignment := 8 }

/-- The allocator after `alloc(16)`. -/
def gap1 : Allocator := ⟨16, 16, 16, [(0, 16)], false, 8⟩

/-- The allocator after `alloc(16)`, `alloc(8)`. -/
def gap2 : Allocator := ⟨24, 24, 24, [(0, 16), (16, 8)], false, 8⟩

/-- The allocator after `alloc(16)`, `alloc(8)`, `alloc(8)`. -/
def gap3 : Allocator := ⟨32, 32, 32, [(0, 16), (16, 8), (24, 8)], false, 8⟩

/-- The allocator after `alloc(16)`, `alloc(8)`, `alloc(8)`, `free(24, 8)`: the tail retreats
to 24 and leaves a slack of eight bytes below `peak`. -/
def gap4 : Allocator := ⟨24, 32, 24, [(0, 16), (16, 8)], false, 8⟩

/-- The allocator after a further `free(0, 16)`: a gap `[0, 16)` before the only live range. -/
def gap5 : Allocator := ⟨8, 32, 24, [(16, 8)], false, 8⟩

/-- The allocator `gap5` after `alloc(16)`, which the first-fit scan places in the gap at 0. -/
def gap6 : Allocator := ⟨24, 32, 24, [(0, 16), (16, 8)], false, 8⟩

/-- The allocator `gap5` after `alloc(8)`, which the fast path places at the tail 24. -/
def gap7 : Allocator := ⟨16, 32, 32, [(16, 8), (24, 8)], false, 8⟩

/-- The allocator after `alloc(2 ^ 63)` on a fresh allocator. -/
def huge1 : Allocator :=
  ⟨9223372036854775808, 9223372036854775808, 9223372036854775808, [(0, 9223372036854775808)],
    false, 8⟩

/-- The allocator after `alloc(2 ^ 63)`, `alloc(2 ^ 63)`: `used` and the tail have
wrapped to zero while `peak` stays `2 ^ 63`. -/
def huge2 : Allocator :=
  ⟨0, 9223372036854775808, 0,
    [(0, 9223372036854775808), (9223372036854775808, 9223372036854775808)], false, 8⟩

/-- No gap of the ledger `m` read from `cursor` holds `size` bytes: neither the gap between
`cursor` and the first entry nor the gap between two consecutive entries. -/
def NoGapFits (size : Nat) : Nat → Ledger → Prop
  | _, [] => True
  | cursor, (o, l) :: rest => ¬ (cursor + size ≤ o) ∧ NoGapFits size (o + l) rest

/-- The allocator `gap4` after `alloc(16)`, which grows the tail from 24 to 40. -/
def grow1 : Allocator := ⟨40, 40, 40, [(0, 16), (16, 8), (24, 16)], false, 8⟩

/-- The allocator after `alloc(8)` on a fresh allocator. -/
def one8 : Allocator := ⟨8, 8, 8, [(0, 8)], false, 8⟩

/-- The allocator `one8` after the failed call `free(0, 16)`: the entry `(0, 8)` has left the
ledger, the other fields are as before. -/
def one8Failed : Allocator := ⟨8, 8, 8, [], false, 8⟩

/-! ## MatMul shape inference -/

/-- The type `Shape` (`vector<int>`). -/
abbrev Shape := List Int

/-- Modelled from the spec: `infer_broadcast` of `utils/operator_utils`, which is not among the
sources. Standard broadcasting: the shorter shape is padded with ones on the left, each pair
of corresponding sizes must be equal or one of them must be 1, and the result takes the
larger; an incompatible pair fails an assertion (`none`). -/
def infer_broadcast (A B : Shape) : Option Shape :=
  let rank := max A.length B.length
  let A_ := List.replicate (rank - A.length) 1 ++ A
  let B_ := List.replicate (rank - B.length) 1 ++ B
  if (List.zip A_ B_).all (fun p => decide (p.1 = p.2 ∨ p.1 = 1 ∨ p.2 = 1)) then
    some (List.zipWith max A_ B_)
  else none

/-- The method `MatmulObj::inferShape` on the shapes of its two inputs; `none` is a failed
`IT_ASSERT`. -/
def inferShape (transA transB : Bool) (lhs_shape rhs_shape : Shape) : Option (List Shape) :=
  if ¬ (lhs_shape.length = rhs_shape.length ∧ 2 ≤ lhs_shape.length) then none
  else
    let n := lhs_shape.getD (lhs_shape.length - (if transA then 1 else 2)) 0
    let m := rhs_shape.getD (rhs_shape.length - (if transB then 2 else 1)) 0
    if lhs_shape.getD (lhs_shape.length - (if transA then 2 else 1)) 0 ≠
        rhs_shape.getD (rhs_shape.length - (if transB then 1 else 2)) 0 then none
    else
      match infer_broadcast lhs_shape.dropLast.dropLast rhs_shape.dropLast.dropLast with
      | none => none
      | some retval => some [(retval ++ [n]) ++ [m]]

/-- Two sizes are broadcast-compatible: equal, or one of them is 1. -/
def Compatible (x y : Int) : Prop := x = y ∨ x = 1 ∨ y = 1

/-! ## Graph objects

Tensors and operators are heap objects referred to by `Ref`s; a reference is the identity of
the object (its address). The graph holds the two object stores together with its `ops` and
`tensors` vectors of references. -/

/-- A reference to a tensor or operator object (pointer identity). -/
abbrev Ref := Nat

/-- The operator kinds that the graph code distinguishes; every other kind of `OpType` is
`Other`. -/
inductive OpType where
  | MatMul
  | Transpose
  | Other
deriving DecidableEq, Repr

/-- Modelled from the spec: the fields of `TensorObj` (`core/tensor.h` is not among the
sources): a shape, at most one source operator and the target operators. -/
structure TensorObj where
  dims : Shape
  source : Option Ref
  targets : List Ref
deriving DecidableEq, Repr

/-- Modelled from the spec: the fields of `OperatorObj` with the attributes of `TransposeObj`
(`permute`) and `MatmulObj` (`transA`, `transB`); the class declarations are not among the
sources. -/
structure OperatorObj where
  type : OpType
  inputs : List Ref
  outputs : List Ref
  predecessors : List Ref
  successors : List Ref
  permute : List Int
  transA : Bool
  transB : Bool
deriving DecidableEq, Repr

/-- The fields of `GraphObj` and the heap of the objects its references point to. -/
structure GraphObj where
  ops : List Ref
  tensors : List Ref
  sorted : Bool
  allocator : Allocator
  op : Ref → OperatorObj
  tensor : Ref → TensorObj

namespace GraphObj

/-- The test of `topo_sort` on one operator: it is not flagged and the source of each of its
inputs is null or flagged. -/
def ready (g : GraphObj) (flags : List Ref) (o : Ref) : Bool :=
  decide (o ∉ flags) &&
    (g.op o).inputs.all (fun input =>
      match (g.tensor input).source with
      | none => true
      | some ptr => decide (ptr ∈ flags))

/-- The inner `for` loop of `topo_sort` over the operators still to visit, on the loop state
`modified`, `sorted`, `flags`. -/
def topoPass (g : GraphObj) : List Ref → Bool × List Ref × List Ref → Bool × List Ref × List Ref
  | [], st => st
  | o :: rest, (modified, sorted, flags) =>
      if g.ready flags o then topoPass g rest (true, sorted ++ [o], o :: flags)
      else topoPass g rest (modified, sorted, flags)

/-- The `while` loop of `topo_sort`, with a bound on the number of iterations: `none` when the
bound is exhausted, `some none` for `return false`, `some (some sorted)` when the loop ends. -/
def topoLoop (g : GraphObj) : Nat → List Ref → List Ref → Option (Option (List Ref))
  | 0, _, _ => none
  | fuel + 1, sorted, flags =>
      if sorted.length < g.ops.length then
        match topoPass g g.ops (false, sorted, flags) with
        | (modified, sorted1, flags1) =>
            if !modified then some none
            else topoLoop g fuel sorted1 flags1
      else some (some sorted)

/-- The method `GraphObj::topo_sort`: the returned flag and the graph afterwards. The loop is
run with `ops.size() + 1` iterations allowed, which it never exhausts
(`topo_sort_total`). -/
def topo_sort (g : GraphObj) : Option (Bool × GraphObj) :=
  if g.sorted then some (true, g)
  else
    match topoLoop g (g.ops.length + 1) [] [] with
    | none => none
    | some none => some (false, g)
    | some (some sorted) => some (true, { g with ops := sorted, sorted := true })

end GraphObj

/-- The producer-to-consumer relation between operators: `c` is an operator of the graph and
one of its input tensors has source `p`. -/
def Edge (g : GraphObj) (p c : Ref) : Prop :=
  c ∈ g.ops ∧ ∃ t ∈ (g.op c).inputs, (g.tensor t).source = some p

/-- The producer-to-consumer relation has a cycle. -/
def HasCycle (g : GraphObj) : Prop := ∃ o, Relation.TransGen (Edge g) o o

/-- Each input tensor's source is absent or an operator of the graph. -/
def SourcesClosed (g : GraphObj) : Prop :=
  ∀ c ∈ g.ops, ∀ t ∈ (g.op c).inputs, ∀ p, (g.tensor t).source = some p → p ∈ g.ops

/-- In the list `l` the source operator of every input tensor of every operator occurs
strictly earlier than the operator. -/
def TopoOrdered (g : GraphObj) (l : List Ref) : Prop :=
  ∀ pre o post, l = pre ++ o :: post →
    ∀ t ∈ (g.op o).inputs, ∀ p, (g.tensor t).source = some p → p ∈ pre

/-! ## Topological sort -/

/-- The invariant of the loops of `topo_sort` on `sorted` and `flags`. -/
structure PassInv (g : GraphObj) (sorted flags : List Ref) : Prop where
  flags_iff : ∀ x, x ∈ flags ↔ x ∈ sorted
  nodup : sorted.Nodup
  sub : ∀ x ∈ sorted, x ∈ g.ops
  ordered : TopoOrdered g sorted

/-- An operator object of kind `Other` with the given inputs and outputs and no links. -/
def plainOp (inputs outputs : List Ref) : OperatorObj :=
  { type := OpType.Other, inputs := inputs, outputs := outputs, predecessors := [],
    successors := [], permute := [], transA := false, transB := false }

/-- A two-operator chain stored consumer first: operator 0 maps tensor 0 to tensor 1, operator
1 maps tensor 1 to tensor 2, and `ops` is `[1, 0]`. -/
def chainGraph : GraphObj :=
  { ops := [1, 0], tensors := [0, 1, 2], sorted := false, allocator := Allocator.fresh,
    op := fun r => match r with
      | 0 => plainOp [0] [1]
      | _ => plainOp [1] [2],
    tensor := fun r => match r with
      | 0 => { dims := [2], source := none, targets := [0] }
      | 1 => { dims := [2], source := some 0, targets := [1] }
      | _ => { dims := [2], source := some 1, targets := [] } }

/-- The graph `chainGraph` after `topo_sort`. -/
def chainSorted : GraphObj := { chainGraph with ops := [0, 1], sorted := true }

/-- A graph whose only operator consumes its own output. -/
def selfLoop : GraphObj :=
  { ops := [0], tensors := [0], sorted := false, allocator := Allocator.fresh,
    op := fun _ => plainOp [0] [0],
    tensor := fun _ => { dims := [2], source := some 0, targets := [0] } }

namespace GraphObj

/-! ## Memory planning -/

/-- The allocation loop of `dataMalloc` over the tensors still to visit, on the map `objs` from
tensor objects to offsets and the allocator; `none` when `alloc` throws. -/
def allocTensors (getBytes : TensorObj → Nat) (g : GraphObj) :
    List Ref → List (Ref × Nat) → Allocator → Option (List (Ref × Nat) × Allocator)
  | [], objs, a => some (objs, a)
  | t :: rest, objs, a =>
      if t ∈ objs.map Prod.fst then allocTensors getBytes g rest objs a
      else
        match a.alloc (getBytes (g.tensor t)) with
        | Result.ok off a1 => allocTensors getBytes g rest (objs ++ [(t, off)]) a1
        | Result.raised _ => none

/-- The method `GraphObj::dataMalloc`: the offsets planned for the tensor objects and the graph
afterwards; `none` when an assertion fails. `getBytes` is `TensorObj::getBytes`, which is not
among the sources. -/
def dataMalloc (getBytes : TensorObj → Nat) (g : GraphObj) :
    Option (List (Ref × Nat) × GraphObj) :=
  match g.topo_sort with
  | some (true, g1) =>
      match allocTensors getBytes g1 g1.tensors [] g1.allocator with
      | some (objs, a) => some (objs, { g1 with allocator := a.getPtr })
      | none => none
  | _ => none

end GraphObj

/-- Total padded size of the tensors in `l`. -/
def paddedTotal (getBytes : TensorObj → Nat) (g : GraphObj) (l : List Ref) : Nat :=
  (l.map (fun t => align8 (getBytes (g.tensor t)))).sum

/-- The invariant of the allocation loop of `dataMalloc`: the allocator is contiguous
(`last_addr_ = used`), every planned range ends at or before the tail, earlier ranges end
before later ones start, and `used` counts every planned tensor once. -/
structure PlanInv (getBytes : TensorObj → Nat) (g : GraphObj) (objs : List (Ref × Nat))
    (a : Allocator) : Prop where
  inv : Inv a
  contiguous : a.last_addr_ = a.used
  keys_nodup : (objs.map Prod.fst).Nodup
  used_eq : a.used = paddedTotal getBytes g (objs.map Prod.fst)
  below_tail : ∀ e ∈ objs, e.2 + align8 (getBytes (g.tensor e.1)) ≤ a.last_addr_
  ordered : objs.Pairwise (fun e1 e2 => e1.2 + align8 (getBytes (g.tensor e1.1)) ≤ e2.2)

/-- The size function of the example: every tensor has 20 bytes. -/
def bytes20 : TensorObj → Nat := fun _ => 20

/-- The size function of the overflow example: every tensor has `2 ^ 63` bytes. -/
def bytesHuge : TensorObj → Nat := fun _ => 9223372036854775808

/-- One operator with two graph inputs, tensors 0 and 1, and the output tensor 2. -/
def joinGraph : GraphObj :=
  { ops := [0], tensors := [0, 1, 2], sorted := false, allocator := Allocator.fresh,
    op := fun _ => plainOp [0, 1] [2],
    tensor := fun r => match r with
      | 0 => { dims := [2], source := none, targets := [0] }
      | 1 => { dims := [2], source := none, targets := [0] }
      | _ => { dims := [2], source := some 0, targets := [] } }

/-! ## Graph rewriting -/

/-- Modelled from the spec: adding a reference to the target, predecessor or successor set of
an object (`addTarget`, `addPredecessors`, `addSuccessors`; the classes are not among the
sources). The sets are kept as duplicate-free lists in insertion order. -/
def addRef (l : List Ref) (x : Ref) : List Ref := if x ∈ l then l else l ++ [x]

/-- Modelled from the spec: removing a reference from the target, predecessor or successor set
of an object (`removeTarget`, `removePredecessors`, `removeSuccessors`). -/
def removeRef (l : List Ref) (x : Ref) : List Ref := l.filter (fun y => y != x)

/-- The loop over `succ->inputs` in `eliminate_redundant_transposes`: the first slot that
holds `output` is set to `input`. -/
def replaceFirst (output input : Ref) : List Ref → List Ref
  | [] => []
  | x :: rest => if x = output then input :: rest else x :: replaceFirst output input rest

/-- The lambda `apply` of `eliminate_redundant_transposes`: `modified[i] = dims[perm[i]]`.
An index outside the vector, which the source does not check, reads 0. -/
def apply (dims perm : Shape) : Shape :=
  (List.range dims.length).map (fun i => dims.getD (perm.getD i 0).toNat 0)

namespace GraphObj

/-- Assignment to the fields of the operator object `r`. -/
def updOp (g : GraphObj) (r : Ref) (f : OperatorObj → OperatorObj) : GraphObj :=
  { g with op := fun x => if x = r then f (g.op r) else g.op x }

/-- Assignment to the fields of the tensor object `r`. -/
def updTensor (g : GraphObj) (r : Ref) (f : TensorObj → TensorObj) : GraphObj :=
  { g with tensor := fun x => if x = r then f (g.tensor r) else g.tensor x }

/-- Modelled from the spec: `GraphObj::removeTensor` (declared in `core/graph.h`, not among the
sources) deletes the tensor from the tensor collection. -/
def removeTensor (g : GraphObj) (t : Ref) : GraphObj := { g with tensors := g.tensors.erase t }

/-- Modelled from the spec: `GraphObj::removeOperator` (declared in `core/graph.h`, not among
the sources) deletes the operator from the operator collection. -/
def removeOperator (g : GraphObj) (o : Ref) : GraphObj := { g with ops := g.ops.erase o }

/-- The splice of `eliminate_redundant_transposes` for one successor of `t2`. -/
def spliceSucc (t2 output input : Ref) (g : GraphObj) (succ : Ref) : GraphObj :=
  let g1 := g.updOp succ (fun o => { o with predecessors := removeRef o.predecessors t2 })
  let g2 := g1.updOp succ (fun o => { o with inputs := replaceFirst output input o.inputs })
  g2.updTensor input (fun t => { t with targets := addRef t.targets succ })

/-- The splice of `eliminate_redundant_transposes` (the statements after the shape check):
`t1` leaves the successors of its predecessors and the targets of its input, and every
successor of `t2` is rewired to the input of `t1`. -/
def spliceGraph (g : GraphObj) (t1 t2 : Ref) : GraphObj :=
  let input := (g.op t1).inputs.headD 0
  let output := (g.op t2).outputs.headD 0
  let group_pred := (g.op t1).predecessors
  let group_succ := (g.op t2).successors
  let g1 := group_pred.foldl
    (fun h p => h.updOp p (fun o => { o with successors := removeRef o.successors t1 })) g
  let g2 := g1.updTensor input (fun t => { t with targets := removeRef t.targets t1 })
  group_succ.foldl (spliceSucc t2 output input) g2

/-- The method `GraphObj::eliminate_redundant_transposes`: the graph after the call and the
returned operators. -/
def eliminate_redundant_transposes (g : GraphObj) (op : Ref) : GraphObj × List Ref :=
  if (g.op op).type ≠ OpType.Transpose then (g, [])
  else
    let pred := (g.op op).predecessors
    if pred.length ≠ 1 then (g, [])
    else if (g.op (pred.headD 0)).type ≠ OpType.Transpose then (g, [])
    else
      let t2 := op
      let t1 := pred.headD 0
      let input := (g.op t1).inputs.headD 0
      let dims := (g.tensor input).dims
      let modified := apply (apply dims (g.op t1).permute) (g.op t2).permute
      if (List.range dims.length).any (fun i => dims.getD i 0 != modified.getD i 0) then (g, [])
      else (spliceGraph g t1 t2, [pred.headD 0, op])

/-- The first statements of a fusion in the lambda `impl`: every predecessor of
`transpose_op` drops it from its successors and becomes a predecessor of `matmul_op`, and
`matmul_op` drops `transpose_op` from its predecessors. -/
def fuseLinks (matmul_op transpose_op : Ref) (g : GraphObj) : GraphObj :=
  let pred := (g.op transpose_op).predecessors
  let g1 := pred.foldl
    (fun h p =>
      (h.updOp p (fun o => { o with successors := removeRef o.successors transpose_op })).updOp
        matmul_op (fun o => { o with predecessors := addRef o.predecessors p }))
    g
  g1.updOp matmul_op (fun o => { o with predecessors := removeRef o.predecessors transpose_op })

/-- The next statements of a fusion: the input of `transpose_op` drops `transpose_op` from
its targets and gains `matmul_op`. -/
def fuseTargets (matmul_op transpose_op : Ref) (g : GraphObj) : GraphObj :=
  let input := (g.op transpose_op).inputs.headD 0
  let g3 := g.updTensor input (fun t => { t with targets := removeRef t.targets transpose_op })
  g3.updTensor input (fun t => { t with targets := addRef t.targets matmul_op })

/-- The fusion of `eliminate_redundant_matmul_transpose` (the statements of the lambda `impl`
after the permutation checks): the links are moved, the transpose flag of the side is set and
the input of `transpose_op` becomes the input of `matmul_op` at `matmul_input_idx`. -/
def fuseGraph (is_left : Bool) (matmul_op transpose_op : Ref) (g : GraphObj) : GraphObj :=
  let matmul_input_idx := if is_left then 0 else 1
  let g2 := fuseLinks matmul_op transpose_op g
  let input := (g2.op transpose_op).inputs.headD 0
  let g4 := fuseTargets matmul_op transpose_op g2
  let g5 := if is_left then g4.updOp matmul_op (fun o => { o with transA := true })
    else g4.updOp matmul_op (fun o => { o with transB := true })
  g5.updOp matmul_op (fun o => { o with inputs := o.inputs.set matmul_input_idx input })

/-- The lambda `impl` of `eliminate_redundant_matmul_transpose` for the left
(`matmul_input_idx = 0`) or right (`1`) input of `matmul_op`, on the graph and `to_remove`. -/
def fuseSide (is_left : Bool) (matmul_op : Ref) (st : GraphObj × List Ref) :
    GraphObj × List Ref :=
  let g := st.1
  let matmul_input_idx := if is_left then 0 else 1
  let tensor := (g.op matmul_op).inputs.getD matmul_input_idx 0
  match (g.tensor tensor).source with
  | none => st
  | some source =>
      if (g.op source).type ≠ OpType.Transpose then st
      else
        let perm := (g.op source).permute
        if (List.range (perm.length - 2)).any (fun i => perm.getD i 0 != (i : Int)) then st
        else if perm.getD (perm.length - 1) 0 ≠ ((perm.length - 2 : Nat) : Int) ∨
            perm.getD (perm.length - 2) 0 ≠ ((perm.length - 1 : Nat) : Int) then st
        else (fuseGraph is_left matmul_op source g, st.2 ++ [source])

/-- The method `GraphObj::eliminate_redundant_matmul_transpose`. -/
def eliminate_redundant_matmul_transpose (g : GraphObj) (op : Ref) : GraphObj × List Ref :=
  if (g.op op).type ≠ OpType.MatMul then (g, [])
  else if (g.op op).transA ∨ (g.op op).transB then (g, [])
  else fuseSide false op (fuseSide true op (g, []))

/-- The scan of the lambda `executor` of `optimize` over the operators still to visit, on the
graph and the set `remove_ops`. -/
def scanOps (fn : GraphObj → Ref → GraphObj × List Ref) :
    List Ref → GraphObj × List Ref → GraphObj × List Ref
  | [], st => st
  | op :: rest, (g, remove_ops) =>
      if op ∈ remove_ops then scanOps fn rest (g, remove_ops)
      else
        match fn g op with
        | (g1, to_remove) => scanOps fn rest (g1, to_remove.foldl addRef remove_ops)

/-- The deletion loop of `executor`: the outputs of every collected operator leave the tensor
collection and the operator leaves the operator collection. -/
def deleteOps (g : GraphObj) (remove_ops : List Ref) : GraphObj :=
  remove_ops.foldl
    (fun h op => ((h.op op).outputs.foldl removeTensor h).removeOperator op) g

/-- The lambda `executor` of `optimize` for one rewrite rule `fn`. -/
def executor (fn : GraphObj → Ref → GraphObj × List Ref) (g : GraphObj) : GraphObj :=
  match scanOps fn g.ops (g, []) with
  | (g1, remove_ops) => deleteOps g1 remove_ops

/-- The method `GraphObj::optimize`. -/
def optimize (g : GraphObj) : GraphObj :=
  executor eliminate_redundant_matmul_transpose (executor eliminate_redundant_transposes g)

end GraphObj

/-! ## Connecting an operator and validation -/

namespace GraphObj

/-- The body of the first loop of `addOperatorAndConnect` for one (non-null) input tensor:
`op` becomes a target of `input`, and when `input` has a source `pred`, `op` becomes a
successor of `pred` and `pred` a predecessor of `op`. The set insertions `addTarget`,
`addSuccessors` and `addPredecessors` are `addRef`. -/
def connectInput (op : Ref) (g : GraphObj) (input : Ref) : GraphObj :=
  let g1 := g.updTensor input (fun t => { t with targets := addRef t.targets op })
  match (g1.tensor input).source with
  | none => g1
  | some pred =>
      (g1.updOp pred (fun o => { o with successors := addRef o.successors op })).updOp op
        (fun o => { o with predecessors := addRef o.predecessors pred })

/-- The body of the inner loop of `addOperatorAndConnect` for one target `succ` of an output
tensor: `op` becomes a predecessor of `succ` and `succ` a successor of `op`. -/
def connectTarget (op : Ref) (g : GraphObj) (succ : Ref) : GraphObj :=
  (g.updOp succ (fun o => { o with predecessors := addRef o.predecessors op })).updOp op
    (fun o => { o with successors := addRef o.successors succ })

/-- The body of the second loop of `addOperatorAndConnect` for one (non-null) output tensor:
`op` becomes the source of `output` and is linked with every target of `output`. The setter
`setSource` of `TensorObj`, which is not among the sources, is the assignment of the `source`
field. -/
def connectOutput (op : Ref) (g : GraphObj) (output : Ref) : GraphObj :=
  let g1 := g.updTensor output (fun t => { t with source := some op })
  (g1.tensor output).targets.foldl (connectTarget op) g1

/-- The two loops of `addOperatorAndConnect`, over the inputs and over the outputs of `op`. -/
def connectLoops (op : Ref) (g : GraphObj) : GraphObj :=
  let g1 := (g.op op).inputs.foldl (connectInput op) g
  (g1.op op).outputs.foldl (connectOutput op) g1

/-- The method `GraphObj::addOperatorAndConnect` for the operator object `op`, whose inputs
and outputs were set by its constructor. -/
def addOperatorAndConnect (g : GraphObj) (op : Ref) : GraphObj :=
  connectLoops op { g with sorted := false, ops := g.ops ++ [op] }

/-- The loop of `checkValid` that looks for two tensors with the same FUID, over the tensors
still to visit and the set `s` of the FUIDs seen; `false` is a failed `IT_ASSERT`. -/
def fuidsUnique (getFuid : Ref → Nat) : List Ref → List Nat → Bool
  | [], _ => true
  | tensor :: rest, s =>
      if getFuid tensor ∈ s then false else fuidsUnique getFuid rest (getFuid tensor :: s)

/-- The method `GraphObj::checkValid`: `true` when it returns, `false` when one of its
assertions fails. `getFuid` gives the FUID of a tensor object (`TensorObj::getFuid` is not
among the sources). -/
def checkValid (getFuid : Ref → Nat) (g : GraphObj) : Bool :=
  g.tensors.all (fun tensor =>
    !(decide ((g.tensor tensor).targets.length = 0) && (g.tensor tensor).source.isNone) &&
    (g.tensor tensor).targets.all (fun op => decide (op ∈ g.ops)) &&
    (match (g.tensor tensor).source with
      | none => true
      | some op => decide (op ∈ g.ops))) &&
  g.ops.all (fun op =>
    (g.op op).inputs.all (fun tensor => decide (tensor ∈ g.tensors)) &&
    (g.op op).outputs.all (fun tensor => decide (tensor ∈ g.tensors)) &&
    (g.op op).predecessors.all (fun pre => decide (pre ∈ g.ops)) &&
    (g.op op).successors.all (fun suc => decide (suc ∈ g.ops))) &&
  fuidsUnique getFuid g.tensors []

end GraphObj

/-- The permutations `p1` then `p2` of `r` axes compose to the identity: `p1[p2[i]] = i`. -/
def Cancels (p1 p2 : List Int) (r : Nat) : Prop :=
  ∀ i < r, 0 ≤ p2.getD i 0 ∧ (p2.getD i 0).toNat < r ∧
    p1.getD (p2.getD i 0).toNat 0 = (i : Int)

/-! ## The effect of one splice -/

/-- What one splice of the pair `t1`, `t2` with `out` and `inp` may change between two
graphs: inputs by replacing `out` with `inp`, predecessor sets by dropping `t2`, successor
sets by dropping `t1`, and target sets by dropping `t1` and adding operators. -/
structure SpliceRel (out inp t1 t2 : Ref) (g h : GraphObj) : Prop where
  ops_eq : h.ops = g.ops
  tensors_eq : h.tensors = g.tensors
  type_eq : ∀ o, (h.op o).type = (g.op o).type
  outputs_eq : ∀ o, (h.op o).outputs = (g.op o).outputs
  permute_eq : ∀ o, (h.op o).permute = (g.op o).permute
  transA_eq : ∀ o, (h.op o).transA = (g.op o).transA
  transB_eq : ∀ o, (h.op o).transB = (g.op o).transB
  source_eq : ∀ t, (h.tensor t).source = (g.tensor t).source
  dims_eq : ∀ t, (h.tensor t).dims = (g.tensor t).dims
  inputs_iter : ∀ o, ∃ n, (h.op o).inputs = (replaceFirst out inp)^[n] (g.op o).inputs
  preds : ∀ o, (h.op o).predecessors = (g.op o).predecessors ∨
    (h.op o).predecessors = removeRef (g.op o).predecessors t2
  succs : ∀ o, (h.op o).successors = (g.op o).successors ∨
    (h.op o).successors = removeRef (g.op o).successors t1
  targets : ∀ t c, c ∈ (g.tensor t).targets → c ≠ t1 → c ∈ (h.tensor t).targets

/-- The state after the scan visits `op`. -/
def scanStep (fn : GraphObj → Ref → GraphObj × List Ref) (st : GraphObj × List Ref) (op : Ref) :
    GraphObj × List Ref :=
  if op ∈ st.2 then st else ((fn st.1 op).1, (fn st.1 op).2.foldl addRef st.2)

/-! ## Well-linked graphs -/

/-- The structural validity of a graph that the rewrite rules rely on: the collections hold no
object twice, a tensor's source is the operator that lists it as an output, predecessors are
the sources of the inputs and consumers are successors of the source, predecessors are
operators of the graph, and a Transpose has one input and one output. -/
structure WellLinked (g : GraphObj) : Prop where
  ops_nodup : g.ops.Nodup
  tensors_nodup : g.tensors.Nodup
  out_source : ∀ o ∈ g.ops, ∀ t ∈ (g.op o).outputs, (g.tensor t).source = some o
  source_out : ∀ c ∈ g.ops, ∀ t ∈ (g.op c).inputs, ∀ p ∈ (g.tensor t).source,
    t ∈ (g.op p).outputs
  pred_source : ∀ c ∈ g.ops, ∀ p ∈ (g.op c).predecessors,
    ∃ t ∈ (g.op c).inputs, (g.tensor t).source = some p
  source_succ : ∀ c ∈ g.ops, ∀ t ∈ (g.op c).inputs, ∀ p ∈ (g.tensor t).source,
    c ∈ (g.op p).successors
  preds_mem : ∀ c ∈ g.ops, ∀ p ∈ (g.op c).predecessors, p ∈ g.ops
  transpose_io : ∀ o ∈ g.ops, (g.op o).type = OpType.Transpose →
    (g.op o).inputs.length = 1 ∧ (g.op o).outputs.length = 1

/-- What no rewrite step changes between the graph `g` at the start of `optimize` and a later
graph `h`: the kinds, outputs and permutations of the operators, the sources and shapes of the
tensors and the number of inputs of an operator. -/
structure Static (g h : GraphObj) : Prop where
  type_eq : ∀ o, (h.op o).type = (g.op o).type
  outputs_eq : ∀ o, (h.op o).outputs = (g.op o).outputs
  permute_eq : ∀ o, (h.op o).permute = (g.op o).permute
  source_eq : ∀ t, (h.tensor t).source = (g.tensor t).source
  dims_eq : ∀ t, (h.tensor t).dims = (g.tensor t).dims
  inputs_len : ∀ o, (h.op o).inputs.length = (g.op o).inputs.length

/-! ## Transpose cancellation -/

/-- The graph `g` holds a cancelling pair of Transposes `T1 → T2` over the tensor `X`, with
outputs `Y1` and `Y2`: `T2`'s only predecessor is `T1`, `Y1` is consumed only by `T2`, the
permutations compose to the identity, `X` is not produced by a Transpose and `Y2` is not
consumed by a Transpose. -/
structure CancelPair (g : GraphObj) (T1 T2 X Y1 Y2 : Ref) : Prop where
  wl : WellLinked g
  t1_mem : T1 ∈ g.ops
  t2_mem : T2 ∈ g.ops
  t1_type : (g.op T1).type = OpType.Transpose
  t2_type : (g.op T2).type = OpType.Transpose
  t1_inputs : (g.op T1).inputs = [X]
  t1_outputs : (g.op T1).outputs = [Y1]
  t2_inputs : (g.op T2).inputs = [Y1]
  t2_outputs : (g.op T2).outputs = [Y2]
  t2_preds : (g.op T2).predecessors = [T1]
  y1_only : ∀ c ∈ g.ops, Y1 ∈ (g.op c).inputs → c = T2
  cancels : Cancels (g.op T1).permute (g.op T2).permute (g.tensor X).dims.length
  x_source : ∀ p ∈ (g.tensor X).source, (g.op p).type ≠ OpType.Transpose
  y2_consumers : ∀ c ∈ g.ops, Y2 ∈ (g.op c).inputs → (g.op c).type ≠ OpType.Transpose

/-- The state of the first scan of `optimize` before it visits `T2`. -/
structure BeforeCancel (g : GraphObj) (T1 T2 X Y2 : Ref) (st : GraphObj × List Ref) :
    Prop where
  static : Static g st.1
  preds_sub : ∀ o p, p ∈ (st.1.op o).predecessors → p ∈ (g.op o).predecessors
  rem_type : ∀ r ∈ st.2, (g.op r).type = OpType.Transpose
  t2_not_rem : T2 ∉ st.2
  t2_preds : (st.1.op T2).predecessors = [T1]
  t1_input : (st.1.op T1).inputs[0]? = some X
  no_transpose : ∀ o ∈ g.ops, (g.op o).type = OpType.Transpose → Y2 ∉ (st.1.op o).inputs
  consumers : ∀ c ∈ g.ops, Y2 ∈ (g.op c).inputs → c ∈ (st.1.op T2).successors
  slots : ∀ (c : Ref) (i : Nat), c ∈ g.ops → (g.op c).inputs[i]? = some Y2 → (st.1.op c).inputs[i]? = some Y2
  slots_inv : ∀ (c : Ref) (j : Nat), c ∈ g.ops → (st.1.op c).inputs[j]? = some Y2 →
    (g.op c).inputs[j]? = some Y2

/-- The state of the first scan of `optimize` after it has visited `T2`. -/
structure AfterCancel (g : GraphObj) (T1 T2 X Y2 : Ref) (st : GraphObj × List Ref) : Prop where
  static : Static g st.1
  rem_type : ∀ r ∈ st.2, (g.op r).type = OpType.Transpose
  t1_rem : T1 ∈ st.2
  t2_rem : T2 ∈ st.2
  rewired : ∀ (c : Ref) (i : Nat), c ∈ g.ops → (g.op c).inputs[i]? = some Y2 →
    (∀ j : Nat, (g.op c).inputs[j]? = some Y2 → j = i) →
    (st.1.op c).inputs[i]? = some X ∧ c ∈ (st.1.tensor X).targets

/-! ## The effect of one fusion -/

/-- What the link updates of a fusion of the Transpose `tr` may change between two graphs:
predecessor and successor sets, and target sets, which lose at most `tr`. -/
structure LinkRel (tr : Ref) (g h : GraphObj) : Prop where
  ops_eq : h.ops = g.ops
  tensors_eq : h.tensors = g.tensors
  type_eq : ∀ o, (h.op o).type = (g.op o).type
  inputs_eq : ∀ o, (h.op o).inputs = (g.op o).inputs
  outputs_eq : ∀ o, (h.op o).outputs = (g.op o).outputs
  permute_eq : ∀ o, (h.op o).permute = (g.op o).permute
  transA_eq : ∀ o, (h.op o).transA = (g.op o).transA
  transB_eq : ∀ o, (h.op o).transB = (g.op o).transB
  source_eq : ∀ t, (h.tensor t).source = (g.tensor t).source
  dims_eq : ∀ t, (h.tensor t).dims = (g.tensor t).dims
  targets : ∀ t c, c ∈ (g.tensor t).targets → c ≠ tr → c ∈ (h.tensor t).targets

/-- What the second scan of `optimize` may change between two graphs: an input slot only when
it holds a tensor produced by a Transpose, a target set only by dropping Transposes. -/
structure FuseRel (g h : GraphObj) : Prop where
  ops_eq : h.ops = g.ops
  tensors_eq : h.tensors = g.tensors
  static : Static g h
  slots : ∀ (o : Ref) (i : Nat) (v : Ref), (g.op o).inputs[i]? = some v →
    (∀ p, (g.tensor v).source = some p → (g.op p).type ≠ OpType.Transpose) →
    (h.op o).inputs[i]? = some v
  targets : ∀ t c, c ∈ (g.tensor t).targets → (g.op c).type ≠ OpType.Transpose →
    c ∈ (h.tensor t).targets

/-! ## MatMul fusion -/

/-- The permutation fixes all leading axes and swaps the last two. -/
def SwapsLastTwo (perm : List Int) : Prop :=
  2 ≤ perm.length ∧ (∀ i < perm.length - 2, perm.getD i 0 = (i : Int)) ∧
    perm.getD (perm.length - 1) 0 = ((perm.length - 2 : Nat) : Int) ∧
    perm.getD (perm.length - 2) 0 = ((perm.length - 1 : Nat) : Int)

/-- The graph `g` holds a MatMul `M` with both flags unset whose right input (left input when
`is_left`) is the output `Y` of a Transpose `Tr` over the tensor `B` that swaps the last two
axes; `Y` is consumed only by `M`, and neither the other input `A` nor `B` is produced by a
Transpose. -/
structure FusePair (g : GraphObj) (is_left : Bool) (M Tr A B Y : Ref) : Prop where
  wl : WellLinked g
  m_mem : M ∈ g.ops
  tr_mem : Tr ∈ g.ops
  m_type : (g.op M).type = OpType.MatMul
  m_transA : (g.op M).transA = false
  m_transB : (g.op M).transB = false
  m_inputs : (g.op M).inputs = if is_left then [Y, A] else [A, Y]
  tr_type : (g.op Tr).type = OpType.Transpose
  tr_inputs : (g.op Tr).inputs = [B]
  tr_outputs : (g.op Tr).outputs = [Y]
  tr_perm : SwapsLastTwo (g.op Tr).permute
  y_only : ∀ c ∈ g.ops, Y ∈ (g.op c).inputs → c = M
  a_source : ∀ p ∈ (g.tensor A).source, (g.op p).type ≠ OpType.Transpose
  b_source : ∀ p ∈ (g.tensor B).source, (g.op p).type ≠ OpType.Transpose

/-- The state of the first scan of `optimize` on a graph with a fusible pair: the pair is left
alone. -/
structure KeepFuse (g : GraphObj) (M Tr : Ref) (st : GraphObj × List Ref) : Prop where
  static : Static g st.1
  preds_sub : ∀ o p, p ∈ (st.1.op o).predecessors → p ∈ (g.op o).predecessors
  rem_type : ∀ r ∈ st.2, (g.op r).type = OpType.Transpose
  tr_not_rem : Tr ∉ st.2
  m_inputs : (st.1.op M).inputs = (g.op M).inputs
  m_transA : (st.1.op M).transA = (g.op M).transA
  m_transB : (st.1.op M).transB = (g.op M).transB
  tr_inputs : (st.1.op Tr).inputs = (g.op Tr).inputs

/-- The state of the second scan of `optimize` before it visits `M`. -/
structure BeforeFuse (g : GraphObj) (M Tr : Ref) (st : GraphObj × List Ref) : Prop where
  static : Static g st.1
  rem_type : ∀ r ∈ st.2, (g.op r).type = OpType.Transpose
  m_inputs : (st.1.op M).inputs = (g.op M).inputs
  m_transA : (st.1.op M).transA = false
  m_transB : (st.1.op M).transB = false
  tr_inputs : (st.1.op Tr).inputs = (g.op Tr).inputs

/-- The state of the second scan of `optimize` after it has visited `M`. -/
structure AfterFuse (g : GraphObj) (is_left : Bool) (M Tr A B : Ref)
    (st : GraphObj × List Ref) : Prop where
  static : Static g st.1
  rem_type : ∀ r ∈ st.2, (g.op r).type = OpType.Transpose
  tr_rem : Tr ∈ st.2
  m_inputs : (st.1.op M).inputs = if is_left then [B, A] else [A, B]
  m_transA : (st.1.op M).transA = is_left
  m_transB : (st.1.op M).transB = !is_left
  m_target : M ∈ (st.1.tensor B).targets

/-- The facts about the fusible pair that the second scan needs, stated on the graph it
starts from. -/
structure FuseReady (g : GraphObj) (is_left : Bool) (M Tr A B Y : Ref) : Prop where
  ops_nodup : g.ops.Nodup
  tensors_nodup : g.tensors.Nodup
  m_mem : M ∈ g.ops
  m_type : (g.op M).type = OpType.MatMul
  m_transA : (g.op M).transA = false
  m_transB : (g.op M).transB = false
  m_inputs : (g.op M).inputs = if is_left then [Y, A] else [A, Y]
  tr_type : (g.op Tr).type = OpType.Transpose
  tr_inputs : (g.op Tr).inputs = [B]
  tr_outputs : (g.op Tr).outputs = [Y]
  tr_perm : SwapsLastTwo (g.op Tr).permute
  y_source : (g.tensor Y).source = some Tr
  a_source : ∀ p, (g.tensor A).source = some p → (g.op p).type ≠ OpType.Transpose

/-! ## Example graphs for the rewrite rules -/

/-- A Transpose operator object. -/
def transposeOp (input output : Ref) (perm : List Int) (preds succs : List Ref) : OperatorObj :=
  { type := OpType.Transpose, inputs := [input], outputs := [output], predecessors := preds,
    successors := succs, permute := perm, transA := false, transB := false }

/-- A MatMul operator object with both transpose flags unset. -/
def matmulOp (a b c : Ref) (preds succs : List Ref) : OperatorObj :=
  { type := OpType.MatMul, inputs := [a, b], outputs := [c], predecessors := preds,
    successors := succs, permute := [], transA := false, transB := false }

/-- Three Transposes `[1, 0]` in a row and a consumer: operators 0, 1, 2 map tensor 0 to 1, 1
to 2 and 2 to 3; operator 3 consumes tensor 3 and produces tensor 4. -/
def chain3 : GraphObj :=
  { ops := [0, 1, 2, 3], tensors := [0, 1, 2, 3, 4], sorted := false,
    allocator := Allocator.fresh,
    op := fun r => match r with
      | 0 => transposeOp 0 1 [1, 0] [] [1]
      | 1 => transposeOp 1 2 [1, 0] [0] [2]
      | 2 => transposeOp 2 3 [1, 0] [1] [3]
      | _ => { plainOp [3] [4] with predecessors := [2] },
    tensor := fun r => match r with
      | 0 => { dims := [2, 3], source := none, targets := [0] }
      | 1 => { dims := [3, 2], source := some 0, targets := [1] }
      | 2 => { dims := [2, 3], source := some 1, targets := [2] }
      | 3 => { dims := [3, 2], source := some 2, targets := [3] }
      | _ => { dims := [3, 2], source := some 3, targets := [] } }

/-- A producer, a cancelling pair of Transposes `[1, 0]` and a consumer: operator 0 maps
tensor 0 to 1, the Transposes 1 and 2 map tensor 1 to 2 and 2 to 3, operator 3 consumes
tensor 3 and produces tensor 4. -/
def pairGraph : GraphObj :=
  { ops := [0, 1, 2, 3], tensors := [0, 1, 2, 3, 4], sorted := false,
    allocator := Allocator.fresh,
    op := fun r => match r with
      | 0 => { plainOp [0] [1] with successors := [1] }
      | 1 => transposeOp 1 2 [1, 0] [0] [2]
      | 2 => transposeOp 2 3 [1, 0] [1] [3]
      | _ => { plainOp [3] [4] with predecessors := [2] },
    tensor := fun r => match r with
      | 0 => { dims := [2, 3], source := none, targets := [0] }
      | 1 => { dims := [2, 3], source := some 0, targets := [1] }
      | 2 => { dims := [3, 2], source := some 1, targets := [2] }
      | 3 => { dims := [2, 3], source := some 2, targets := [3] }
      | _ => { dims := [2, 3], source := some 3, targets := [] } }

/-- Two Transposes `[0, 2, 1]` in a row feeding the right input of a MatMul: operators 0 and 1
map tensor 0 to 1 and 1 to 2; the MatMul 2 maps tensors 3 and 2 to tensor 4. -/
def fuse3 : GraphObj :=
  { ops := [0, 1, 2], tensors := [0, 1, 2, 3, 4], sorted := false,
    allocator := Allocator.fresh,
    op := fun r => match r with
      | 0 => transposeOp 0 1 [0, 2, 1] [] [1]
      | 1 => transposeOp 1 2 [0, 2, 1] [0] [2]
      | _ => matmulOp 3 2 4 [1] [],
    tensor := fun r => match r with
      | 0 => { dims := [2, 3, 4], source := none, targets := [0] }
      | 1 => { dims := [2, 4, 3], source := some 0, targets := [1] }
      | 2 => { dims := [2, 3, 4], source := some 1, targets := [2] }
      | 3 => { dims := [2, 5, 3], source := none, targets := [2] }
      | _ => { dims := [2, 5, 4], source := some 2, targets := [] } }

/-- A Transpose `[0, 2, 1]` feeding the right input of a MatMul: operator 0 maps tensor 0 to
1; the MatMul 1 maps tensors 2 and 1 to tensor 3. -/
def fuse2 : GraphObj :=
  { ops := [0, 1], tensors := [0, 1, 2, 3], sorted := false,
    allocator := Allocator.fresh,
    op := fun r => match r with
      | 0 => transposeOp 0 1 [0, 2, 1] [] [1]
      | _ => matmulOp 2 1 3 [0] [],
    tensor := fun r => match r with
      | 0 => { dims := [2, 4, 3], source := none, targets := [0] }
      | 1 => { dims := [2, 3, 4], source := some 0, targets := [1] }
      | 2 => { dims := [2, 5, 3], source := none, targets := [1] }
      | _ => { dims := [2, 5, 4], source := some 1, targets := [] } }

instance (p1 p2 : List Int) (r : Nat) : Decidable (Cancels p1 p2 r) := by
  unfold Cancels
  infer_instance

instance (perm : List Int) : Decidable (SwapsLastTwo perm) := by
  unfold SwapsLastTwo
  infer_instance

/-! ## Links between producers and consumers -/

/-- The producer/consumer link invariant: for every tensor of the graph, its source operator
is a predecessor of each of its consumers (the operators of its target set) and each consumer
is a successor of the source. -/
def LinkInv (g : GraphObj) : Prop :=
  ∀ t ∈ g.tensors, ∀ a ∈ (g.tensor t).source, ∀ b ∈ (g.tensor t).targets,
    a ∈ (g.op b).predecessors ∧ b ∈ (g.op a).successors

instance (g : GraphObj) : Decidable (LinkInv g) := by
  unfold LinkInv
  infer_instance

/-- Two Transposes `[1, 2, 0]` in a row over a tensor of shape `[3, 3, 3]` and a consumer:
operators 0 and 1 map tensor 0 to 1 and 1 to 2, operator 2 consumes tensor 2 and produces
tensor 3. The two rotations do not compose to the identity. -/
def cubeGraph : GraphObj :=
  { ops := [0, 1, 2], tensors := [0, 1, 2, 3], sorted := false, allocator := Allocator.fresh,
    op := fun r => match r with
      | 0 => transposeOp 0 1 [1, 2, 0] [] [1]
      | 1 => transposeOp 1 2 [1, 2, 0] [0] [2]
      | _ => { plainOp [2] [3] with predecessors := [1] },
    tensor := fun r => match r with
      | 0 => { dims := [3, 3, 3], source := none, targets := [0] }
      | 1 => { dims := [3, 3, 3], source := some 0, targets := [1] }
      | 2 => { dims := [3, 3, 3], source := some 1, targets := [2] }
      | _ => { dims := [3, 3, 3], source := some 2, targets := [] } }

/-- A producer, a Transpose `[0, 2, 1]` and a MatMul: operator 0 maps tensor 0 to 1, the
Transpose 1 maps tensor 1 to 2, and the MatMul 2 maps tensors 3 and 2 to tensor 4. -/
def fuseProd : GraphObj :=
  { ops := [0, 1, 2], tensors := [0, 1, 2, 3, 4], sorted := false,
    allocator := Allocator.fresh,
    op := fun r => match r with
      | 0 => { plainOp [0] [1] with successors := [1] }
      | 1 => transposeOp 1 2 [0, 2, 1] [0] [2]
      | _ => matmulOp 3 2 4 [1] [],
    tensor := fun r => match r with
      | 0 => { dims := [2, 4, 3], source := none, targets := [0] }
      | 1 => { dims := [2, 4, 3], source := some 0, targets := [1] }
      | 2 => { dims := [2, 3, 4], source := some 1, targets := [2] }
      | 3 => { dims := [2, 5, 3], source := none, targets := [2] }
      | _ => { dims := [2, 5, 4], source := some 2, targets := [] } }

/-- A cancelling pair of Transposes `[1, 0]` whose middle tensor has a second consumer:
the Transposes 0 and 1 map tensor 0 to 1 and 1 to 2, operator 2 also consumes tensor 1 and
produces tensor 3, operator 3 consumes tensor 2 and produces tensor 4. -/
def forkGraph : GraphObj :=
  { ops := [0, 1, 2, 3], tensors := [0, 1, 2, 3, 4], sorted := false,
    allocator := Allocator.fresh,
    op := fun r => match r with
      | 0 => transposeOp 0 1 [1, 0] [] [1, 2]
      | 1 => transposeOp 1 2 [1, 0] [0] [3]
      | 2 => { plainOp [1] [3] with predecessors := [0] }
      | _ => { plainOp [2] [4] with predecessors := [1] },
    tensor := fun r => match r with
      | 0 => { dims := [2, 3], source := none, targets := [0] }
      | 1 => { dims := [3, 2], source := some 0, targets := [1, 2] }
      | 2 => { dims := [2, 3], source := some 1, targets := [3] }
      | 3 => { dims := [3, 2], source := some 2, targets := [] }
      | _ => { dims := [2, 3], source := some 3, targets := [] } }

/-- A cancelling pair of Transposes `[1, 0]` between a graph input and a graph output: the
Transposes 0 and 1 map tensor 0 to 1 and 1 to 2, and nothing consumes tensor 2. -/
def barePair : GraphObj :=
  { ops := [0, 1], tensors := [0, 1, 2], sorted := false, allocator := Allocator.fresh,
    op := fun r => match r with
      | 0 => transposeOp 0 1 [1, 0] [] [1]
      | _ => transposeOp 1 2 [1, 0] [0] [],
    tensor := fun r => match r with
      | 0 => { dims := [2, 3], source := none, targets := [0] }
      | 1 => { dims := [3, 2], source := some 0, targets := [1] }
      | _ => { dims := [2, 3], source := some 1, targets := [] } }

/-- What the link updates of `addOperatorAndConnect` may change between two graphs: the
predecessor, successor and target sets grow; the collections, the `sorted` flag and the
inputs and outputs of the operators stay. -/
structure Grows (g h : GraphObj) : Prop where
  ops_eq : h.ops = g.ops
  tensors_eq : h.tensors = g.tensors
  sorted_eq : h.sorted = g.sorted
  inputs_eq : ∀ o, (h.op o).inputs = (g.op o).inputs
  outputs_eq : ∀ o, (h.op o).outputs = (g.op o).outputs
  preds_sub : ∀ o x, x ∈ (g.op o).predecessors → x ∈ (h.op o).predecessors
  succs_sub : ∀ o x, x ∈ (g.op o).successors → x ∈ (h.op o).successors
  targets_sub : ∀ t x, x ∈ (g.tensor t).targets → x ∈ (h.tensor t).targets

/-- A producer (operator 0, tensor 0 to 1), a consumer (operator 2, tensor 2 to 3) of a tensor
without source, and the operator object 1 (tensor 1 to 2), which is not yet in the graph. -/
def addDemo : GraphObj :=
  { ops := [0, 2], tensors := [0, 1, 2, 3], sorted := true, allocator := Allocator.fresh,
    op := fun r => match r with
      | 0 => plainOp [0] [1]
      | 1 => plainOp [1] [2]
      | _ => plainOp [2] [3],
    tensor := fun r => match r with
      | 0 => { dims := [2], source := none, targets := [0] }
      | 1 => { dims := [2], source := some 0, targets := [] }
      | 2 => { dims := [2], source := none, targets := [2] }
      | _ => { dims := [2], source := some 2, targets := [] } }

/-! # Theorems -/

/-! ## Arithmetic lemmas -/

theorem wrap_of_lt {n : Nat} (h : n < SIZE_MOD) : wrap n = n := Nat.mod_eq_of_lt h

theorem wsub_of_le {a b : Nat} (hb : b ≤ a) (ha : a < SIZE_MOD) : wsub a b = a - b := by
  unfold wsub
  have hb2 : b < SIZE_MOD := lt_of_le_of_lt hb ha
  rw [Nat.mod_eq_of_lt hb2]
  have : a + SIZE_MOD - b = (a - b) + SIZE_MOD := by omega
  rw [this, Nat.add_mod_right]
  exact Nat.mod_eq_of_lt (by omega)

theorem align8_bounds (size : Nat) (h : 1 ≤ size) :
    size ≤ align8 size ∧ align8 size < size + 8 ∧ 0 < align8 size := by
  unfold align8
  omega

theorem getAlignedSize_eq (a : Allocator) (size : Nat) (ha : a.alignment = 8)
    (h1 : 1 ≤ size) (h2 : size + 7 < SIZE_MOD) : a.getAlignedSize size = align8 size := by
  have hb := align8_bounds size h1
  unfold Allocator.getAlignedSize
  rw [ha, wsub_of_le h1 (by omega)]
  have e : ((size - 1) / 8 + 1) * 8 = align8 size := rfl
  have h3 : (size - 1) / 8 + 1 < SIZE_MOD := by omega
  rw [wrap_of_lt h3, e, wrap_of_lt (by omega)]

theorem align8_lt_fits (n : Nat) (_h1 : 1 ≤ n) (h : align8 n < SIZE_MOD) : n + 7 < SIZE_MOD := by
  unfold align8 SIZE_MOD at *
  omega

theorem align8_mono (m n : Nat) (h : m ≤ n) : align8 m ≤ align8 n := by
  unfold align8
  have : (m - 1) / 8 ≤ (n - 1) / 8 := Nat.div_le_div_right (by omega)
  omega

/-! ## Ledger lemmas -/

theorem chain_le : ∀ (m : Ledger) (lo hi : Nat), Chain lo m hi → lo ≤ hi
  | [], _, _, h => h
  | (o, l) :: rest, lo, hi, h => by
      obtain ⟨h1, _, h3⟩ := h
      have := chain_le rest (o + l) hi h3
      omega

theorem chain_mono : ∀ (m : Ledger) (lo hi lo1 hi1 : Nat),
    Chain lo m hi → lo1 ≤ lo → hi ≤ hi1 → Chain lo1 m hi1
  | [], _, _, _, _, h, h1, h2 => by
      simp only [Chain] at h ⊢
      omega
  | (o, l) :: rest, lo, hi, lo1, hi1, h, h1, h2 => by
      obtain ⟨a1, a2, a3⟩ := h
      exact ⟨by omega, a2, chain_mono rest (o + l) hi (o + l) hi1 a3 (le_refl _) h2⟩

theorem chain_append : ∀ (p q : Ledger) (lo mid mid1 hi : Nat),
    Chain lo p mid → Chain mid1 q hi → mid ≤ mid1 → Chain lo (p ++ q) hi
  | [], q, lo, mid, mid1, hi, h1, h2, h3 => by
      simp only [Chain] at h1
      exact chain_mono q mid1 hi lo hi h2 (by omega) (le_refl _)
  | (o, l) :: rest, q, lo, mid, mid1, hi, h1, h2, h3 => by
      obtain ⟨a1, a2, a3⟩ := h1
      exact ⟨a1, a2, chain_append rest q (o + l) mid mid1 hi a3 h2 h3⟩

theorem chain_keys_lt : ∀ (p : Ledger) (lo mid : Nat), Chain lo p mid →
    ∀ e ∈ p, lo ≤ e.1 ∧ e.1 < mid ∧ e.1 + e.2 ≤ mid ∧ 0 < e.2
  | [], _, _, _, e, he => by simp at he
  | (o, l) :: rest, lo, mid, h, e, he => by
      obtain ⟨a1, a2, a3⟩ := h
      have hle := chain_le rest (o + l) mid a3
      rcases List.mem_cons.mp he with rfl | hmem
      · exact ⟨a1, by simp only; omega, hle, a2⟩
      · have := chain_keys_lt rest (o + l) mid a3 e hmem
        omega

theorem chain_nonOverlapping : ∀ (m : Ledger) (lo hi : Nat), Chain lo m hi → NonOverlapping m
  | [], _, _, _ => List.Pairwise.nil
  | (o, l) :: rest, lo, hi, h => by
      obtain ⟨_, _, a3⟩ := h
      refine List.Pairwise.cons ?_ (chain_nonOverlapping rest (o + l) hi a3)
      intro e he
      have := chain_keys_lt rest (o + l) hi a3 e he
      exact Or.inl this.1

theorem ledgerTotal_append (p q : Ledger) :
    ledgerTotal (p ++ q) = ledgerTotal p + ledgerTotal q := by
  simp [ledgerTotal]

theorem ledgerTotal_cons (e : Nat × Nat) (q : Ledger) :
    ledgerTotal (e :: q) = e.2 + ledgerTotal q := by
  simp [ledgerTotal]

theorem ledgerTotal_le : ∀ (m : Ledger) (lo hi : Nat), Chain lo m hi →
    lo + ledgerTotal m ≤ hi
  | [], _, _, h => by simpa [ledgerTotal] using h
  | (o, l) :: rest, lo, hi, h => by
      obtain ⟨a1, _, a3⟩ := h
      have := ledgerTotal_le rest (o + l) hi a3
      rw [ledgerTotal_cons]
      simp only
      omega

/-- Assigning a key that lies in the hole between a chain `p` ending at or before it and a
chain `q` starting after it inserts the entry between the two. -/
theorem mapAssign_hole : ∀ (p q : Ledger) (lo o e hi k v : Nat),
    Chain lo p o → Chain e q hi → o ≤ k → 0 < v → k + v ≤ e →
    mapAssign (p ++ q) k v = p ++ (k, v) :: q
  | [], [], _, _, _, _, _, _, _, _, _, _, _ => rfl
  | [], (o2, l2) :: rest, lo, o, e, hi, k, v, _, h2, _, hv, h5 => by
      obtain ⟨a1, _, _⟩ := h2
      have : k < o2 := by omega
      simp [mapAssign, this]
  | (o1, l1) :: rest, q, lo, o, e, hi, k, v, h1, h2, h3, hv, h5 => by
      obtain ⟨a1, a2, a3⟩ := h1
      have hle := chain_le rest (o1 + l1) o a3
      have ih := mapAssign_hole rest q (o1 + l1) o e hi k v a3 h2 h3 hv h5
      have n1 : ¬ k < o1 := by omega
      have n2 : ¬ k = o1 := by omega
      simp [mapAssign, n1, n2, ih]

/-- Erasing the key of an entry that sits between two chains removes exactly that entry. -/
theorem mapErase_mid : ∀ (p q : Ledger) (lo o l : Nat), Chain lo p o →
    mapErase (p ++ (o, l) :: q) o = p ++ q
  | [], q, _, o, l, _ => by simp [mapErase]
  | (o1, l1) :: rest, q, lo, o, l, h => by
      obtain ⟨_, a2, a3⟩ := h
      have hle := chain_le rest (o1 + l1) o a3
      have n1 : ¬ o1 = o := by omega
      simp [mapErase, n1, mapErase_mid rest q (o1 + l1) o l a3]

/-- The entry found by `--upper_bound(addr)` splits a chain into the part before it and the
part after it; the part after it starts beyond `addr`. -/
theorem mapFloor_split : ∀ (m : Ledger) (lo hi addr o l : Nat), Chain lo m hi →
    mapFloor m addr = some (o, l) →
    ∃ p q, m = p ++ (o, l) :: q ∧ Chain lo p o ∧ 0 < l ∧ Chain (o + l) q hi ∧ o ≤ addr ∧
      (∀ e ∈ q, addr < e.1)
  | [], _, _, _, _, _, _, h => by simp [mapFloor] at h
  | (k, v) :: rest, lo, hi, addr, o, l, hc, h => by
      obtain ⟨a1, a2, a3⟩ := hc
      simp only [mapFloor] at h
      by_cases hk : addr < k
      · simp [hk] at h
      · simp only [hk, if_false] at h
        cases hr : mapFloor rest addr with
        | some e =>
            rw [hr] at h
            simp only [Option.some.injEq] at h
            subst h
            obtain ⟨p, q, e1, e2, e3, e4, e5, e6⟩ :=
              mapFloor_split rest (k + v) hi addr o l a3 hr
            refine ⟨(k, v) :: p, q, by simp [e1], ⟨a1, a2, e2⟩, e3, e4, e5, e6⟩
        | none =>
            rw [hr] at h
            simp only [Option.some.injEq, Prod.mk.injEq] at h
            obtain ⟨rfl, rfl⟩ := h
            refine ⟨[], rest, rfl, a1, a2, a3, by omega, ?_⟩
            intro e he
            cases rest with
            | nil => simp at he
            | cons hd tl =>
                obtain ⟨k2, v2⟩ := hd
                simp only [mapFloor] at hr
                by_cases hk2 : addr < k2
                · obtain ⟨b1, b2, b3⟩ := a3
                  rcases List.mem_cons.mp he with rfl | hmem
                  · exact hk2
                  · have := chain_keys_lt tl (k2 + v2) hi b3 e hmem
                    omega
                · simp only [hk2, if_false] at hr
                  cases hr2 : mapFloor tl addr <;> simp [hr2] at hr

/-- Without overflow a successful first-fit scan splits the chain at the gap it returns. -/
theorem findGap_split : ∀ (m : Ledger) (cursor hi size c : Nat), Chain cursor m hi →
    hi + size < SIZE_MOD → Allocator.findGap size cursor m = some c →
    ∃ p q, m = p ++ q ∧ Chain cursor p c ∧ Chain (c + size) q hi
  | [], _, _, _, _, _, _, h => by simp [Allocator.findGap] at h
  | (o, l) :: rest, cursor, hi, size, c, hc, hs, h => by
      obtain ⟨a1, a2, a3⟩ := hc
      have hle := chain_le rest (o + l) hi a3
      simp only [Allocator.findGap] at h
      rw [wrap_of_lt (by omega), wrap_of_lt (by omega)] at h
      by_cases hg : cursor + size ≤ o
      · simp only [hg, if_true, Option.some.injEq] at h
        subst h
        exact ⟨[], (o, l) :: rest, rfl, le_refl _, hg, a2, a3⟩
      · simp only [hg, if_false] at h
        obtain ⟨p, q, e1, e2, e3⟩ := findGap_split rest (o + l) hi size c a3 hs h
        exact ⟨(o, l) :: p, q, by simp [e1], ⟨a1, a2, e2⟩, e3⟩

theorem used_le_tail {a : Allocator} (h : Inv a) : a.used ≤ a.last_addr_ := by
  have := ledgerTotal_le a.free_blocks_ 0 a.last_addr_ h.chain
  rw [h.used_eq]
  omega

theorem mapAssign_tail (m : Ledger) (t v : Nat) (h : Chain 0 m t) (hv : 0 < v) :
    mapAssign m t v = m ++ [(t, v)] := by
  have := mapAssign_hole m [] 0 t (t + v) (t + v) t v h (le_refl _) (le_refl _) hv (le_refl _)
  simpa using this

/-- Without overflow, `alloc` takes the fast path when the tail slack holds the padded size,
else the first gap found by the scan, else it grows the tail and `peak`. -/
theorem alloc_eq (a : Allocator) (size : Nat) (hinv : Inv a) (hf : AllocFits a size) :
    a.alloc size =
      if align8 size + a.last_addr_ ≤ a.peak then
        Result.ok a.last_addr_ (placeAtTail a (align8 size) a.peak)
      else
        match Allocator.findGap (align8 size) 0 a.free_blocks_ with
        | some c => Result.ok c (placeInGap a (align8 size) c)
        | none => Result.ok a.last_addr_
            (placeAtTail a (align8 size) (a.last_addr_ + align8 size)) := by
  obtain ⟨h1, h2, h3⟩ := hf
  have hb := align8_bounds size h1
  have hu := used_le_tail hinv
  have hA := getAlignedSize_eq a size hinv.align h1 h2
  have hsum : wrap (align8 size + a.last_addr_) = align8 size + a.last_addr_ :=
    wrap_of_lt (by omega)
  have hsum2 : wrap (a.last_addr_ + align8 size) = a.last_addr_ + align8 size :=
    wrap_of_lt h3
  have hused : wrap (a.used + align8 size) = a.used + align8 size := wrap_of_lt (by omega)
  have hsub : wsub (a.last_addr_ + align8 size) (align8 size) = a.last_addr_ := by
    rw [wsub_of_le (by omega) h3]
    omega
  have htail := mapAssign_tail a.free_blocks_ a.last_addr_ (align8 size) hinv.chain hb.2.2
  unfold Allocator.alloc
  simp only [hinv.not_mat, hA, hsum, hsum2, hused, hsub, htail, Bool.false_eq_true, if_false]
  by_cases hfast : align8 size + a.last_addr_ ≤ a.peak
  · simp only [hfast, if_true, placeAtTail, hinv.not_mat]
  · simp only [hfast, if_false]
    cases hg : Allocator.findGap (align8 size) 0 a.free_blocks_ with
    | some c => simp only [placeInGap, hinv.not_mat]
    | none => simp only [placeAtTail, hinv.not_mat]

theorem inv_placeAtTail (a : Allocator) (len peak1 : Nat) (h : Inv a) (hl : 0 < len)
    (hp : a.last_addr_ + len ≤ peak1) (hp2 : peak1 < SIZE_MOD) :
    Inv (placeAtTail a len peak1) := by
  refine ⟨?_, hp, hp2, ?_, h.not_mat, h.align⟩
  · exact chain_append a.free_blocks_ [(a.last_addr_, len)] 0 a.last_addr_ a.last_addr_
      (a.last_addr_ + len) h.chain ⟨le_refl _, hl, le_refl _⟩ (le_refl _)
  · show a.used + len = ledgerTotal (a.free_blocks_ ++ [(a.last_addr_, len)])
    rw [ledgerTotal_append, h.used_eq]
    simp [ledgerTotal]

theorem inv_placeInGap (a : Allocator) (len c : Nat) (h : Inv a) (hl : 0 < len)
    (hs : a.last_addr_ + len < SIZE_MOD) (hg : Allocator.findGap len 0 a.free_blocks_ = some c) :
    Inv (placeInGap a len c) := by
  obtain ⟨p, q, e1, e2, e3⟩ := findGap_split a.free_blocks_ 0 a.last_addr_ len c h.chain hs hg
  have hm : mapAssign a.free_blocks_ c len = p ++ (c, len) :: q := by
    rw [e1]
    exact mapAssign_hole p q 0 c (c + len) a.last_addr_ c len e2 e3 (le_refl _) hl (le_refl _)
  refine ⟨?_, h.tail_le, h.peak_lt, ?_, h.not_mat, h.align⟩
  · show Chain 0 (mapAssign a.free_blocks_ c len) a.last_addr_
    rw [hm]
    exact chain_append p ((c, len) :: q) 0 c c a.last_addr_ e2 ⟨le_refl _, hl, e3⟩ (le_refl _)
  · show a.used + len = ledgerTotal (mapAssign a.free_blocks_ c len)
    rw [hm, h.used_eq, e1, ledgerTotal_append, ledgerTotal_append, ledgerTotal_cons]
    simp only
    omega

/-- Without overflow `alloc` returns, and the invariant holds afterwards. -/
theorem alloc_inv (a : Allocator) (size : Nat) (hinv : Inv a) (hf : AllocFits a size) :
    ∃ off a1, a.alloc size = Result.ok off a1 ∧ Inv a1 := by
  have heq := alloc_eq a size hinv hf
  obtain ⟨h1, h2, h3⟩ := hf
  have hb := align8_bounds size h1
  by_cases hfast : align8 size + a.last_addr_ ≤ a.peak
  · rw [if_pos hfast] at heq
    exact ⟨_, _, heq, inv_placeAtTail a _ _ hinv hb.2.2 (by omega) hinv.peak_lt⟩
  · rw [if_neg hfast] at heq
    cases hg : Allocator.findGap (align8 size) 0 a.free_blocks_ with
    | some c =>
        rw [hg] at heq
        exact ⟨_, _, heq, inv_placeInGap a _ c hinv hb.2.2 h3 hg⟩
    | none =>
        rw [hg] at heq
        exact ⟨_, _, heq, inv_placeAtTail a _ _ hinv hb.2.2 (le_refl _) h3⟩

theorem chain_nil_of_eq (q : Ledger) (x : Nat) (h : Chain x q x) : q = [] := by
  cases q with
  | nil => rfl
  | cons hd tl =>
      obtain ⟨o, l⟩ := hd
      obtain ⟨a1, a2, a3⟩ := h
      have := chain_le tl (o + l) x a3
      omega

/-- Without overflow a `free` that completes keeps the invariant, lowers `used` by the padded
size, leaves `peak` alone and never advances the tail. -/
theorem free_inv (a a1 : Allocator) (addr size : Nat) (hinv : Inv a) (hf : FreeFits addr size)
    (h : a.free addr size = Result.ok () a1) :
    Inv a1 ∧ a1.used + align8 size = a.used ∧ a1.peak = a.peak ∧
      a1.last_addr_ ≤ a.last_addr_ := by
  obtain ⟨h1, h2, h3⟩ := hf
  have hb := align8_bounds size h1
  have hA := getAlignedSize_eq a size hinv.align h1 h2
  unfold Allocator.free at h
  simp only [hinv.not_mat, hA, Bool.false_eq_true, if_false] at h
  cases hfl : mapFloor a.free_blocks_ addr with
  | none =>
      rw [hfl] at h
      simp at h
  | some e =>
      obtain ⟨o, l⟩ := e
      rw [hfl] at h
      obtain ⟨p, q, hm, hp, hl, hq, ho, _⟩ :=
        mapFloor_split a.free_blocks_ 0 a.last_addr_ addr o l hinv.chain hfl
      have herase : mapErase a.free_blocks_ o = p ++ q := by
        rw [hm]
        exact mapErase_mid p q 0 o l hp
      have hqle := chain_le q (o + l) a.last_addr_ hq
      have htl := hinv.tail_le
      have hpk := hinv.peak_lt
      have htot : a.used = ledgerTotal p + (l + ledgerTotal q) := by
        rw [hinv.used_eq, hm, ledgerTotal_append, ledgerTotal_cons]
      have hut := used_le_tail hinv
      have w1 : wrap (addr + align8 size) = addr + align8 size := wrap_of_lt h3
      have w2 : wrap (o + l) = o + l := wrap_of_lt (by omega)
      simp only [herase, w1, w2] at h
      by_cases c0 : addr ≠ o ∨ align8 size ≠ l
      · rw [if_pos c0] at h
        by_cases c1 : addr + align8 size ≤ o + l
        · have c1n : ¬ ¬ (addr + align8 size ≤ o + l) := not_not.mpr c1
          rw [if_neg c1n] at h
          have hused : wsub a.used (align8 size) = a.used - align8 size :=
            wsub_of_le (by omega) (by omega)
          by_cases c2 : addr = o
          · rw [if_pos c2] at h
            subst c2
            have hlt : align8 size < l := by
              rcases c0 with c | c
              · exact absurd rfl c
              · omega
            have hs : wsub l (align8 size) = l - align8 size :=
              wsub_of_le (by omega) (by omega)
            have hma := mapAssign_hole p q 0 addr (addr + l) a.last_addr_ (addr + align8 size)
              (l - align8 size) hp hq (by omega) (by omega) (by omega)
            simp only [hs, hma, hused, Result.ok.injEq, true_and] at h
            subst h
            refine ⟨⟨?_, htl, hpk, ?_, rfl, hinv.align⟩, ?_, rfl, le_refl _⟩
            · refine chain_append p _ 0 addr (addr + align8 size) a.last_addr_ hp
                ⟨le_refl _, by omega, ?_⟩ (by omega)
              exact chain_mono q (addr + l) a.last_addr_ _ _ hq (by omega) (le_refl _)
            · show a.used - align8 size = ledgerTotal (p ++ (addr + align8 size, l - align8 size) :: q)
              rw [ledgerTotal_append, ledgerTotal_cons]
              simp only
              omega
            · show a.used - align8 size + align8 size = a.used
              omega
          · rw [if_neg c2] at h
            have hs : wsub addr o = addr - o := wsub_of_le ho (by omega)
            have hma := mapAssign_hole p q 0 o (o + l) a.last_addr_ o (addr - o) hp hq
              (le_refl _) (by omega) (by omega)
            by_cases c3 : addr + align8 size = o + l
            · rw [if_pos c3] at h
              simp only [hs, hma] at h
              by_cases c4 : addr + align8 size = a.last_addr_
              · rw [if_pos c4] at h
                simp only [hused, Result.ok.injEq, true_and] at h
                subst h
                have e4 : o + l = a.last_addr_ := by omega
                have hq0 : q = [] := chain_nil_of_eq q (o + l) (by rw [← e4] at hq; exact hq)
                subst hq0
                refine ⟨⟨?_, by show addr ≤ a.peak; omega, hpk, ?_, rfl, hinv.align⟩,
                  ?_, rfl, by show addr ≤ a.last_addr_; omega⟩
                · exact chain_append p _ 0 o o addr hp
                    ⟨le_refl _, by omega, by show o + (addr - o) ≤ addr; omega⟩ (le_refl _)
                · show a.used - align8 size = ledgerTotal (p ++ [(o, addr - o)])
                  rw [ledgerTotal_append, ledgerTotal_cons]
                  simp only [ledgerTotal, List.map_nil, List.sum_nil] at htot ⊢
                  omega
                · show a.used - align8 size + align8 size = a.used
                  omega
              · rw [if_neg c4] at h
                simp only [hused, Result.ok.injEq, true_and] at h
                subst h
                refine ⟨⟨?_, htl, hpk, ?_, rfl, hinv.align⟩, ?_, rfl, le_refl _⟩
                · refine chain_append p _ 0 o o a.last_addr_ hp
                    ⟨le_refl _, by omega, ?_⟩ (le_refl _)
                  exact chain_mono q (o + l) a.last_addr_ _ _ hq (by omega) (le_refl _)
                · show a.used - align8 size = ledgerTotal (p ++ (o, addr - o) :: q)
                  rw [ledgerTotal_append, ledgerTotal_cons]
                  simp only
                  omega
                · show a.used - align8 size + align8 size = a.used
                  omega
            · rw [if_neg c3] at h
              have hs1 : wsub (o + l) addr = o + l - addr := wsub_of_le (by omega) (by omega)
              have hs2 : wsub (wsub (o + l) addr) (align8 size) = o + l - addr - align8 size := by
                rw [hs1]
                exact wsub_of_le (by omega) (by omega)
              have hma2 := mapAssign_hole (p ++ [(o, addr - o)]) q 0 addr (o + l) a.last_addr_
                (addr + align8 size) (o + l - addr - align8 size)
                (chain_append p _ 0 o o addr hp
                  ⟨le_refl _, by omega, by show o + (addr - o) ≤ addr; omega⟩ (le_refl _))
                hq (by omega) (by omega) (by omega)
              simp only [List.append_assoc, List.singleton_append] at hma2
              simp only [hs, hs2, hma, hma2, hused, Result.ok.injEq, true_and] at h
              subst h
              refine ⟨⟨?_, htl, hpk, ?_, rfl, hinv.align⟩, ?_, rfl, le_refl _⟩
              · refine chain_append p _ 0 o o a.last_addr_ hp
                  ⟨le_refl _, by omega, by show o + (addr - o) ≤ addr + align8 size; omega,
                    by omega, ?_⟩ (le_refl _)
                exact chain_mono q (o + l) a.last_addr_ _ _ hq (by omega) (le_refl _)
              · show a.used - align8 size = ledgerTotal
                  (p ++ (o, addr - o) :: (addr + align8 size, o + l - addr - align8 size) :: q)
                rw [ledgerTotal_append, ledgerTotal_cons, ledgerTotal_cons]
                simp only
                omega
              · show a.used - align8 size + align8 size = a.used
                omega
        · have c1n : ¬ (addr + align8 size ≤ o + l) := c1
          rw [if_pos c1n] at h
          simp at h
      · rw [if_neg c0] at h
        have hao : addr = o := by
          by_contra hne
          exact c0 (Or.inl hne)
        have hll : align8 size = l := by
          by_contra hne
          exact c0 (Or.inr hne)
        subst hao
        have hused : wsub a.used (align8 size) = a.used - align8 size :=
          wsub_of_le (by omega) (by omega)
        by_cases c4 : addr + l = a.last_addr_
        · rw [if_pos c4] at h
          simp only [hused, Result.ok.injEq, true_and] at h
          subst h
          have hq0 : q = [] := chain_nil_of_eq q (addr + l) (by rw [← c4] at hq; exact hq)
          subst hq0
          refine ⟨⟨?_, by show addr ≤ a.peak; omega, hpk, ?_, rfl, hinv.align⟩,
            ?_, rfl, by show addr ≤ a.last_addr_; omega⟩
          · show Chain 0 (p ++ []) addr
            simpa using hp
          · show a.used - align8 size = ledgerTotal (p ++ [])
            simp only [ledgerTotal, List.map_nil, List.sum_nil, List.append_nil] at htot ⊢
            omega
          · show a.used - align8 size + align8 size = a.used
            omega
        · rw [if_neg c4] at h
          simp only [hused, Result.ok.injEq, true_and] at h
          subst h
          refine ⟨⟨?_, htl, hpk, ?_, rfl, hinv.align⟩, ?_, rfl, le_refl _⟩
          · exact chain_append p q 0 addr (addr + l) a.last_addr_ hp hq (by omega)
          · show a.used - align8 size = ledgerTotal (p ++ q)
            rw [ledgerTotal_append]
            omega
          · show a.used - align8 size + align8 size = a.used
            omega

theorem inv_fresh : Inv Allocator.fresh :=
  ⟨le_refl _, le_refl _, by decide, rfl, rfl, rfl⟩

theorem reachable_inv {a : Allocator} (h : Reachable a) : Inv a := by
  induction h with
  | fresh => exact inv_fresh
  | alloc _ _ _ _ _ hf hcall ih =>
      obtain ⟨off, a2, h2, hinv⟩ := alloc_inv _ _ ih hf
      rw [hcall] at h2
      simp only [Result.ok.injEq] at h2
      obtain ⟨_, rfl⟩ := h2
      exact hinv
  | free _ _ _ _ _ hf hcall ih => exact (free_inv _ _ _ _ ih hf hcall).1

/-! ## Allocator: soundness and allocation scenarios -/

/-- C1. Allocator soundness: in every state reached from a fresh, not yet materialized
allocator by `alloc` calls and succeeding `free` calls (sizes at least one, no 64-bit
overflow), the live ranges of the ledger are pairwise non-overlapping and `used` equals the sum
of the ledger lengths. -/
theorem allocator_soundness (a : Allocator) (h : Reachable a) :
    NonOverlapping a.free_blocks_ ∧ a.used = ledgerTotal a.free_blocks_ :=
  ⟨chain_nonOverlapping _ _ _ (reachable_inv h).chain, (reachable_inv h).used_eq⟩

theorem demo1_reachable : Reachable demo1 :=
  Reachable.alloc Allocator.fresh demo1 100 0 Reachable.fresh (by decide) (by decide)

theorem demo2_reachable : Reachable demo2 :=
  Reachable.alloc demo1 demo2 50 104 demo1_reachable (by decide) (by decide)

theorem demoRun_reachable : Reachable demoRun :=
  Reachable.free demo2 demoRun 0 100 demo2_reachable (by decide) (by decide)

theorem allocator_soundness_witness :
    Reachable demoRun ∧
      (NonOverlapping demoRun.free_blocks_ ∧ demoRun.used = ledgerTotal demoRun.free_blocks_) :=
  ⟨demoRun_reachable, allocator_soundness demoRun demoRun_reachable⟩

/-- C10. Split then reuse: on a fresh allocator `alloc(100)` returns offset 0, `free(20, 30)`
completes, and a subsequent `alloc(30)` returns offset 20 exactly. -/
theorem split_then_reuse :
    Allocator.fresh.alloc 100 = Result.ok 0 demo1 ∧
      demo1.free 20 30 = Result.ok () split1 ∧
      split1.alloc 30 = Result.ok 20 split2 := by
  decide

/-- C8 (amended). Fragmentation correctness without overflow: for sizes `a, b, c, d ≥ 1` whose
padded sizes satisfy `align8 d ≤ align8 b` and
`align8 a + align8 b + align8 c + align8 d < 2 ^ 64`, on a fresh allocator `alloc(a)`, `alloc(b)`, `alloc(c)`, `free(offset of b, b)`, `alloc(d)` make the
last `alloc` return the offset `align8 a` that `alloc(b)` returned, and `peak` after it equals
`peak` after `alloc(c)`. -/
theorem fragmentation_reuse (a b c d : Nat) (ha : 1 ≤ a) (hb : 1 ≤ b) (hc : 1 ≤ c) (hd : 1 ≤ d)
    (hdb : align8 d ≤ align8 b)
    (hfit : align8 a + align8 b + align8 c + align8 d < SIZE_MOD) :
    ∃ s1 s2 s3 s4 s5 ob,
      Allocator.fresh.alloc a = Result.ok 0 s1 ∧
      s1.alloc b = Result.ok ob s2 ∧
      s2.alloc c = Result.ok (align8 a + align8 b) s3 ∧
      s3.free ob b = Result.ok () s4 ∧
      s4.alloc d = Result.ok ob s5 ∧ s5.peak = s3.peak := by
  have ba := align8_bounds a ha
  have bb := align8_bounds b hb
  have bc := align8_bounds c hc
  have bd := align8_bounds d hd
  have fa := align8_lt_fits a ha (by omega)
  have fb := align8_lt_fits b hb (by omega)
  have fc := align8_lt_fits c hc (by omega)
  have fd := align8_lt_fits d hd (by omega)
  generalize hA : align8 a = A at *
  generalize hB : align8 b = B at *
  generalize hC : align8 c = C at *
  generalize hD : align8 d = D at *
  let s1 : Allocator := ⟨A, A, A, [(0, A)], false, 8⟩
  let s2 : Allocator := ⟨A + B, A + B, A + B, [(0, A), (A, B)], false, 8⟩
  let s3 : Allocator := ⟨A + B + C, A + B + C, A + B + C, [(0, A), (A, B), (A + B, C)], false, 8⟩
  let s4 : Allocator := ⟨A + C, A + B + C, A + B + C, [(0, A), (A + B, C)], false, 8⟩
  let s5 : Allocator := ⟨A + C + D, A + B + C, A + B + C, [(0, A), (A, D), (A + B, C)], false, 8⟩
  have i1 : Inv s1 := ⟨⟨le_refl _, by omega, by show 0 + A ≤ A; omega⟩, le_refl _,
    by show A < SIZE_MOD; omega, by simp [s1, ledgerTotal], rfl, rfl⟩
  have i2 : Inv s2 := ⟨⟨le_refl _, by omega, by show 0 + A ≤ A; omega, by omega, le_refl _⟩,
    le_refl _, by show A + B < SIZE_MOD; omega, by simp [s2, ledgerTotal], rfl, rfl⟩
  have i3 : Inv s3 := ⟨⟨le_refl _, by omega, by show 0 + A ≤ A; omega, by omega, le_refl _,
    by omega, le_refl _⟩, le_refl _, by show A + B + C < SIZE_MOD; omega,
    by simp [s3, ledgerTotal, Nat.add_assoc], rfl, rfl⟩
  have i4 : Inv s4 := ⟨⟨le_refl _, by omega, by show 0 + A ≤ A + B; omega, by omega,
    by show A + B + C ≤ A + B + C; omega⟩, le_refl _, by show A + B + C < SIZE_MOD; omega,
    by simp [s4, ledgerTotal], rfl, rfl⟩
  have wA : wrap A = A := wrap_of_lt (by omega)
  have wB : wrap B = B := wrap_of_lt (by omega)
  have wC : wrap C = C := wrap_of_lt (by omega)
  have wD : wrap D = D := wrap_of_lt (by omega)
  have wAB : wrap (A + B) = A + B := wrap_of_lt (by omega)
  have wAC : wrap (A + C) = A + C := wrap_of_lt (by omega)
  have wAD : wrap (A + D) = A + D := wrap_of_lt (by omega)
  have nA : A ≠ 0 := by omega
  have nB : B ≠ 0 := by omega
  have nC : C ≠ 0 := by omega
  have nD : D ≠ 0 := by omega
  have lAB : A < A + B := by omega
  have nA0 : ¬ 0 = A := by omega
  refine ⟨s1, s2, s3, s4, s5, A, ?_, ?_, ?_, ?_, ?_, rfl⟩
  · rw [alloc_eq _ _ inv_fresh ⟨ha, fa, by show 0 + align8 a < SIZE_MOD; omega⟩, hA]
    have n1 : ¬ A + Allocator.fresh.last_addr_ ≤ Allocator.fresh.peak := by
      show ¬ A + 0 ≤ 0
      omega
    rw [if_neg n1]
    simp [Allocator.fresh, Allocator.findGap, placeAtTail, s1]
  · rw [alloc_eq _ _ i1 ⟨hb, fb, by show A + align8 b < SIZE_MOD; omega⟩, hB]
    have n1 : ¬ B + s1.last_addr_ ≤ s1.peak := by
      show ¬ B + A ≤ A
      omega
    rw [if_neg n1]
    simp [Allocator.findGap, placeAtTail, s1, s2, wB, nB]
  · rw [alloc_eq _ _ i2 ⟨hc, fc, by show A + B + align8 c < SIZE_MOD; omega⟩, hC]
    have n1 : ¬ C + s2.last_addr_ ≤ s2.peak := by
      show ¬ C + (A + B) ≤ A + B
      omega
    rw [if_neg n1]
    simp [Allocator.findGap, placeAtTail, s2, s3, wA, wC, wAC, nC]
  · have hA8 := getAlignedSize_eq s3 b rfl hb fb
    rw [hB] at hA8
    have n1 : ¬ A + B = A + B + C := by omega
    have u1 : wsub (A + B + C) B = A + C := by
      rw [wsub_of_le (by omega) (by omega)]
      omega
    unfold Allocator.free
    simp [hA8, s3, s4, mapFloor, mapErase, wAB, n1, lAB, u1, nA, nA0]
  · rw [alloc_eq _ _ i4 ⟨hd, fd, by show A + B + C + align8 d < SIZE_MOD; omega⟩, hD]
    have n1 : ¬ D + s4.last_addr_ ≤ s4.peak := by
      show ¬ D + (A + B + C) ≤ A + B + C
      omega
    rw [if_neg n1]
    simp [Allocator.findGap, placeInGap, mapAssign, s4, s5, wA, wD, wAD, nD, hdb, lAB, nA, nA0]

theorem fragmentation_reuse_witness :
    (1 ≤ 100 ∧ 1 ≤ 50 ∧ 1 ≤ 80 ∧ 1 ≤ 50 ∧ align8 50 ≤ align8 50 ∧
      align8 100 + align8 50 + align8 80 + align8 50 < SIZE_MOD) ∧
    ∃ s1 s2 s3 s4 s5 ob,
      Allocator.fresh.alloc 100 = Result.ok 0 s1 ∧
      s1.alloc 50 = Result.ok ob s2 ∧
      s2.alloc 80 = Result.ok (align8 100 + align8 50) s3 ∧
      s3.free ob 50 = Result.ok () s4 ∧
      s4.alloc 50 = Result.ok ob s5 ∧ s5.peak = s3.peak :=
  ⟨by decide, fragmentation_reuse 100 50 80 50 (by decide) (by decide) (by decide) (by decide)
    (by decide) (by decide)⟩

/-- The run `alloc(2 ^ 64 - 24)`, `alloc(8)`, `alloc(8)`, `free(2 ^ 64 - 24, 8)`, `alloc(8)` on a
fresh allocator: the last call returns `2 ^ 64 - 8`. -/
theorem fragmentation_overflow_trace :
    Allocator.fresh.alloc 18446744073709551592 = Result.ok 0
        ⟨18446744073709551592, 18446744073709551592, 18446744073709551592,
          [(0, 18446744073709551592)], false, 8⟩ ∧
      Allocator.alloc ⟨18446744073709551592, 18446744073709551592, 18446744073709551592,
          [(0, 18446744073709551592)], false, 8⟩ 8 = Result.ok 18446744073709551592
        ⟨18446744073709551600, 18446744073709551600, 18446744073709551600,
          [(0, 18446744073709551592), (18446744073709551592, 8)], false, 8⟩ ∧
      Allocator.alloc ⟨18446744073709551600, 18446744073709551600, 18446744073709551600,
          [(0, 18446744073709551592), (18446744073709551592, 8)], false, 8⟩ 8 =
        Result.ok 18446744073709551600
        ⟨18446744073709551608, 18446744073709551608, 18446744073709551608,
          [(0, 18446744073709551592), (18446744073709551592, 8), (18446744073709551600, 8)],
          false, 8⟩ ∧
      Allocator.free ⟨18446744073709551608, 18446744073709551608, 18446744073709551608,
          [(0, 18446744073709551592), (18446744073709551592, 8), (18446744073709551600, 8)],
          false, 8⟩ 18446744073709551592 8 = Result.ok ()
        ⟨18446744073709551600, 18446744073709551608, 18446744073709551608,
          [(0, 18446744073709551592), (18446744073709551600, 8)], false, 8⟩ ∧
      Allocator.alloc ⟨18446744073709551600, 18446744073709551608, 18446744073709551608,
          [(0, 18446744073709551592), (18446744073709551600, 8)], false, 8⟩ 8 =
        Result.ok 18446744073709551608
        ⟨18446744073709551608, 18446744073709551608, 0,
          [(0, 18446744073709551592), (18446744073709551600, 8), (18446744073709551608, 8)],
          false, 8⟩ := by
  decide

/-- C8 (as stated) fails at `a = 2 ^ 64 - 24`, `b = c = d = 8`: the three allocations fill
`[0, 2 ^ 64 - 8)` without overflow, `free` releases the range of `b` at `2 ^ 64 - 24`, and
in `alloc(d)` the sum `size + last_addr_` wraps to zero, so the fast path places `d` at the
tail `2 ^ 64 - 8` instead of the freed offset. -/
theorem fragmentation_overflow_counterexample :
    ¬ (∀ (a b c d : Nat), 1 ≤ a → a < SIZE_MOD → 1 ≤ b → b < SIZE_MOD → 1 ≤ c →
        c < SIZE_MOD → 1 ≤ d → d < SIZE_MOD →
        Allocator.fresh.getAlignedSize d ≤ Allocator.fresh.getAlignedSize b →
        ∀ (s1 s2 s3 s4 s5 : Allocator) (oa ob oc od : Nat),
          Allocator.fresh.alloc a = Result.ok oa s1 → s1.alloc b = Result.ok ob s2 →
          s2.alloc c = Result.ok oc s3 → s3.free ob b = Result.ok () s4 →
          s4.alloc d = Result.ok od s5 → od = ob ∧ s5.peak = s3.peak) := by
  intro h
  obtain ⟨t1, t2, t3, t4, t5⟩ := fragmentation_overflow_trace
  have h2 := h 18446744073709551592 8 8 8 (by decide) (by decide) (by decide) (by decide)
    (by decide) (by decide) (by decide) (by decide) (by decide) _ _ _ _ _ _ _ _ _
    t1 t2 t3 t4 t5
  exact absurd h2.1 (by decide)

theorem mapFloor_append_tail : ∀ (m : Ledger) (lo t v : Nat), Chain lo m t →
    mapFloor (m ++ [(t, v)]) t = some (t, v)
  | [], _, t, v, _ => by simp [mapFloor]
  | (o, l) :: rest, lo, t, v, h => by
      obtain ⟨_, a2, a3⟩ := h
      have hle := chain_le rest (o + l) t a3
      have n1 : ¬ t < o := by omega
      simp [mapFloor, n1, mapFloor_append_tail rest (o + l) t v a3]

/-- Freeing the range that `alloc` has just placed at the tail restores the allocator, except
that `peak` stays raised. -/
theorem free_placeAtTail (a : Allocator) (size pk : Nat) (hinv : Inv a) (h1 : 1 ≤ size)
    (h2 : size + 7 < SIZE_MOD) (h3 : a.last_addr_ + align8 size < SIZE_MOD) :
    (placeAtTail a (align8 size) pk).free a.last_addr_ size =
      Result.ok () { a with peak := pk } := by
  have hb := align8_bounds size h1
  have hu := used_le_tail hinv
  have hA := getAlignedSize_eq (placeAtTail a (align8 size) pk) size hinv.align h1 h2
  have hfl := mapFloor_append_tail a.free_blocks_ 0 a.last_addr_ (align8 size) hinv.chain
  have her := mapErase_mid a.free_blocks_ [] 0 a.last_addr_ (align8 size) hinv.chain
  have w1 : wrap (a.last_addr_ + align8 size) = a.last_addr_ + align8 size := wrap_of_lt h3
  have u1 : wsub (a.used + align8 size) (align8 size) = a.used := by
    rw [wsub_of_le (by omega) (by omega)]
    omega
  unfold Allocator.free
  rw [hA]
  simp only [placeAtTail, hinv.not_mat, hfl, her, w1, u1, Bool.false_eq_true, if_false]
  simp [hinv.not_mat, u1]

/-- C9 (amended). Tail reuse: in every state reached without overflow, for `1 ≤ S' ≤ S`, when
`alloc(S)` places its range at the tail (it returns the tail of before the call: the fast path
or the growth step), `free(o1, S)` completes and `alloc(S')` returns the same offset `o1`,
with `peak` equal to `peak` after the first `alloc`. -/
theorem tail_reuse (a a1 : Allocator) (S S' o1 : Nat) (hr : Reachable a) (hS' : 1 ≤ S')
    (hle : S' ≤ S) (hfit : AllocFits a S) (h1 : a.alloc S = Result.ok o1 a1)
    (htail : o1 = a.last_addr_) :
    ∃ a2 a3, a1.free o1 S = Result.ok () a2 ∧ a2.alloc S' = Result.ok o1 a3 ∧
      a3.peak = a1.peak := by
  have hinv := reachable_inv hr
  have heq := alloc_eq a S hinv hfit
  obtain ⟨f1, f2, f3⟩ := hfit
  have hb := align8_bounds S f1
  have hb' := align8_bounds S' hS'
  have hmono := align8_mono S' S hle
  subst htail
  have key : ∃ pk, a1 = placeAtTail a (align8 S) pk ∧ a.last_addr_ + align8 S ≤ pk ∧
      pk < SIZE_MOD := by
    rw [h1] at heq
    by_cases hfast : align8 S + a.last_addr_ ≤ a.peak
    · rw [if_pos hfast] at heq
      simp only [Result.ok.injEq, true_and] at heq
      exact ⟨a.peak, heq, by omega, hinv.peak_lt⟩
    · rw [if_neg hfast] at heq
      cases hg : Allocator.findGap (align8 S) 0 a.free_blocks_ with
      | some c =>
          rw [hg] at heq
          simp only [Result.ok.injEq] at heq
          obtain ⟨p, q, _, _, e3⟩ :=
            findGap_split a.free_blocks_ 0 a.last_addr_ (align8 S) c hinv.chain f3 hg
          have := chain_le q (c + align8 S) a.last_addr_ e3
          omega
      | none =>
          rw [hg] at heq
          simp only [Result.ok.injEq, true_and] at heq
          exact ⟨_, heq, le_refl _, f3⟩
  obtain ⟨pk, rfl, hpk, hpk2⟩ := key
  have hinv2 : Inv { a with peak := pk } :=
    ⟨hinv.chain, by show a.last_addr_ ≤ pk; omega, hpk2, hinv.used_eq, hinv.not_mat, hinv.align⟩
  have hfit2 : AllocFits { a with peak := pk } S' :=
    ⟨hS', by omega, by show a.last_addr_ + align8 S' < SIZE_MOD; omega⟩
  refine ⟨{ a with peak := pk }, placeAtTail { a with peak := pk } (align8 S') pk,
    free_placeAtTail a S pk hinv f1 f2 f3, ?_, rfl⟩
  rw [alloc_eq _ S' hinv2 hfit2]
  have hfast : align8 S' + a.last_addr_ ≤ pk := by omega
  simp only [hfast, if_true]

theorem tail_reuse_witness :
    (Reachable demo2 ∧ 1 ≤ 30 ∧ 30 ≤ 50 ∧ AllocFits demo2 50 ∧
      demo2.alloc 50 = Result.ok 160 demo3 ∧ 160 = demo2.last_addr_) ∧
    ∃ a2 a3, demo3.free 160 50 = Result.ok () a2 ∧ a2.alloc 30 = Result.ok 160 a3 ∧
      a3.peak = demo3.peak :=
  ⟨⟨demo2_reachable, by decide, by decide, by decide, by decide, by decide⟩,
    tail_reuse demo2 demo3 50 30 160 demo2_reachable (by decide) (by decide) (by decide)
      (by decide) (by decide)⟩

theorem gap5_reachable : Reachable gap5 :=
  Reachable.free gap4 gap5 0 16
    (Reachable.free gap3 gap4 24 8
      (Reachable.alloc gap2 gap3 8 24
        (Reachable.alloc gap1 gap2 8 16
          (Reachable.alloc Allocator.fresh gap1 16 0 Reachable.fresh (by decide) (by decide))
          (by decide) (by decide))
        (by decide) (by decide))
      (by decide) (by decide))
    (by decide) (by decide)

/-- C9 (as stated) fails: in the reachable state `gap5` (a gap `[0, 16)`, one live range
`[16, 24)`, tail 24, `peak` 32) `alloc(16)` does not fit the tail slack and lands in the gap at
offset 0; after `free(0, 16)` the smaller `alloc(8)` fits the tail slack and the fast path
returns 24, not 0. -/
theorem tail_reuse_counterexample :
    ¬ (∀ (a : Allocator), Reachable a → ∀ (S S' o1 o2 : Nat) (a1 a2 a3 : Allocator),
        1 ≤ S' → S' ≤ S → a.alloc S = Result.ok o1 a1 → a1.free o1 S = Result.ok () a2 →
        a2.alloc S' = Result.ok o2 a3 → o2 = o1 ∧ a3.peak = a1.peak) := by
  intro h
  have h2 := h gap5 gap5_reachable 16 8 0 24 gap6 gap5 gap7 (by decide) (by decide) (by decide)
    (by decide) (by decide)
  exact absurd h2.1 (by decide)

/-! ## MatMul shape inference: the shape rule -/

theorem infer_broadcast_compatible (A B : Shape) (h : List.Forall₂ Compatible A B) :
    infer_broadcast A B = some (List.zipWith max A B) := by
  have hl := h.length_eq
  unfold infer_broadcast
  simp only [hl, max_self, Nat.sub_self, List.replicate_zero, List.nil_append]
  have hall : (List.zip A B).all (fun p => decide (p.1 = p.2 ∨ p.1 = 1 ∨ p.2 = 1)) = true := by
    induction h with
    | nil => rfl
    | cons hab _ ih =>
        simp only [List.zip_cons_cons, List.all_cons, Bool.and_eq_true, decide_eq_true_eq]
        exact ⟨hab, ih (List.Forall₂.length_eq ‹_›)⟩
  rw [if_pos hall]

theorem getD_append_pair (l : Shape) (a b : Int) :
    (l ++ [a, b]).getD l.length 0 = a ∧ (l ++ [a, b]).getD (l.length + 1) 0 = b := by
  induction l with
  | nil => exact ⟨rfl, rfl⟩
  | cons x xs ih => simpa using ih

/-- C7. MatMul shape rule: for input shapes `batchL ++ [a, b]` and `batchR ++ [c, d]` of equal
rank at least two whose leading axes are pairwise broadcast-compatible, and every setting of
`transA` and `transB`, `MatmulObj::inferShape` fails when the contracted sizes differ (left's
last axis `b`, or `a` when `transA`; right's second-to-last axis `c`, or `d` when `transB`) and
otherwise returns exactly one shape: the pairwise broadcast of the leading axes followed by
`[rows, cols]`, with rows `a` (`b` when `transA`) and cols `d` (`c` when `transB`). -/
theorem matmul_shape_rule (transA transB : Bool) (batchL batchR : Shape) (a b c d : Int)
    (hc : List.Forall₂ Compatible batchL batchR) :
    inferShape transA transB (batchL ++ [a, b]) (batchR ++ [c, d]) =
      if (if transA then a else b) ≠ (if transB then d else c) then none
      else some [List.zipWith max batchL batchR ++
        [if transA then b else a, if transB then c else d]] := by
  have hl := hc.length_eq
  have e1 : (batchL ++ [a, b]).dropLast.dropLast = batchL := by
    simp [List.dropLast_append_of_ne_nil]
  have e2 : (batchR ++ [c, d]).dropLast.dropLast = batchR := by
    simp [List.dropLast_append_of_ne_nil]
  have len1 : (batchL ++ [a, b]).length = batchL.length + 2 := by simp
  have len2 : (batchR ++ [c, d]).length = batchR.length + 2 := by simp
  have l2 : (batchL ++ [a, b]).getD ((batchL ++ [a, b]).length - 2) 0 = a := by
    rw [len1]
    exact (getD_append_pair batchL a b).1
  have l1 : (batchL ++ [a, b]).getD ((batchL ++ [a, b]).length - 1) 0 = b := by
    rw [len1]
    exact (getD_append_pair batchL a b).2
  have r2 : (batchR ++ [c, d]).getD ((batchR ++ [c, d]).length - 2) 0 = c := by
    rw [len2]
    exact (getD_append_pair batchR c d).1
  have r1 : (batchR ++ [c, d]).getD ((batchR ++ [c, d]).length - 1) 0 = d := by
    rw [len2]
    exact (getD_append_pair batchR c d).2
  have hcond : ¬ ¬ ((batchL ++ [a, b]).length = (batchR ++ [c, d]).length ∧
      2 ≤ (batchL ++ [a, b]).length) := by
    rw [len1, len2, hl]
    exact not_not.mpr ⟨rfl, by omega⟩
  unfold inferShape
  rw [if_neg hcond, e1, e2, infer_broadcast_compatible _ _ hc]
  cases transA <;> cases transB <;>
    simp only [if_true, if_false, Bool.false_eq_true, l1, l2, r1, r2, List.append_assoc,
      List.singleton_append]

theorem matmul_shape_rule_witness :
    List.Forall₂ Compatible [8, 4, 1] [8, 1, 5] ∧
    inferShape false true ([8, 4, 1] ++ [16, 32]) ([8, 1, 5] ++ [7, 32]) =
      if (if false = true then (16 : Int) else 32) ≠ (if true = true then (32 : Int) else 7)
      then none
      else some [List.zipWith max [8, 4, 1] [8, 1, 5] ++
        [if false = true then (32 : Int) else 16, if true = true then (7 : Int) else 32]] :=
  ⟨List.Forall₂.cons (Or.inl rfl) (List.Forall₂.cons (Or.inr (Or.inr rfl))
      (List.Forall₂.cons (Or.inr (Or.inl rfl)) List.Forall₂.nil)),
    matmul_shape_rule false true [8, 4, 1] [8, 1, 5] 16 32 7 32
      (List.Forall₂.cons (Or.inl rfl) (List.Forall₂.cons (Or.inr (Or.inr rfl))
        (List.Forall₂.cons (Or.inr (Or.inl rfl)) List.Forall₂.nil)))⟩

/-! ## Topological sort: soundness and totality -/

theorem ready_true {g : GraphObj} {flags : List Ref} {o : Ref} (h : g.ready flags o = true) :
    o ∉ flags ∧ ∀ t ∈ (g.op o).inputs, ∀ p, (g.tensor t).source = some p → p ∈ flags := by
  unfold GraphObj.ready at h
  simp only [Bool.and_eq_true, decide_eq_true_eq, List.all_eq_true] at h
  refine ⟨h.1, ?_⟩
  intro t ht p hp
  have := h.2 t ht
  rw [hp] at this
  simpa using this

theorem ready_false {g : GraphObj} {flags : List Ref} {o : Ref} (h : g.ready flags o = false)
    (ho : o ∉ flags) : ∃ t ∈ (g.op o).inputs, ∃ p, (g.tensor t).source = some p ∧ p ∉ flags := by
  unfold GraphObj.ready at h
  simp only [Bool.and_eq_false_iff, decide_eq_false_iff_not, List.all_eq_false] at h
  rcases h with h | h
  · exact absurd ho h
  · obtain ⟨t, ht, hn⟩ := h
    refine ⟨t, ht, ?_⟩
    cases hs : (g.tensor t).source with
    | none => simp [hs] at hn
    | some p =>
        refine ⟨p, rfl, ?_⟩
        simpa [hs] using hn

theorem topoOrdered_nil (g : GraphObj) : TopoOrdered g [] := by
  intro pre o post h
  simp at h

theorem topoOrdered_snoc (g : GraphObj) (s : List Ref) (o : Ref) (hs : TopoOrdered g s)
    (ho : ∀ t ∈ (g.op o).inputs, ∀ p, (g.tensor t).source = some p → p ∈ s) :
    TopoOrdered g (s ++ [o]) := by
  intro pre x post h t ht p hp
  rcases List.eq_nil_or_concat post with rfl | ⟨post1, z, rfl⟩
  · have := List.append_inj' h rfl
    obtain ⟨e1, e2⟩ := this
    simp only [List.cons.injEq, and_true] at e2
    subst e1 e2
    exact ho t ht p hp
  · rw [List.concat_eq_append] at h
    have h2 : s ++ [o] = (pre ++ x :: post1) ++ [z] := by simpa using h
    obtain ⟨e1, _⟩ := List.append_inj' h2 rfl
    exact hs pre x post1 e1 t ht p hp

theorem passInv_step {g : GraphObj} {s f : List Ref} {o : Ref} (h : PassInv g s f)
    (ho : o ∈ g.ops) (hr : g.ready f o = true) : PassInv g (s ++ [o]) (o :: f) := by
  obtain ⟨r1, r2⟩ := ready_true hr
  refine ⟨?_, ?_, ?_, ?_⟩
  · intro x
    simp only [List.mem_cons, List.mem_append, List.mem_singleton, h.flags_iff]
    tauto
  · rw [List.nodup_append]
    refine ⟨h.nodup, List.nodup_singleton o, ?_⟩
    intro x hx hx2
    simp only [List.mem_singleton] at hx2
    subst hx2
    exact r1 ((h.flags_iff x).mpr hx)
  · intro x hx
    simp only [List.mem_append, List.mem_singleton] at hx
    rcases hx with hx | rfl
    · exact h.sub x hx
    · exact ho
  · exact topoOrdered_snoc g s o h.ordered
      (fun t ht p hp => (h.flags_iff p).mp (r2 t ht p hp))

/-- One pass of the inner loop keeps the invariant; it either places an operator, and
`sorted` grows, or changes nothing, and then no visited operator was ready. -/
theorem topoPass_spec (g : GraphObj) : ∀ (l : List Ref) (m : Bool) (s f : List Ref),
    (∀ x ∈ l, x ∈ g.ops) → PassInv g s f →
    PassInv g (g.topoPass l (m, s, f)).2.1 (g.topoPass l (m, s, f)).2.2 ∧
    ((g.topoPass l (m, s, f)).1 = true ∧
        (m = true ∨ s.length < (g.topoPass l (m, s, f)).2.1.length) ∨
      (g.topoPass l (m, s, f)).1 = false ∧ m = false ∧ (g.topoPass l (m, s, f)).2.1 = s ∧
        (g.topoPass l (m, s, f)).2.2 = f ∧ ∀ x ∈ l, g.ready f x = false)
  | [], m, s, f, _, h => by
      refine ⟨h, ?_⟩
      cases m
      · exact Or.inr ⟨rfl, rfl, rfl, rfl, by simp⟩
      · exact Or.inl ⟨rfl, Or.inl rfl⟩
  | o :: rest, m, s, f, hl, h => by
      have hrest : ∀ x ∈ rest, x ∈ g.ops := fun x hx => hl x (List.mem_cons_of_mem _ hx)
      simp only [GraphObj.topoPass]
      by_cases hr : g.ready f o = true
      · simp only [hr, if_true]
        have h2 := passInv_step h (hl o (List.mem_cons_self _ _)) hr
        obtain ⟨i1, i2⟩ := topoPass_spec g rest true (s ++ [o]) (o :: f) hrest h2
        refine ⟨i1, Or.inl ?_⟩
        rcases i2 with ⟨j1, j2⟩ | ⟨_, j2, _⟩
        · refine ⟨j1, Or.inr ?_⟩
          rcases j2 with j2 | j2
          · -- length grows along the rest of the pass
            have hmono : ∀ (l : List Ref) (m : Bool) (s f : List Ref),
                s.length ≤ (g.topoPass l (m, s, f)).2.1.length := by
              intro l
              induction l with
              | nil => intro m s f; simp [GraphObj.topoPass]
              | cons y ys ih =>
                  intro m s f
                  simp only [GraphObj.topoPass]
                  split
                  · have := ih true (s ++ [y]) (y :: f)
                    simp only [List.length_append, List.length_singleton] at this
                    omega
                  · exact ih m s f
            have := hmono rest true (s ++ [o]) (o :: f)
            simp only [List.length_append, List.length_singleton] at this
            omega
          · simp only [List.length_append, List.length_singleton] at j2
            omega
        · exact absurd j2 (by simp)
      · have hr2 : g.ready f o = false := by simpa using hr
        simp only [hr2, Bool.false_eq_true, if_false]
        obtain ⟨i1, i2⟩ := topoPass_spec g rest m s f hrest h
        refine ⟨i1, ?_⟩
        rcases i2 with i2 | ⟨j1, j2, j3, j4, j5⟩
        · exact Or.inl i2
        · refine Or.inr ⟨j1, j2, j3, j4, ?_⟩
          intro x hx
          rcases List.mem_cons.mp hx with rfl | hx
          · exact hr2
          · exact j5 x hx

theorem passInv_length_le {g : GraphObj} {s f : List Ref} (h : PassInv g s f) :
    s.length ≤ g.ops.length :=
  (List.subperm_of_subset h.nodup h.sub).length_le

/-- The outcome of the `while` loop: it always ends within the allowed iterations, either with
a complete, ordered `sorted`, or stuck in a state in which no operator is ready. -/
theorem topoLoop_spec (g : GraphObj) : ∀ (fuel : Nat) (s f : List Ref), PassInv g s f →
    g.ops.length < fuel + s.length →
    (∃ res, g.topoLoop fuel s f = some (some res) ∧ (∃ f1, PassInv g res f1) ∧
        g.ops.length ≤ res.length) ∨
    (g.topoLoop fuel s f = some none ∧ ∃ s1 f1, PassInv g s1 f1 ∧
        s1.length < g.ops.length ∧ ∀ x ∈ g.ops, g.ready f1 x = false)
  | 0, s, f, h, hf => by
      have := passInv_length_le h
      omega
  | fuel + 1, s, f, h, hf => by
      simp only [GraphObj.topoLoop]
      by_cases hlt : s.length < g.ops.length
      · simp only [hlt, if_true]
        obtain ⟨i1, i2⟩ := topoPass_spec g g.ops false s f (fun x hx => hx) h
        rcases i2 with ⟨j1, j2⟩ | ⟨j1, _, j3, j4, j5⟩
        · simp only [j1, Bool.not_true, Bool.false_eq_true, if_false]
          rcases j2 with j2 | j2
          · exact absurd j2 (by simp)
          · have hgoal : g.ops.length < fuel + (g.topoPass g.ops (false, s, f)).2.1.length := by
              omega
            exact topoLoop_spec g fuel _ _ i1 hgoal
        · simp only [j1, Bool.not_false, if_true]
          refine Or.inr ⟨trivial, s, f, h, hlt, j5⟩
      · simp only [hlt, if_false]
        exact Or.inl ⟨s, rfl, ⟨f, h⟩, by omega⟩

theorem passInv_nil (g : GraphObj) : PassInv g [] [] :=
  ⟨fun _ => Iff.rfl, List.nodup_nil, fun _ hx => absurd hx (List.not_mem_nil _),
    topoOrdered_nil g⟩

theorem topoLoop_start (g : GraphObj) :
    (∃ res, g.topoLoop (g.ops.length + 1) [] [] = some (some res) ∧ (∃ f1, PassInv g res f1) ∧
        g.ops.length ≤ res.length) ∨
    (g.topoLoop (g.ops.length + 1) [] [] = some none ∧ ∃ s1 f1, PassInv g s1 f1 ∧
        s1.length < g.ops.length ∧ ∀ x ∈ g.ops, g.ready f1 x = false) :=
  topoLoop_spec g (g.ops.length + 1) [] [] (passInv_nil g) (by simp)

theorem topoLoop_result_perm {g : GraphObj} {res f1 : List Ref} (h : PassInv g res f1)
    (hlen : g.ops.length ≤ res.length) : res.Perm g.ops :=
  (List.subperm_of_subset h.nodup h.sub).perm_of_length_le hlen

/-- When the loop is stuck in a graph with distinct operators and closed sources, the
producer-to-consumer relation has a cycle. -/
theorem stuck_hasCycle (g : GraphObj) (hn : g.ops.Nodup) (hc : SourcesClosed g)
    (s1 f1 : List Ref) (hinv : PassInv g s1 f1) (hlt : s1.length < g.ops.length)
    (hstuck : ∀ x ∈ g.ops, g.ready f1 x = false) : HasCycle g := by
  by_contra hno
  let r : {x // x ∈ g.ops} → {x // x ∈ g.ops} → Prop :=
    fun a b => Relation.TransGen (Edge g) a.1 b.1
  have htrans : IsTrans {x // x ∈ g.ops} r := ⟨fun _ _ _ h1 h2 => Relation.TransGen.trans h1 h2⟩
  have hirr : IsIrrefl {x // x ∈ g.ops} r := ⟨fun a h => hno ⟨a.1, h⟩⟩
  have hwf : WellFounded r := Finite.wellFounded_of_trans_of_irrefl r
  have hne : ∃ u, u ∈ g.ops ∧ u ∉ f1 := by
    by_contra hall
    have hsub : g.ops ⊆ s1 := by
      intro x hx
      by_contra hx2
      exact hall ⟨x, hx, fun hf => hx2 ((hinv.flags_iff x).mp hf)⟩
    have := (List.subperm_of_subset hn hsub).length_le
    omega
  obtain ⟨u, hu1, hu2⟩ := hne
  obtain ⟨m, hm1, hm2⟩ := hwf.has_min {a | a.1 ∉ f1} ⟨⟨u, hu1⟩, hu2⟩
  obtain ⟨t, ht, p, hp, hpf⟩ := ready_false (hstuck m.1 m.2) hm1
  have hpo : p ∈ g.ops := hc m.1 m.2 t ht p hp
  exact hm2 ⟨p, hpo⟩ hpf (Relation.TransGen.single ⟨m.2, t, ht, hp⟩)

/-- A duplicate-free list that holds every operator of the graph in topological order rules
out a cycle. -/
theorem ordered_no_cycle (g : GraphObj) (l : List Ref) (hl : l.Nodup) (hord : TopoOrdered g l)
    (hmem : ∀ x ∈ g.ops, x ∈ l) : ¬ HasCycle g := by
  have hedge : ∀ p c, Edge g p c → l.indexOf p < l.indexOf c := by
    intro p c ⟨hc, t, ht, hp⟩
    obtain ⟨pre, post, e⟩ := List.append_of_mem (hmem c hc)
    have hpre : p ∈ pre := hord pre c post e t ht p hp
    have hcn : c ∉ pre := by
      rw [e] at hl
      intro hcp
      exact (List.nodup_append.mp hl).2.2 hcp (List.mem_cons_self _ _)
    rw [e, List.indexOf_append_of_mem hpre, List.indexOf_append_of_not_mem hcn,
      List.indexOf_cons_self]
    have := List.indexOf_lt_length.mpr hpre
    omega
  have htg : ∀ a b, Relation.TransGen (Edge g) a b → l.indexOf a < l.indexOf b := by
    intro a b h
    induction h with
    | single h1 => exact hedge _ _ h1
    | tail _ h2 ih => exact lt_trans ih (hedge _ _ h2)
  rintro ⟨o, ho⟩
  exact lt_irrefl _ (htg o o ho)

theorem topo_sort_true_inv (g g1 : GraphObj) (hs : g.sorted = false)
    (h : g.topo_sort = some (true, g1)) :
    ∃ res f1, g1 = { g with ops := res, sorted := true } ∧ PassInv g res f1 ∧
      g.ops.length ≤ res.length := by
  unfold GraphObj.topo_sort at h
  simp only [hs, Bool.false_eq_true, if_false] at h
  rcases topoLoop_start g with ⟨res, h1, ⟨f1, h2⟩, h3⟩ | ⟨h1, _⟩
  · rw [h1] at h
    simp only [Option.some.injEq, Prod.mk.injEq, true_and] at h
    exact ⟨res, f1, h.symm, h2, h3⟩
  · rw [h1] at h
    simp at h

/-- In an acyclic graph with distinct operators and closed sources `topo_sort` returns true;
it changes only the operator list and the `sorted` flag. -/
theorem topo_sort_acyclic (g : GraphObj) (hn : g.ops.Nodup) (hc : SourcesClosed g)
    (hno : ¬ HasCycle g) :
    ∃ g1, g.topo_sort = some (true, g1) ∧ g1.tensors = g.tensors ∧
      g1.allocator = g.allocator ∧ g1.tensor = g.tensor := by
  unfold GraphObj.topo_sort
  by_cases hs : g.sorted = true
  · simp only [hs, if_true]
    exact ⟨g, rfl, rfl, rfl, rfl⟩
  · simp only [hs, Bool.false_eq_true, if_false]
    rcases topoLoop_start g with ⟨res, h1, _, _⟩ | ⟨_, s1, f1, h2, h3, h4⟩
    · rw [h1]
      exact ⟨_, rfl, rfl, rfl, rfl⟩
    · exact absurd (stuck_hasCycle g hn hc s1 f1 h2 h3 h4) hno

/-- C3. Whenever `topo_sort` returns true, starting with the cached `sorted` flag unset, the
resulting operator list is a permutation of the original operator list and, for every
operator in it, the source operator of each of its input tensors (when the tensor has one)
occurs strictly earlier in the list. -/
theorem topo_sort_sound (g g1 : GraphObj) (hs : g.sorted = false)
    (h : g.topo_sort = some (true, g1)) :
    g1.ops.Perm g.ops ∧ TopoOrdered g1 g1.ops := by
  obtain ⟨res, f1, rfl, h2, h3⟩ := topo_sort_true_inv g g1 hs h
  exact ⟨topoLoop_result_perm h2 h3, h2.ordered⟩

/-- The two writers of the cached flag keep it sound: after `topo_sort` on a graph whose
operator list holds no operator twice and whose flag is set only while the graph is acyclic,
the operator list still holds no operator twice and the flag is set only while the graph is
acyclic. The flag is set at the end of a successful sort, when the operator list is in
topological order. -/
theorem topo_sort_keeps_flag (g g1 : GraphObj) (b : Bool) (hn : g.ops.Nodup)
    (hflag : g.sorted = true → ¬ HasCycle g) (h : g.topo_sort = some (b, g1)) :
    g1.ops.Nodup ∧ (g1.sorted = true → ¬ HasCycle g1) := by
  by_cases hs : g.sorted = true
  · have hg : g1 = g := by
      unfold GraphObj.topo_sort at h
      simp only [hs, if_true, Option.some.injEq, Prod.mk.injEq] at h
      exact h.2.symm
    rw [hg]
    exact ⟨hn, hflag⟩
  · have hs2 : g.sorted = false := by simpa using hs
    cases b with
    | true =>
        obtain ⟨res, f1, rfl, h2, _⟩ := topo_sort_true_inv g g1 hs2 h
        exact ⟨h2.nodup, fun _ => ordered_no_cycle { g with ops := res, sorted := true } res
          h2.nodup h2.ordered (fun x hx => hx)⟩
    | false =>
        have hg : g1 = g := by
          unfold GraphObj.topo_sort at h
          simp only [hs2, Bool.false_eq_true, if_false] at h
          rcases topoLoop_start g with ⟨res, h1, _, _⟩ | ⟨h1, _⟩
          · rw [h1] at h
            simp at h
          · rw [h1] at h
            simp only [Option.some.injEq, Prod.mk.injEq, true_and] at h
            exact h.symm
        rw [hg]
        exact ⟨hn, hflag⟩

theorem chainGraph_closed : SourcesClosed chainGraph := by
  intro c hc t ht p hp
  have hc2 : c = 1 ∨ c = 0 := by simpa [chainGraph] using hc
  rcases hc2 with rfl | rfl
  · have ht2 : t = 1 := by simpa [chainGraph, plainOp] using ht
    subst ht2
    have : p = 0 := by simpa [chainGraph] using hp.symm
    subst this
    simp [chainGraph]
  · have ht2 : t = 0 := by simpa [chainGraph, plainOp] using ht
    subst ht2
    simp [chainGraph] at hp

theorem chainGraph_topo_sort : chainGraph.topo_sort = some (true, chainSorted) := rfl

theorem topo_sort_sound_witness :
    (chainGraph.sorted = false ∧ chainGraph.topo_sort = some (true, chainSorted)) ∧
    (chainSorted.ops.Perm chainGraph.ops ∧ TopoOrdered chainSorted chainSorted.ops) :=
  ⟨⟨rfl, chainGraph_topo_sort⟩, topo_sort_sound chainGraph chainSorted rfl chainGraph_topo_sort⟩

theorem selfLoop_hasCycle : HasCycle selfLoop :=
  ⟨0, Relation.TransGen.single ⟨by simp [selfLoop], 0, by simp [selfLoop, plainOp], rfl⟩⟩

theorem selfLoop_topo_sort : selfLoop.topo_sort = some (false, selfLoop) := rfl

/-- A contiguous chain has no gap for the scan to find. -/
theorem findGap_contiguous : ∀ (m : Ledger) (lo hi size : Nat), Chain lo m hi →
    lo + ledgerTotal m = hi → hi + size < SIZE_MOD → 0 < size →
    Allocator.findGap size lo m = none
  | [], _, _, _, _, _, _, _ => rfl
  | (o, l) :: rest, lo, hi, size, hc, ht, hs, hp => by
      obtain ⟨a1, a2, a3⟩ := hc
      have hle := ledgerTotal_le rest (o + l) hi a3
      rw [ledgerTotal_cons] at ht
      simp only at ht
      have hlo : o = lo := by omega
      subst hlo
      have hchain := chain_le rest (o + l) hi a3
      simp only [Allocator.findGap]
      rw [wrap_of_lt (by omega), wrap_of_lt (by omega)]
      have n1 : ¬ o + size ≤ o := by omega
      simp only [n1, if_false]
      exact findGap_contiguous rest (o + l) hi size a3 (by omega) hs hp

/-- In a contiguous allocator `alloc` without overflow places the range at the tail. -/
theorem alloc_contiguous (a : Allocator) (size : Nat) (hinv : Inv a)
    (hcont : a.last_addr_ = a.used) (hf : AllocFits a size) :
    ∃ pk, a.alloc size = Result.ok a.last_addr_ (placeAtTail a (align8 size) pk) ∧
      Inv (placeAtTail a (align8 size) pk) := by
  have heq := alloc_eq a size hinv hf
  obtain ⟨off, a1, h1, h2⟩ := alloc_inv a size hinv hf
  obtain ⟨f1, f2, f3⟩ := hf
  have hb := align8_bounds size f1
  have hgap := findGap_contiguous a.free_blocks_ 0 a.last_addr_ (align8 size) hinv.chain
    (by rw [hcont, hinv.used_eq]; omega) f3 hb.2.2
  rw [hgap] at heq
  by_cases hfast : align8 size + a.last_addr_ ≤ a.peak
  · rw [if_pos hfast] at heq
    rw [heq] at h1
    simp only [Result.ok.injEq] at h1
    exact ⟨a.peak, heq, by rw [h1.2]; exact h2⟩
  · rw [if_neg hfast] at heq
    rw [heq] at h1
    simp only [Result.ok.injEq] at h1
    exact ⟨_, heq, by rw [h1.2]; exact h2⟩

theorem paddedTotal_append (getBytes : TensorObj → Nat) (g : GraphObj) (l1 l2 : List Ref) :
    paddedTotal getBytes g (l1 ++ l2) = paddedTotal getBytes g l1 + paddedTotal getBytes g l2 := by
  simp [paddedTotal]

theorem paddedTotal_le (getBytes : TensorObj → Nat) (g : GraphObj) (l1 l2 : List Ref)
    (hn : l1.Nodup) (hs : l1 ⊆ l2) :
    paddedTotal getBytes g l1 ≤ paddedTotal getBytes g l2.dedup := by
  have hsub : l1 ⊆ l2.dedup := fun x hx => List.mem_dedup.mpr (hs hx)
  obtain ⟨l, hp, hsl⟩ := List.subperm_of_subset hn hsub
  unfold paddedTotal
  rw [← (hp.map _).sum_eq]
  exact (hsl.map _).sum_le_sum (fun _ _ => Nat.zero_le _)

/-- The allocation loop from a state satisfying the invariant, when the padded sizes of the
distinct tensors fit in 64 bits: it returns, the invariant holds at the end, the entries of
`objs` are kept and the tensors visited all have an entry. -/
theorem allocTensors_spec (getBytes : TensorObj → Nat) (g : GraphObj) (all : List Ref)
    (hpos : ∀ t ∈ all, 1 ≤ getBytes (g.tensor t))
    (hfit : paddedTotal getBytes g all.dedup < SIZE_MOD) :
    ∀ (l : List Ref) (objs : List (Ref × Nat)) (a : Allocator), l ⊆ all →
      objs.map Prod.fst ⊆ all → PlanInv getBytes g objs a →
      ∃ objs1 a1, g.allocTensors getBytes l objs a = some (objs1, a1) ∧
        PlanInv getBytes g objs1 a1 ∧
        (∀ t, t ∈ objs1.map Prod.fst ↔ t ∈ objs.map Prod.fst ∨ t ∈ l)
  | [], objs, a, _, _, h => ⟨objs, a, rfl, h, by simp⟩
  | t :: rest, objs, a, hl, hk, h => by
      have hrest : rest ⊆ all := fun x hx => hl (List.mem_cons_of_mem _ hx)
      have htall : t ∈ all := hl (List.mem_cons_self _ _)
      simp only [GraphObj.allocTensors]
      by_cases hmem : t ∈ objs.map Prod.fst
      · simp only [hmem, if_true]
        obtain ⟨objs1, a1, e1, e2, e3⟩ :=
          allocTensors_spec getBytes g all hpos hfit rest objs a hrest hk h
        refine ⟨objs1, a1, e1, e2, ?_⟩
        intro x
        rw [e3 x, List.mem_cons]
        constructor
        · rintro (hx | hx)
          · exact Or.inl hx
          · exact Or.inr (Or.inr hx)
        · rintro (hx | rfl | hx)
          · exact Or.inl hx
          · exact Or.inl hmem
          · exact Or.inr hx
      · simp only [hmem, if_false]
        have hnd : (objs.map Prod.fst ++ [t]).Nodup := by
          rw [List.nodup_append]
          refine ⟨h.keys_nodup, List.nodup_singleton t, ?_⟩
          intro x hx hx2
          rw [List.mem_singleton] at hx2
          subst hx2
          exact hmem hx
        have hsub : objs.map Prod.fst ++ [t] ⊆ all := by
          intro x hx
          rcases List.mem_append.mp hx with hx | hx
          · exact hk hx
          · rw [List.mem_singleton] at hx
            subst hx
            exact htall
        have hle := paddedTotal_le getBytes g _ all hnd hsub
        rw [paddedTotal_append] at hle
        have hsingle : paddedTotal getBytes g [t] = align8 (getBytes (g.tensor t)) := by
          simp [paddedTotal]
        rw [hsingle, ← h.used_eq, ← h.contiguous] at hle
        have hb := align8_bounds _ (hpos t htall)
        have hfits : AllocFits a (getBytes (g.tensor t)) :=
          ⟨hpos t htall, align8_lt_fits _ (hpos t htall) (by omega), by omega⟩
        obtain ⟨pk, hcall, hinv1⟩ := alloc_contiguous a _ h.inv h.contiguous hfits
        rw [hcall]
        simp only
        have h1 : PlanInv getBytes g (objs ++ [(t, a.last_addr_)])
            (placeAtTail a (align8 (getBytes (g.tensor t))) pk) := by
          refine ⟨hinv1, ?_, ?_, ?_, ?_, ?_⟩
          · show a.last_addr_ + _ = a.used + _
            rw [h.contiguous]
          · simpa using hnd
          · show a.used + _ = _
            rw [List.map_append, paddedTotal_append, ← h.used_eq]
            simp [paddedTotal]
          · intro e he
            show e.2 + _ ≤ a.last_addr_ + _
            rcases List.mem_append.mp he with he | he
            · have := h.below_tail e he
              omega
            · rw [List.mem_singleton] at he
              subst he
              exact le_refl _
          · rw [List.pairwise_append]
            refine ⟨h.ordered, List.pairwise_singleton _ _, ?_⟩
            intro e1 he1 e2 he2
            rw [List.mem_singleton] at he2
            subst he2
            exact h.below_tail e1 he1
        have hk1 : (objs ++ [(t, a.last_addr_)]).map Prod.fst ⊆ all := by
          simpa using hsub
        obtain ⟨objs1, a1, e1, e2, e3⟩ :=
          allocTensors_spec getBytes g all hpos hfit rest _ _ hrest hk1 h1
        refine ⟨objs1, a1, e1, e2, ?_⟩
        intro x
        rw [e3 x]
        simp only [List.map_append, List.map_cons, List.map_nil, List.mem_append,
          List.mem_singleton, List.mem_cons]
        tauto

theorem planInv_fresh (getBytes : TensorObj → Nat) (g : GraphObj) :
    PlanInv getBytes g [] Allocator.fresh :=
  ⟨inv_fresh, rfl, List.nodup_nil, rfl, fun _ he => absurd he (List.not_mem_nil _),
    List.Pairwise.nil⟩

/-- C2 (amended). Memory planning without overflow: for every acyclic graph (distinct
operators, closed sources) with a fresh allocator whose tensors have at least one byte and
whose distinct tensors have padded sizes that sum to less than `2 ^ 64`, `dataMalloc` assigns
each distinct tensor object of the tensor collection exactly one offset (a tensor listed more
than once is allocated once and counted once in `used`), and the assigned byte ranges
`[offset, offset + bytes)` of distinct tensor objects are pairwise non-overlapping. -/
theorem dataMalloc_plan (getBytes : TensorObj → Nat) (g : GraphObj) (hn : g.ops.Nodup)
    (hc : SourcesClosed g) (hno : ¬ HasCycle g) (hfresh : g.allocator = Allocator.fresh)
    (hpos : ∀ t ∈ g.tensors, 1 ≤ getBytes (g.tensor t))
    (hfit : paddedTotal getBytes g g.tensors.dedup < SIZE_MOD) :
    ∃ objs g1, g.dataMalloc getBytes = some (objs, g1) ∧
      (objs.map Prod.fst).Nodup ∧
      (∀ t, t ∈ objs.map Prod.fst ↔ t ∈ g.tensors) ∧
      g1.allocator.used = paddedTotal getBytes g (objs.map Prod.fst) ∧
      (∀ e1 ∈ objs, ∀ e2 ∈ objs, e1.1 ≠ e2.1 →
        e1.2 + getBytes (g.tensor e1.1) ≤ e2.2 ∨ e2.2 + getBytes (g.tensor e2.1) ≤ e1.2) := by
  obtain ⟨g1, h1, ht, ha, hten⟩ := topo_sort_acyclic g hn hc hno
  have hpos1 : ∀ t ∈ g.tensors, 1 ≤ getBytes (g1.tensor t) := by
    rw [hten]
    exact hpos
  have hfit1 : paddedTotal getBytes g1 g.tensors.dedup < SIZE_MOD := by
    unfold paddedTotal at hfit ⊢
    rw [hten]
    exact hfit
  obtain ⟨objs, a1, e1, e2, e3⟩ := allocTensors_spec getBytes g1 g.tensors hpos1 hfit1
    g.tensors [] Allocator.fresh (fun _ hx => hx) (by simp) (planInv_fresh getBytes g1)
  refine ⟨objs, { g1 with allocator := a1.getPtr }, ?_, e2.keys_nodup, ?_, ?_, ?_⟩
  · unfold GraphObj.dataMalloc
    rw [h1]
    simp only [ht, ha, hfresh, e1]
  · intro t
    rw [e3 t]
    simp
  · show a1.getPtr.used = _
    have hu : a1.getPtr.used = a1.used := by
      unfold Allocator.getPtr
      split <;> rfl
    rw [hu, e2.used_eq]
    unfold paddedTotal
    rw [hten]
  · intro x hx y hy hxy
    have hord := e2.ordered
    have hb : ∀ e ∈ objs, getBytes (g.tensor e.1) ≤ align8 (getBytes (g1.tensor e.1)) := by
      intro e he
      rw [hten]
      have hmem : e.1 ∈ g.tensors := by
        have := (e3 e.1).mp (List.mem_map_of_mem Prod.fst he)
        simpa using this
      exact (align8_bounds _ (hpos e.1 hmem)).1
    have hR : Symmetric (fun e1 e2 : Ref × Nat =>
        e1.2 + align8 (getBytes (g1.tensor e1.1)) ≤ e2.2 ∨
          e2.2 + align8 (getBytes (g1.tensor e2.1)) ≤ e1.2) := fun _ _ h => h.symm
    have hxy2 : x ≠ y := fun h => hxy (by rw [h])
    have hd := (hord.imp (fun h => Or.inl h)).forall hR hx hy hxy2
    have bx := hb x hx
    have by1 := hb y hy
    rcases hd with hd | hd
    · left
      omega
    · right
      omega

theorem joinGraph_closed : SourcesClosed joinGraph := by
  intro c _ t ht p hp
  have ht2 : t = 0 ∨ t = 1 := by simpa [joinGraph, plainOp] using ht
  rcases ht2 with rfl | rfl <;> simp [joinGraph] at hp

theorem joinGraph_acyclic : ¬ HasCycle joinGraph := by
  rintro ⟨o, ho⟩
  have hedge : ∀ p c, ¬ Edge joinGraph p c := by
    intro p c ⟨_, t, ht, hp⟩
    have ht2 : t = 0 ∨ t = 1 := by simpa [joinGraph, plainOp] using ht
    rcases ht2 with rfl | rfl <;> simp [joinGraph] at hp
  cases ho with
  | single h => exact hedge _ _ h
  | tail _ h => exact hedge _ _ h

/-- C2 (as stated) fails for three tensors of `2 ^ 63` bytes: the second `alloc` computes
`size + last_addr_ = 2 ^ 64`, which wraps to zero, the tail wraps to zero, and the third tensor
is placed at offset 0 on top of the first. -/
theorem dataMalloc_overflow_counterexample :
    SourcesClosed joinGraph ∧ ¬ HasCycle joinGraph ∧ joinGraph.ops.Nodup ∧
      joinGraph.allocator = Allocator.fresh ∧
      (joinGraph.dataMalloc bytesHuge).map Prod.fst =
        some [(0, 0), (1, 9223372036854775808), (2, 0)] ∧
      ¬ (0 + bytesHuge (joinGraph.tensor 0) ≤ 0 ∨ 0 + bytesHuge (joinGraph.tensor 2) ≤ 0) :=
  ⟨joinGraph_closed, joinGraph_acyclic, by decide, rfl, by decide, by decide⟩

theorem dataMalloc_plan_witness :
    (joinGraph.ops.Nodup ∧ SourcesClosed joinGraph ∧ ¬ HasCycle joinGraph ∧
      joinGraph.allocator = Allocator.fresh ∧
      (∀ t ∈ joinGraph.tensors, 1 ≤ bytes20 (joinGraph.tensor t)) ∧
      paddedTotal bytes20 joinGraph joinGraph.tensors.dedup < SIZE_MOD) ∧
    ∃ objs g1, joinGraph.dataMalloc bytes20 = some (objs, g1) ∧
      (objs.map Prod.fst).Nodup ∧
      (∀ t, t ∈ objs.map Prod.fst ↔ t ∈ joinGraph.tensors) ∧
      g1.allocator.used = paddedTotal bytes20 joinGraph (objs.map Prod.fst) ∧
      (∀ e1 ∈ objs, ∀ e2 ∈ objs, e1.1 ≠ e2.1 →
        e1.2 + bytes20 (joinGraph.tensor e1.1) ≤ e2.2 ∨
          e2.2 + bytes20 (joinGraph.tensor e2.1) ≤ e1.2) :=
  ⟨⟨by decide, joinGraph_closed, joinGraph_acyclic, rfl, fun _ _ => (by decide : (1 : Nat) ≤ 20), by decide⟩,
    dataMalloc_plan bytes20 joinGraph (by decide) joinGraph_closed joinGraph_acyclic rfl
      (fun _ _ => (by decide : (1 : Nat) ≤ 20)) (by decide)⟩

/-! ## Lemmas on the object updates -/

theorem mem_removeRef {l : List Ref} {x y : Ref} : y ∈ removeRef l x ↔ y ∈ l ∧ y ≠ x := by
  simp [removeRef]

theorem mem_addRef {l : List Ref} {x y : Ref} : y ∈ addRef l x ↔ y ∈ l ∨ y = x := by
  unfold addRef
  split
  · constructor
    · exact Or.inl
    · rintro (h | rfl)
      · exact h
      · assumption
  · simp

theorem mem_foldl_addRef (l init : List Ref) (y : Ref) :
    y ∈ l.foldl addRef init ↔ y ∈ init ∨ y ∈ l := by
  induction l generalizing init with
  | nil => simp
  | cons x xs ih =>
      rw [List.foldl_cons, ih, mem_addRef, List.mem_cons]
      tauto

theorem removeRef_singleton_ne {x y : Ref} (h : x ≠ y) : removeRef [x] y = [x] := by
  simp [removeRef, h]

theorem replaceFirst_length (out inp : Ref) (l : List Ref) :
    (replaceFirst out inp l).length = l.length := by
  induction l with
  | nil => rfl
  | cons x xs ih =>
      simp only [replaceFirst]
      split <;> simp [ih]

/-- A slot that does not hold `out` keeps its value. -/
theorem replaceFirst_get_ne (out inp : Ref) (l : List Ref) (i : Nat) (v : Ref)
    (h : l[i]? = some v) (hv : v ≠ out) : (replaceFirst out inp l)[i]? = some v := by
  induction l generalizing i with
  | nil => simp at h
  | cons x xs ih =>
      simp only [replaceFirst]
      cases i with
      | zero =>
          simp only [List.getElem?_cons_zero, Option.some.injEq] at h
          subst h
          simp [hv]
      | succ n =>
          simp only [List.getElem?_cons_succ] at h
          split
          · simpa using h
          · simpa using ih n h

/-- The only slot that holds `out` receives `inp`. -/
theorem replaceFirst_get_eq (out inp : Ref) (l : List Ref) (i : Nat)
    (h : l[i]? = some out) (huniq : ∀ j, l[j]? = some out → j = i) :
    (replaceFirst out inp l)[i]? = some inp := by
  induction l generalizing i with
  | nil => simp at h
  | cons x xs ih =>
      simp only [replaceFirst]
      cases i with
      | zero =>
          simp only [List.getElem?_cons_zero, Option.some.injEq] at h
          simp [h]
      | succ n =>
          have hx : x ≠ out := by
            intro hx
            have := huniq 0 (by simp [hx])
            omega
          simp only [hx, if_false, List.getElem?_cons_succ]
          simp only [List.getElem?_cons_succ] at h
          apply ih n h
          intro j hj
          have := huniq (j + 1) (by simpa using hj)
          omega

/-- Every value in the result was there before or is `inp`. -/
theorem mem_replaceFirst (out inp : Ref) (l : List Ref) (v : Ref)
    (h : v ∈ replaceFirst out inp l) : v ∈ l ∨ v = inp := by
  induction l with
  | nil => simp [replaceFirst] at h
  | cons x xs ih =>
      simp only [replaceFirst] at h
      split at h
      · rcases List.mem_cons.mp h with rfl | h
        · exact Or.inr rfl
        · exact Or.inl (List.mem_cons_of_mem _ h)
      · rcases List.mem_cons.mp h with rfl | h
        · exact Or.inl (List.mem_cons_self _ _)
        · rcases ih h with h | h
          · exact Or.inl (List.mem_cons_of_mem _ h)
          · exact Or.inr h

theorem replaceFirst_head_ne (out inp : Ref) (l : List Ref) (d : Ref)
    (h : l.headD d ≠ out) (hl : l ≠ []) : (replaceFirst out inp l).headD d = l.headD d := by
  cases l with
  | nil => exact absurd rfl hl
  | cons x xs =>
      simp only [List.headD_cons] at h
      simp [replaceFirst, h]

theorem apply_length (dims perm : Shape) : (apply dims perm).length = dims.length := by
  simp [apply]

theorem apply_getD (dims perm : Shape) (k : Nat) (hk : k < dims.length) :
    (apply dims perm).getD k 0 = dims.getD (perm.getD k 0).toNat 0 := by
  unfold apply
  rw [List.getD_eq_getElem?_getD, List.getElem?_map, List.getElem?_range hk]
  rfl

theorem apply_cancel (dims p1 p2 : Shape) (h : Cancels p1 p2 dims.length) :
    apply (apply dims p1) p2 = dims := by
  apply List.ext_getElem
  · rw [apply_length, apply_length]
  · intro i h1 h2
    have hi : i < dims.length := h2
    obtain ⟨c1, c2, c3⟩ := h i hi
    have e1 : (apply (apply dims p1) p2).getD i 0 = dims.getD i 0 := by
      rw [apply_getD _ _ i (by rw [apply_length]; exact hi), apply_getD _ _ _ c2, c3]
      simp
    simpa [List.getD_eq_getElem?_getD, List.getElem?_eq_getElem h1,
      List.getElem?_eq_getElem h2] using e1

theorem removeRef_idem (l : List Ref) (x : Ref) : removeRef (removeRef l x) x = removeRef l x := by
  simp [removeRef, List.filter_filter]

theorem SpliceRel.spliceRefl (out inp t1 t2 : Ref) (g : GraphObj) : SpliceRel out inp t1 t2 g g :=
  ⟨rfl, rfl, fun _ => rfl, fun _ => rfl, fun _ => rfl, fun _ => rfl, fun _ => rfl, fun _ => rfl,
    fun _ => rfl, fun _ => ⟨0, rfl⟩, fun _ => Or.inl rfl, fun _ => Or.inl rfl,
    fun _ _ h _ => h⟩

theorem SpliceRel.spliceTrans {out inp t1 t2 : Ref} {g h k : GraphObj}
    (a : SpliceRel out inp t1 t2 g h) (b : SpliceRel out inp t1 t2 h k) :
    SpliceRel out inp t1 t2 g k := by
  refine ⟨b.ops_eq.trans a.ops_eq, b.tensors_eq.trans a.tensors_eq,
    fun o => (b.type_eq o).trans (a.type_eq o), fun o => (b.outputs_eq o).trans (a.outputs_eq o),
    fun o => (b.permute_eq o).trans (a.permute_eq o),
    fun o => (b.transA_eq o).trans (a.transA_eq o),
    fun o => (b.transB_eq o).trans (a.transB_eq o),
    fun t => (b.source_eq t).trans (a.source_eq t), fun t => (b.dims_eq t).trans (a.dims_eq t),
    ?_, ?_, ?_, fun t c hc hne => b.targets t c (a.targets t c hc hne) hne⟩
  · intro o
    obtain ⟨n, hn⟩ := a.inputs_iter o
    obtain ⟨m, hm⟩ := b.inputs_iter o
    exact ⟨m + n, by rw [hm, hn, Function.iterate_add_apply]⟩
  · intro o
    rcases a.preds o with ha | ha <;> rcases b.preds o with hb | hb
    · exact Or.inl (hb.trans ha)
    · exact Or.inr (by rw [hb, ha])
    · exact Or.inr (hb.trans ha)
    · exact Or.inr (by rw [hb, ha, removeRef_idem])
  · intro o
    rcases a.succs o with ha | ha <;> rcases b.succs o with hb | hb
    · exact Or.inl (hb.trans ha)
    · exact Or.inr (by rw [hb, ha])
    · exact Or.inr (hb.trans ha)
    · exact Or.inr (by rw [hb, ha, removeRef_idem])

theorem spliceRel_removeSucc (out inp t1 t2 : Ref) (g : GraphObj) (p : Ref) :
    SpliceRel out inp t1 t2 g
      (g.updOp p (fun o => { o with successors := removeRef o.successors t1 })) := by
  refine ⟨rfl, rfl, ?_, ?_, ?_, ?_, ?_, fun _ => rfl, fun _ => rfl, ?_, ?_, ?_,
    fun _ _ h _ => h⟩
  · intro o
    by_cases ho : o = p <;> simp [GraphObj.updOp, ho]
  · intro o
    by_cases ho : o = p <;> simp [GraphObj.updOp, ho]
  · intro o
    by_cases ho : o = p <;> simp [GraphObj.updOp, ho]
  · intro o
    by_cases ho : o = p <;> simp [GraphObj.updOp, ho]
  · intro o
    by_cases ho : o = p <;> simp [GraphObj.updOp, ho]
  · intro o
    refine ⟨0, ?_⟩
    by_cases ho : o = p <;> simp [GraphObj.updOp, ho]
  · intro o
    refine Or.inl ?_
    by_cases ho : o = p <;> simp [GraphObj.updOp, ho]
  · intro o
    by_cases ho : o = p
    · exact Or.inr (by simp [GraphObj.updOp, ho])
    · exact Or.inl (by simp [GraphObj.updOp, ho])

theorem spliceRel_removeTarget (out inp t1 t2 : Ref) (g : GraphObj) (x : Ref) :
    SpliceRel out inp t1 t2 g
      (g.updTensor x (fun t => { t with targets := removeRef t.targets t1 })) := by
  refine ⟨rfl, rfl, fun _ => rfl, fun _ => rfl, fun _ => rfl, fun _ => rfl, fun _ => rfl, ?_, ?_,
    fun _ => ⟨0, rfl⟩, fun _ => Or.inl rfl, fun _ => Or.inl rfl, ?_⟩
  · intro t
    simp only [GraphObj.updTensor]
    by_cases ht : t = x <;> simp [ht]
  · intro t
    simp only [GraphObj.updTensor]
    by_cases ht : t = x <;> simp [ht]
  · intro t c hc hne
    simp only [GraphObj.updTensor]
    by_cases ht : t = x
    · subst ht
      simp only [if_true]
      exact mem_removeRef.mpr ⟨hc, hne⟩
    · simp only [ht, if_false]
      exact hc

theorem spliceRel_spliceSucc (out inp t1 t2 : Ref) (g : GraphObj) (s : Ref) :
    SpliceRel out inp t1 t2 g (GraphObj.spliceSucc t2 out inp g s) := by
  refine ⟨rfl, rfl, ?_, ?_, ?_, ?_, ?_, ?_, ?_, ?_, ?_, ?_, ?_⟩
  · intro o
    simp only [GraphObj.spliceSucc, GraphObj.updOp, GraphObj.updTensor]
    by_cases ho : o = s <;> simp [ho]
  · intro o
    simp only [GraphObj.spliceSucc, GraphObj.updOp, GraphObj.updTensor]
    by_cases ho : o = s <;> simp [ho]
  · intro o
    simp only [GraphObj.spliceSucc, GraphObj.updOp, GraphObj.updTensor]
    by_cases ho : o = s <;> simp [ho]
  · intro o
    simp only [GraphObj.spliceSucc, GraphObj.updOp, GraphObj.updTensor]
    by_cases ho : o = s <;> simp [ho]
  · intro o
    simp only [GraphObj.spliceSucc, GraphObj.updOp, GraphObj.updTensor]
    by_cases ho : o = s <;> simp [ho]
  · intro t
    simp only [GraphObj.spliceSucc, GraphObj.updOp, GraphObj.updTensor]
    by_cases ht : t = inp <;> simp [ht]
  · intro t
    simp only [GraphObj.spliceSucc, GraphObj.updOp, GraphObj.updTensor]
    by_cases ht : t = inp <;> simp [ht]
  · intro o
    simp only [GraphObj.spliceSucc, GraphObj.updOp, GraphObj.updTensor]
    by_cases ho : o = s
    · exact ⟨1, by simp [ho]⟩
    · exact ⟨0, by simp [ho]⟩
  · intro o
    simp only [GraphObj.spliceSucc, GraphObj.updOp, GraphObj.updTensor]
    by_cases ho : o = s
    · exact Or.inr (by simp [ho])
    · exact Or.inl (by simp [ho])
  · intro o
    simp only [GraphObj.spliceSucc, GraphObj.updOp, GraphObj.updTensor]
    by_cases ho : o = s <;> exact Or.inl (by simp [ho])
  · intro t c hc _
    simp only [GraphObj.spliceSucc, GraphObj.updOp, GraphObj.updTensor]
    by_cases ht : t = inp
    · subst ht
      simp only [if_true]
      exact mem_addRef.mpr (Or.inl hc)
    · simp only [ht, if_false]
      exact hc

theorem spliceRel_foldl {out inp t1 t2 : Ref} (f : GraphObj → Ref → GraphObj)
    (hf : ∀ g x, SpliceRel out inp t1 t2 g (f g x)) :
    ∀ (l : List Ref) (g : GraphObj), SpliceRel out inp t1 t2 g (l.foldl f g)
  | [], g => SpliceRel.spliceRefl out inp t1 t2 g
  | x :: rest, g => (hf g x).spliceTrans (spliceRel_foldl f hf rest (f g x))

/-- The whole splice stays within `SpliceRel`. -/
theorem spliceRel_spliceGraph (g : GraphObj) (t1 t2 : Ref) :
    SpliceRel ((g.op t2).outputs.headD 0) ((g.op t1).inputs.headD 0) t1 t2 g
      (g.spliceGraph t1 t2) := by
  unfold GraphObj.spliceGraph
  exact ((spliceRel_foldl _ (fun h p => spliceRel_removeSucc _ _ t1 t2 h p) _ g).spliceTrans
    (spliceRel_removeTarget _ _ t1 t2 _ _)).spliceTrans
    (spliceRel_foldl _ (fun h s => spliceRel_spliceSucc _ _ t1 t2 h s) _ _)

/-- A successor of `t2` visited by the rewiring loop has `replaceFirst` applied to its inputs
at least once and is a target of `inp` afterwards. -/
theorem spliceSucc_foldl_mem (out inp t1 t2 : Ref) :
    ∀ (l : List Ref) (g : GraphObj) (c : Ref), c ∈ l → c ≠ t1 →
      (∃ n, ((l.foldl (GraphObj.spliceSucc t2 out inp) g).op c).inputs =
        (replaceFirst out inp)^[n + 1] (g.op c).inputs) ∧
      c ∈ ((l.foldl (GraphObj.spliceSucc t2 out inp) g).tensor inp).targets
  | [], _, _, h, _ => absurd h (List.not_mem_nil _)
  | s :: rest, g, c, h, hne => by
      rw [List.foldl_cons]
      have hrest := spliceRel_foldl (GraphObj.spliceSucc t2 out inp)
        (fun h s => spliceRel_spliceSucc out inp t1 t2 h s) rest
        (GraphObj.spliceSucc t2 out inp g s)
      by_cases hc : c = s
      · subst hc
        constructor
        · obtain ⟨n, hn⟩ := hrest.inputs_iter c
          refine ⟨n, ?_⟩
          rw [hn, Function.iterate_succ_apply]
          simp [GraphObj.spliceSucc, GraphObj.updOp, GraphObj.updTensor]
        · apply hrest.targets inp c _ hne
          simp [GraphObj.spliceSucc, GraphObj.updOp, GraphObj.updTensor, mem_addRef]
      · have hmem : c ∈ rest := by
          rcases List.mem_cons.mp h with h | h
          · exact absurd h hc
          · exact h
        obtain ⟨⟨n, hn⟩, ht⟩ := spliceSucc_foldl_mem out inp t1 t2 rest
          (GraphObj.spliceSucc t2 out inp g s) c hmem hne
        refine ⟨⟨n, ?_⟩, ht⟩
        rw [hn]
        simp [GraphObj.spliceSucc, GraphObj.updOp, GraphObj.updTensor, hc]

theorem iterate_replaceFirst_get_ne (out inp : Ref) (n : Nat) (l : List Ref) (i : Nat) (v : Ref)
    (h : l[i]? = some v) (hv : v ≠ out) : ((replaceFirst out inp)^[n] l)[i]? = some v := by
  induction n with
  | zero => exact h
  | succ k ih =>
      rw [Function.iterate_succ_apply']
      exact replaceFirst_get_ne out inp _ i v ih hv

theorem iterate_replaceFirst_get_eq (out inp : Ref) (n : Nat) (l : List Ref) (i : Nat)
    (h : l[i]? = some out) (huniq : ∀ j, l[j]? = some out → j = i) (hne : inp ≠ out) :
    ((replaceFirst out inp)^[n + 1] l)[i]? = some inp := by
  rw [Function.iterate_succ_apply]
  exact iterate_replaceFirst_get_ne out inp n _ i inp
    (replaceFirst_get_eq out inp l i h huniq) hne

theorem iterate_replaceFirst_mem (out inp : Ref) (n : Nat) (l : List Ref) (v : Ref)
    (h : v ∈ (replaceFirst out inp)^[n] l) : v ∈ l ∨ v = inp := by
  induction n with
  | zero => exact Or.inl h
  | succ k ih =>
      rw [Function.iterate_succ_apply'] at h
      rcases mem_replaceFirst out inp _ v h with h | h
      · exact ih h
      · exact Or.inr h

theorem iterate_replaceFirst_length (out inp : Ref) (n : Nat) (l : List Ref) :
    ((replaceFirst out inp)^[n] l).length = l.length := by
  induction n with
  | zero => rfl
  | succ k ih => rw [Function.iterate_succ_apply', replaceFirst_length, ih]

theorem headD_of_get_zero {l : List Ref} {x d : Ref} (h : l[0]? = some x) : l.headD d = x := by
  cases l with
  | nil => simp at h
  | cons y ys => simpa using h

/-! ## The two rewrite rules, by cases -/

/-- The rule `eliminate_redundant_transposes` either changes nothing and returns no operator,
or splices a pair of Transposes `t1`, `op` with `op`'s only predecessor `t1`. -/
theorem eliminate_redundant_transposes_cases (g : GraphObj) (op : Ref) :
    g.eliminate_redundant_transposes op = (g, []) ∨
    ∃ t1, (g.op op).type = OpType.Transpose ∧ (g.op op).predecessors = [t1] ∧
      (g.op t1).type = OpType.Transpose ∧
      g.eliminate_redundant_transposes op = (g.spliceGraph t1 op, [t1, op]) := by
  unfold GraphObj.eliminate_redundant_transposes
  by_cases h1 : (g.op op).type ≠ OpType.Transpose
  · rw [if_pos h1]
    exact Or.inl rfl
  · rw [if_neg h1]
    simp only
    by_cases h2 : (g.op op).predecessors.length ≠ 1
    · rw [if_pos h2]
      exact Or.inl rfl
    · rw [if_neg h2]
      by_cases h3 : (g.op ((g.op op).predecessors.headD 0)).type ≠ OpType.Transpose
      · rw [if_pos h3]
        exact Or.inl rfl
      · rw [if_neg h3]
        split
        · exact Or.inl rfl
        · refine Or.inr ⟨(g.op op).predecessors.headD 0, not_not.mp h1, ?_, not_not.mp h3, rfl⟩
          have hlen : (g.op op).predecessors.length = 1 := not_not.mp h2
          cases hp : (g.op op).predecessors with
          | nil => simp [hp] at hlen
          | cons x xs =>
              cases xs with
              | nil => rfl
              | cons y ys => simp [hp] at hlen

/-- The rule `eliminate_redundant_transposes` fires on a Transpose whose only predecessor is a
Transpose when the two permutations leave the shape of the input unchanged. -/
theorem eliminate_redundant_transposes_fires (g : GraphObj) (t1 t2 : Ref)
    (h2 : (g.op t2).type = OpType.Transpose) (hp : (g.op t2).predecessors = [t1])
    (h1 : (g.op t1).type = OpType.Transpose)
    (hc : apply (apply (g.tensor ((g.op t1).inputs.headD 0)).dims (g.op t1).permute)
      (g.op t2).permute = (g.tensor ((g.op t1).inputs.headD 0)).dims) :
    g.eliminate_redundant_transposes t2 = (g.spliceGraph t1 t2, [t1, t2]) := by
  unfold GraphObj.eliminate_redundant_transposes
  simp only [h2, hp, List.length_singleton, List.headD_cons, h1, ne_eq, not_true_eq_false,
    if_false, hc]
  simp

/-! ## The scan and the deletion loop of `executor` -/

theorem scanOps_append (fn : GraphObj → Ref → GraphObj × List Ref) :
    ∀ (l1 l2 : List Ref) (st : GraphObj × List Ref),
      GraphObj.scanOps fn (l1 ++ l2) st = GraphObj.scanOps fn l2 (GraphObj.scanOps fn l1 st)
  | [], _, _ => rfl
  | x :: rest, l2, (g, rem) => by
      simp only [List.cons_append, GraphObj.scanOps]
      split
      · exact scanOps_append fn rest l2 _
      · exact scanOps_append fn rest l2 _

theorem scanOps_cons (fn : GraphObj → Ref → GraphObj × List Ref) (op : Ref) (rest : List Ref)
    (st : GraphObj × List Ref) :
    GraphObj.scanOps fn (op :: rest) st = GraphObj.scanOps fn rest (scanStep fn st op) := by
  obtain ⟨g, rem⟩ := st
  simp only [GraphObj.scanOps, scanStep]
  split <;> rfl

/-- An invariant of the visits is an invariant of the scan. -/
theorem scanOps_invariant (fn : GraphObj → Ref → GraphObj × List Ref)
    (P : GraphObj × List Ref → Prop) :
    ∀ (l : List Ref) (st : GraphObj × List Ref),
      (∀ st op, op ∈ l → P st → P (scanStep fn st op)) → P st → P (GraphObj.scanOps fn l st)
  | [], _, _, h => h
  | op :: rest, st, hstep, h => by
      rw [scanOps_cons]
      exact scanOps_invariant fn P rest _
        (fun st1 o ho hp => hstep st1 o (List.mem_cons_of_mem _ ho) hp)
        (hstep st op (List.mem_cons_self _ _) h)

/-- A scan over a duplicate-free list that holds `x`: an invariant `P` of the visits before
`x`, turned into `Q` by the visit of `x`, with `Q` an invariant of the visits after `x`. -/
theorem scanOps_invariant_at (fn : GraphObj → Ref → GraphObj × List Ref)
    (P Q : GraphObj × List Ref → Prop) (l : List Ref) (x : Ref) (hx : x ∈ l) (hnd : l.Nodup)
    (hP : ∀ st op, op ∈ l → op ≠ x → P st → P (scanStep fn st op))
    (hPQ : ∀ st, P st → Q (scanStep fn st x))
    (hQ : ∀ st op, op ∈ l → op ≠ x → Q st → Q (scanStep fn st op))
    (st : GraphObj × List Ref) (h : P st) : Q (GraphObj.scanOps fn l st) := by
  obtain ⟨pre, post, rfl⟩ := List.append_of_mem hx
  have hnd2 := List.nodup_append.mp hnd
  have hxpre : x ∉ pre := fun hm => hnd2.2.2 hm (List.mem_cons_self _ _)
  have hxpost : x ∉ post := (List.nodup_cons.mp hnd2.2.1).1
  rw [scanOps_append, scanOps_cons]
  apply scanOps_invariant fn Q post
  · intro st1 o ho hq
    exact hQ st1 o (List.mem_append_right _ (List.mem_cons_of_mem _ ho))
      (fun e => hxpost (e ▸ ho)) hq
  · apply hPQ
    apply scanOps_invariant fn P pre
    · intro st1 o ho hp
      exact hP st1 o (List.mem_append_left _ ho) (fun e => hxpre (e ▸ ho)) hp
    · exact h

theorem removeTensor_foldl (g : GraphObj) (ys : List Ref) :
    (ys.foldl GraphObj.removeTensor g).ops = g.ops ∧
    (ys.foldl GraphObj.removeTensor g).op = g.op ∧
    (ys.foldl GraphObj.removeTensor g).tensor = g.tensor ∧
    (ys.foldl GraphObj.removeTensor g).tensors = ys.foldl List.erase g.tensors := by
  induction ys generalizing g with
  | nil => exact ⟨rfl, rfl, rfl, rfl⟩
  | cons y rest ih =>
      rw [List.foldl_cons, List.foldl_cons]
      obtain ⟨a, b, c, d⟩ := ih (g.removeTensor y)
      exact ⟨a, b, c, d⟩

/-- The deletion loop leaves the objects alone; the operator list loses the collected
operators and the tensor list their outputs. -/
theorem deleteOps_spec (g : GraphObj) (rem : List Ref) :
    (g.deleteOps rem).op = g.op ∧ (g.deleteOps rem).tensor = g.tensor ∧
    (g.deleteOps rem).ops = rem.foldl List.erase g.ops ∧
    (g.deleteOps rem).tensors =
      rem.foldl (fun l r => (g.op r).outputs.foldl List.erase l) g.tensors := by
  unfold GraphObj.deleteOps
  induction rem generalizing g with
  | nil => exact ⟨rfl, rfl, rfl, rfl⟩
  | cons r rest ih =>
      simp only [List.foldl_cons]
      obtain ⟨a, b, c, d⟩ := removeTensor_foldl g (g.op r).outputs
      obtain ⟨e1, e2, e3, e4⟩ :=
        ih (((g.op r).outputs.foldl GraphObj.removeTensor g).removeOperator r)
      have hop : (((g.op r).outputs.foldl GraphObj.removeTensor g).removeOperator r).op = g.op := b
      refine ⟨e1.trans hop, e2.trans c, ?_, ?_⟩
      · rw [e3]
        show rest.foldl List.erase
          (((g.op r).outputs.foldl GraphObj.removeTensor g).ops.erase r) = _
        rw [a]
      · rw [e4, hop]
        show rest.foldl _ ((g.op r).outputs.foldl GraphObj.removeTensor g).tensors = _
        rw [d]

theorem foldl_erase_nodup (rs : List Ref) : ∀ (l : List Ref), l.Nodup →
    (rs.foldl List.erase l).Nodup ∧ ∀ x, x ∈ rs.foldl List.erase l ↔ x ∈ l ∧ x ∉ rs := by
  induction rs with
  | nil => intro l h; exact ⟨h, by simp⟩
  | cons r rest ih =>
      intro l h
      rw [List.foldl_cons]
      obtain ⟨a, b⟩ := ih (l.erase r) (h.erase r)
      refine ⟨a, fun x => ?_⟩
      rw [b x, h.mem_erase_iff, List.mem_cons]
      tauto

theorem foldl_foldl_erase_nodup (out : Ref → List Ref) (rs : List Ref) :
    ∀ (l : List Ref), l.Nodup →
    (rs.foldl (fun l r => (out r).foldl List.erase l) l).Nodup ∧
      ∀ x, x ∈ rs.foldl (fun l r => (out r).foldl List.erase l) l ↔
        x ∈ l ∧ ∀ r ∈ rs, x ∉ out r := by
  induction rs with
  | nil => intro l h; exact ⟨h, by simp⟩
  | cons r rest ih =>
      intro l h
      rw [List.foldl_cons]
      obtain ⟨n1, m1⟩ := foldl_erase_nodup (out r) l h
      obtain ⟨a, b⟩ := ih _ n1
      refine ⟨a, fun x => ?_⟩
      rw [b x, m1 x]
      simp only [List.mem_cons, forall_eq_or_imp]
      tauto

theorem iterate_replaceFirst_get_inv (out inp : Ref) (n : Nat) (l : List Ref) (j : Nat) (v : Ref)
    (h : ((replaceFirst out inp)^[n] l)[j]? = some v) (hv : v ≠ inp) : l[j]? = some v := by
  induction n generalizing l with
  | zero => exact h
  | succ k ih =>
      rw [Function.iterate_succ_apply] at h
      have h2 := ih _ h
      -- one replacement: a slot is unchanged or becomes `inp`
      have hone : ∀ (l : List Ref) (j : Nat), (replaceFirst out inp l)[j]? = some v →
          l[j]? = some v := by
        intro l
        induction l with
        | nil => intro j hj; simp [replaceFirst] at hj
        | cons x xs ihx =>
            intro j hj
            simp only [replaceFirst] at hj
            split at hj
            · cases j with
              | zero =>
                  simp only [List.getElem?_cons_zero, Option.some.injEq] at hj
                  exact absurd hj.symm hv
              | succ m => simpa using hj
            · cases j with
              | zero => simpa using hj
              | succ m =>
                  simp only [List.getElem?_cons_succ] at hj ⊢
                  exact ihx m hj
      exact hone l j h2

theorem Static.staticRefl (g : GraphObj) : Static g g :=
  ⟨fun _ => rfl, fun _ => rfl, fun _ => rfl, fun _ => rfl, fun _ => rfl, fun _ => rfl⟩

theorem Static.staticTrans {g h k : GraphObj} (a : Static g h) (b : Static h k) : Static g k :=
  ⟨fun o => (b.type_eq o).trans (a.type_eq o), fun o => (b.outputs_eq o).trans (a.outputs_eq o),
    fun o => (b.permute_eq o).trans (a.permute_eq o),
    fun t => (b.source_eq t).trans (a.source_eq t), fun t => (b.dims_eq t).trans (a.dims_eq t),
    fun o => (b.inputs_len o).trans (a.inputs_len o)⟩

theorem SpliceRel.static {out inp t1 t2 : Ref} {g h : GraphObj}
    (r : SpliceRel out inp t1 t2 g h) : Static g h := by
  refine ⟨r.type_eq, r.outputs_eq, r.permute_eq, r.source_eq, r.dims_eq, ?_⟩
  intro o
  obtain ⟨n, hn⟩ := r.inputs_iter o
  rw [hn, iterate_replaceFirst_length]

theorem SpliceRel.preds_sub {out inp t1 t2 : Ref} {g h : GraphObj}
    (r : SpliceRel out inp t1 t2 g h) (o p : Ref) (hp : p ∈ (h.op o).predecessors) :
    p ∈ (g.op o).predecessors := by
  rcases r.preds o with e | e
  · rw [e] at hp
    exact hp
  · rw [e] at hp
    exact (mem_removeRef.mp hp).1

theorem mem_of_get {l : List Ref} {i : Nat} {v : Ref} (h : l[i]? = some v) : v ∈ l := by
  rw [List.getElem?_eq_some_iff] at h
  obtain ⟨hi, rfl⟩ := h
  exact List.getElem_mem hi

theorem get_zero_of_length_one {l : List Ref} (h : l.length = 1) :
    l[0]? = some (l.headD 0) ∧ l.headD 0 ∈ l := by
  cases l with
  | nil => simp at h
  | cons x xs => simp

/-- Facts about a splice that fires on `op` in a graph `h` reached from the well-linked `g`:
the spliced output has source `op`, and the spliced input is an input of the Transpose `t1`,
an operator of the graph. -/
theorem splice_facts {g h : GraphObj} (wl : WellLinked g) (hs : Static g h)
    (hsub : ∀ o p, p ∈ (h.op o).predecessors → p ∈ (g.op o).predecessors)
    {op t1 : Ref} (hop : op ∈ g.ops) (h2 : (h.op op).type = OpType.Transpose)
    (hp : (h.op op).predecessors = [t1]) (h1 : (h.op t1).type = OpType.Transpose) :
    (g.tensor ((h.op op).outputs.headD 0)).source = some op ∧ t1 ∈ g.ops ∧
      (g.op t1).type = OpType.Transpose ∧ (g.op op).type = OpType.Transpose ∧
      (h.op t1).inputs[0]? = some ((h.op t1).inputs.headD 0) ∧
      t1 ∈ (g.op op).predecessors := by
  have ht2 : (g.op op).type = OpType.Transpose := by rw [← hs.type_eq]; exact h2
  have ht1 : (g.op t1).type = OpType.Transpose := by rw [← hs.type_eq]; exact h1
  have hpm : t1 ∈ (g.op op).predecessors := hsub op t1 (by rw [hp]; exact List.mem_singleton_self _)
  have ht1m : t1 ∈ g.ops := wl.preds_mem op hop t1 hpm
  have hout := (wl.transpose_io op hop ht2).2
  have hin := (wl.transpose_io t1 ht1m ht1).1
  rw [← hs.inputs_len] at hin
  refine ⟨?_, ht1m, ht1, ht2, (get_zero_of_length_one hin).1, hpm⟩
  rw [hs.outputs_eq]
  exact wl.out_source op hop _ (get_zero_of_length_one hout).2

theorem source_ne_of_transpose {g : GraphObj} {X out op : Ref}
    (hx : ∀ p, (g.tensor X).source = some p → (g.op p).type ≠ OpType.Transpose)
    (hout : (g.tensor out).source = some op) (hop : (g.op op).type = OpType.Transpose) :
    X ≠ out := by
  rintro rfl
  exact hx op hout hop

theorem foldl_addRef_pair (rem : List Ref) (a b x : Ref) :
    x ∈ [a, b].foldl addRef rem ↔ x ∈ rem ∨ x = a ∨ x = b := by
  rw [mem_foldl_addRef]
  simp

/-- Before `T2` is visited, the visit of any other operator keeps `BeforeCancel`. -/
theorem beforeCancel_step {g : GraphObj} {T1 T2 X Y1 Y2 : Ref} (cp : CancelPair g T1 T2 X Y1 Y2)
    (st : GraphObj × List Ref) (op : Ref) (hop : op ∈ g.ops) (hne : op ≠ T2)
    (J : BeforeCancel g T1 T2 X Y2 st) :
    BeforeCancel g T1 T2 X Y2 (scanStep GraphObj.eliminate_redundant_transposes st op) := by
  unfold scanStep
  by_cases hrem : op ∈ st.2
  · rw [if_pos hrem]
    exact J
  · rw [if_neg hrem]
    rcases eliminate_redundant_transposes_cases st.1 op with e | ⟨t1, h2, hp, h1, e⟩
    · rw [e]
      exact J
    · rw [e]
      have R := spliceRel_spliceGraph st.1 t1 op
      obtain ⟨f1, f2, f3, f4, f5, f6⟩ := splice_facts cp.wl J.static J.preds_sub hop h2 hp h1
      have hY2src : (g.tensor Y2).source = some T2 :=
        cp.wl.out_source T2 cp.t2_mem Y2 (by rw [cp.t2_outputs]; exact List.mem_singleton_self _)
      have hXout : X ≠ (st.1.op op).outputs.headD 0 := source_ne_of_transpose cp.x_source f1 f4
      have hY2out : Y2 ≠ (st.1.op op).outputs.headD 0 := by
        intro h
        rw [← h, hY2src] at f1
        exact hne (Option.some.inj f1).symm
      have hY2inp : Y2 ≠ (st.1.op t1).inputs.headD 0 := by
        intro h
        exact J.no_transpose t1 f2 f3 (h ▸ mem_of_get f5)
      refine ⟨J.static.staticTrans R.static, ?_, ?_, ?_, ?_, ?_, ?_, ?_, ?_, ?_⟩
      · intro o p hpo
        exact J.preds_sub o p (R.preds_sub o p hpo)
      · intro r hr
        rcases (foldl_addRef_pair _ _ _ _).mp hr with hr | rfl | rfl
        · exact J.rem_type r hr
        · exact f3
        · exact f4
      · intro hmem
        rcases (foldl_addRef_pair _ _ _ _).mp hmem with hr | rfl | rfl
        · exact J.t2_not_rem hr
        · -- `T2` would be the predecessor of the Transpose `op`
          obtain ⟨t, ht, hts⟩ := cp.wl.pred_source op hop _ f6
          have hto := cp.wl.source_out op hop t ht _ hts
          rw [cp.t2_outputs, List.mem_singleton] at hto
          subst hto
          exact cp.y2_consumers op hop ht f4
        · exact hne rfl
      · rcases R.preds T2 with e2 | e2
        · rw [e2]
          exact J.t2_preds
        · rw [e2, J.t2_preds]
          apply removeRef_singleton_ne
          -- `op = T1` would give `T1` a Transpose predecessor
          rintro rfl
          obtain ⟨t, ht, hts⟩ := cp.wl.pred_source _ hop _ f6
          rw [cp.t1_inputs, List.mem_singleton] at ht
          subst ht
          exact cp.x_source _ hts f3
      · obtain ⟨n, hn⟩ := R.inputs_iter T1
        rw [hn]
        exact iterate_replaceFirst_get_ne _ _ n _ 0 X J.t1_input hXout
      · intro o ho hto hmem
        obtain ⟨n, hn⟩ := R.inputs_iter o
        rw [hn] at hmem
        rcases iterate_replaceFirst_mem _ _ n _ _ hmem with hm | hm
        · exact J.no_transpose o ho hto hm
        · exact hY2inp hm
      · intro c hc hcy
        have hcs := J.consumers c hc hcy
        rcases R.succs T2 with e2 | e2
        · rw [e2]
          exact hcs
        · rw [e2]
          refine mem_removeRef.mpr ⟨hcs, ?_⟩
          rintro rfl
          exact cp.y2_consumers _ hc hcy f3
      · intro c i hc hci
        obtain ⟨n, hn⟩ := R.inputs_iter c
        rw [hn]
        exact iterate_replaceFirst_get_ne _ _ n _ i Y2 (J.slots c i hc hci) hY2out
      · intro c j hc hcj
        obtain ⟨n, hn⟩ := R.inputs_iter c
        rw [hn] at hcj
        exact J.slots_inv c j hc (iterate_replaceFirst_get_inv _ _ n _ j Y2 hcj hY2inp)

/-- The splice is the rewiring loop over the successors of `t2`, run on a graph that differs
from `g` within `SpliceRel`. -/
theorem spliceGraph_eq (g : GraphObj) (t1 t2 : Ref) :
    ∃ g2, SpliceRel ((g.op t2).outputs.headD 0) ((g.op t1).inputs.headD 0) t1 t2 g g2 ∧
      g.spliceGraph t1 t2 = (g.op t2).successors.foldl
        (GraphObj.spliceSucc t2 ((g.op t2).outputs.headD 0) ((g.op t1).inputs.headD 0)) g2 := by
  refine ⟨_, ?_, rfl⟩
  exact (spliceRel_foldl _ (fun h p => spliceRel_removeSucc _ _ t1 t2 h p) _ g).spliceTrans
    (spliceRel_removeTarget _ _ t1 t2 _ _)

/-- The visit of `T2` fires the rule on the pair and rewires every consumer of `Y2`. -/
theorem cancel_visit {g : GraphObj} {T1 T2 X Y1 Y2 : Ref} (cp : CancelPair g T1 T2 X Y1 Y2)
    (st : GraphObj × List Ref) (J : BeforeCancel g T1 T2 X Y2 st) :
    AfterCancel g T1 T2 X Y2 (scanStep GraphObj.eliminate_redundant_transposes st T2) := by
  unfold scanStep
  rw [if_neg J.t2_not_rem]
  have h2 : (st.1.op T2).type = OpType.Transpose := by rw [J.static.type_eq]; exact cp.t2_type
  have h1 : (st.1.op T1).type = OpType.Transpose := by rw [J.static.type_eq]; exact cp.t1_type
  have hin : (st.1.op T1).inputs.headD 0 = X := headD_of_get_zero J.t1_input
  have hout : (st.1.op T2).outputs.headD 0 = Y2 := by
    rw [J.static.outputs_eq, cp.t2_outputs]
    rfl
  have hfire := eliminate_redundant_transposes_fires st.1 T1 T2 h2 J.t2_preds h1 (by
    rw [hin, J.static.dims_eq, J.static.permute_eq, J.static.permute_eq]
    exact apply_cancel _ _ _ cp.cancels)
  rw [hfire]
  have R := spliceRel_spliceGraph st.1 T1 T2
  have hY2src : (g.tensor Y2).source = some T2 :=
    cp.wl.out_source T2 cp.t2_mem Y2 (by rw [cp.t2_outputs]; exact List.mem_singleton_self _)
  have hXY : X ≠ Y2 := source_ne_of_transpose cp.x_source hY2src cp.t2_type
  refine ⟨J.static.staticTrans R.static, ?_, ?_, ?_, ?_⟩
  · intro r hr
    rcases (foldl_addRef_pair _ _ _ _).mp hr with hr | rfl | rfl
    · exact J.rem_type r hr
    · exact cp.t1_type
    · exact cp.t2_type
  · exact (foldl_addRef_pair _ _ _ _).mpr (Or.inr (Or.inl rfl))
  · exact (foldl_addRef_pair _ _ _ _).mpr (Or.inr (Or.inr rfl))
  · intro c i hc hci huniq
    have hcy : Y2 ∈ (g.op c).inputs := mem_of_get hci
    have hcT1 : c ≠ T1 := by
      rintro rfl
      exact cp.y2_consumers _ hc hcy cp.t1_type
    obtain ⟨g2, R2, e2⟩ := spliceGraph_eq st.1 T1 T2
    rw [hin, hout] at R2 e2
    obtain ⟨⟨n, hn⟩, ht⟩ := spliceSucc_foldl_mem Y2 X T1 T2 (st.1.op T2).successors g2 c
      (J.consumers c hc hcy) hcT1
    obtain ⟨m, hm⟩ := R2.inputs_iter c
    show ((st.1.spliceGraph T1 T2).op c).inputs[i]? = some X ∧
      c ∈ ((st.1.spliceGraph T1 T2).tensor X).targets
    rw [e2]
    refine ⟨?_, ht⟩
    rw [hn, hm, ← Function.iterate_add_apply]
    have e3 : n + 1 + m = (n + m) + 1 := by omega
    rw [e3]
    exact iterate_replaceFirst_get_eq Y2 X (n + m) _ i (J.slots c i hc hci)
      (fun j hj => huniq j (J.slots_inv c j hc hj)) hXY

/-- After `T2` has been visited, the visit of any operator keeps `AfterCancel`. -/
theorem afterCancel_step {g : GraphObj} {T1 T2 X Y1 Y2 : Ref} (cp : CancelPair g T1 T2 X Y1 Y2)
    (st : GraphObj × List Ref) (op : Ref) (hop : op ∈ g.ops)
    (J : AfterCancel g T1 T2 X Y2 st) :
    AfterCancel g T1 T2 X Y2 (scanStep GraphObj.eliminate_redundant_transposes st op) := by
  unfold scanStep
  by_cases hrem : op ∈ st.2
  · rw [if_pos hrem]
    exact J
  · rw [if_neg hrem]
    rcases eliminate_redundant_transposes_cases st.1 op with e | ⟨t1, h2, hp, h1, e⟩
    · rw [e]
      exact J
    · rw [e]
      have R := spliceRel_spliceGraph st.1 t1 op
      have ht2 : (g.op op).type = OpType.Transpose := by rw [← J.static.type_eq]; exact h2
      have ht1 : (g.op t1).type = OpType.Transpose := by rw [← J.static.type_eq]; exact h1
      have hout := (cp.wl.transpose_io op hop ht2).2
      have hsrc : (g.tensor ((st.1.op op).outputs.headD 0)).source = some op := by
        rw [J.static.outputs_eq]
        exact cp.wl.out_source op hop _ (get_zero_of_length_one hout).2
      have hXout : X ≠ (st.1.op op).outputs.headD 0 := source_ne_of_transpose cp.x_source hsrc ht2
      refine ⟨J.static.staticTrans R.static, ?_, ?_, ?_, ?_⟩
      · intro r hr
        rcases (foldl_addRef_pair _ _ _ _).mp hr with hr | rfl | rfl
        · exact J.rem_type r hr
        · exact ht1
        · exact ht2
      · exact (foldl_addRef_pair _ _ _ _).mpr (Or.inl J.t1_rem)
      · exact (foldl_addRef_pair _ _ _ _).mpr (Or.inl J.t2_rem)
      · intro c i hc hci huniq
        obtain ⟨a, b⟩ := J.rewired c i hc hci huniq
        obtain ⟨n, hn⟩ := R.inputs_iter c
        refine ⟨?_, ?_⟩
        · show ((st.1.spliceGraph t1 op).op c).inputs[i]? = some X
          rw [hn]
          exact iterate_replaceFirst_get_ne _ _ n _ i X a hXout
        · apply R.targets X c b
          rintro rfl
          exact cp.y2_consumers _ hc (mem_of_get hci) ht1

theorem beforeCancel_start {g : GraphObj} {T1 T2 X Y1 Y2 : Ref}
    (cp : CancelPair g T1 T2 X Y1 Y2) : BeforeCancel g T1 T2 X Y2 (g, []) := by
  refine ⟨Static.staticRefl g, fun _ _ h => h, fun _ hr => absurd hr (List.not_mem_nil _),
    List.not_mem_nil _, cp.t2_preds, by rw [cp.t1_inputs]; rfl, ?_, ?_, fun _ _ _ h => h,
    fun _ _ _ h => h⟩
  · intro o ho hto hmem
    exact cp.y2_consumers o ho hmem hto
  · intro c hc hcy
    have hY2src : (g.tensor Y2).source = some T2 :=
      cp.wl.out_source T2 cp.t2_mem Y2 (by rw [cp.t2_outputs]; exact List.mem_singleton_self _)
    exact cp.wl.source_succ c hc Y2 hcy T2 hY2src

/-- The scans of `optimize` leave the two collections alone. -/
theorem scan_transposes_collections (g : GraphObj) (l : List Ref) (st : GraphObj × List Ref)
    (h : st.1.ops = g.ops ∧ st.1.tensors = g.tensors) :
    (GraphObj.scanOps GraphObj.eliminate_redundant_transposes l st).1.ops = g.ops ∧
    (GraphObj.scanOps GraphObj.eliminate_redundant_transposes l st).1.tensors = g.tensors := by
  apply scanOps_invariant GraphObj.eliminate_redundant_transposes
    (fun st => st.1.ops = g.ops ∧ st.1.tensors = g.tensors) l st _ h
  intro st1 op _ hp
  unfold scanStep
  split
  · exact hp
  · rcases eliminate_redundant_transposes_cases st1.1 op with e | ⟨t1, _, _, _, e⟩
    · rw [e]
      exact hp
    · rw [e]
      have R := spliceRel_spliceGraph st1.1 t1 op
      exact ⟨R.ops_eq.trans hp.1, R.tensors_eq.trans hp.2⟩

/-- The first pass of `optimize` on a graph with a cancelling pair: `T1`, `T2` and their
outputs are gone, the objects differ from the original ones within `Static`, and every
consumer of `Y2` holds `X` and is a target of `X`. -/
theorem cancel_first_pass {g : GraphObj} {T1 T2 X Y1 Y2 : Ref} (cp : CancelPair g T1 T2 X Y1 Y2) :
    let g1 := GraphObj.executor GraphObj.eliminate_redundant_transposes g
    Static g g1 ∧ (∀ x ∈ g1.ops, x ∈ g.ops) ∧ (∀ x ∈ g1.tensors, x ∈ g.tensors) ∧
      g1.ops.Nodup ∧ g1.tensors.Nodup ∧
      T1 ∉ g1.ops ∧ T2 ∉ g1.ops ∧ Y1 ∉ g1.tensors ∧ Y2 ∉ g1.tensors ∧
      ∀ (c : Ref) (i : Nat), c ∈ g.ops → (g.op c).inputs[i]? = some Y2 →
        (∀ j : Nat, (g.op c).inputs[j]? = some Y2 → j = i) →
        (g1.op c).inputs[i]? = some X ∧ c ∈ (g1.tensor X).targets ∧ c ∈ g1.ops := by
  intro g1
  have hA : AfterCancel g T1 T2 X Y2
      (GraphObj.scanOps GraphObj.eliminate_redundant_transposes g.ops (g, [])) :=
    scanOps_invariant_at GraphObj.eliminate_redundant_transposes
      (BeforeCancel g T1 T2 X Y2) (AfterCancel g T1 T2 X Y2) g.ops T2 cp.t2_mem cp.wl.ops_nodup
      (fun st op hop hne J => beforeCancel_step cp st op hop hne J)
      (fun st J => cancel_visit cp st J)
      (fun st op hop _ J => afterCancel_step cp st op hop J)
      (g, []) (beforeCancel_start cp)
  have hC := scan_transposes_collections g g.ops (g, []) ⟨rfl, rfl⟩
  generalize hst : GraphObj.scanOps GraphObj.eliminate_redundant_transposes g.ops (g, []) = st
    at hA hC
  obtain ⟨h1, rem⟩ := st
  have hg1 : g1 = h1.deleteOps rem := by
    show GraphObj.executor GraphObj.eliminate_redundant_transposes g = _
    unfold GraphObj.executor
    rw [hst]
  obtain ⟨d1, d2, d3, d4⟩ := deleteOps_spec h1 rem
  simp only at hC hA
  have hn1 : h1.ops.Nodup := by rw [hC.1]; exact cp.wl.ops_nodup
  have hn2 : h1.tensors.Nodup := by rw [hC.2]; exact cp.wl.tensors_nodup
  obtain ⟨n1, m1⟩ := foldl_erase_nodup rem h1.ops hn1
  obtain ⟨n2, m2⟩ := foldl_foldl_erase_nodup (fun r => (h1.op r).outputs) rem h1.tensors hn2
  rw [← d3] at n1 m1
  rw [← d4] at n2 m2
  rw [← hg1] at d1 d2 n1 m1 n2 m2
  have hS : Static g g1 := by
    have := hA.static
    refine ⟨?_, ?_, ?_, ?_, ?_, ?_⟩
    · intro o; rw [d1]; exact this.type_eq o
    · intro o; rw [d1]; exact this.outputs_eq o
    · intro o; rw [d1]; exact this.permute_eq o
    · intro t; rw [d2]; exact this.source_eq t
    · intro t; rw [d2]; exact this.dims_eq t
    · intro o; rw [d1]; exact this.inputs_len o
  refine ⟨hS, ?_, ?_, n1, n2, ?_, ?_, ?_, ?_, ?_⟩
  · intro x hx
    rw [← hC.1]
    exact ((m1 x).mp hx).1
  · intro x hx
    rw [← hC.2]
    exact ((m2 x).mp hx).1
  · intro hx
    exact ((m1 T1).mp hx).2 hA.t1_rem
  · intro hx
    exact ((m1 T2).mp hx).2 hA.t2_rem
  · intro hx
    refine ((m2 Y1).mp hx).2 T1 hA.t1_rem ?_
    show Y1 ∈ (h1.op T1).outputs
    rw [hA.static.outputs_eq, cp.t1_outputs]
    exact List.mem_singleton_self _
  · intro hx
    refine ((m2 Y2).mp hx).2 T2 hA.t2_rem ?_
    show Y2 ∈ (h1.op T2).outputs
    rw [hA.static.outputs_eq, cp.t2_outputs]
    exact List.mem_singleton_self _
  · intro c i hc hci huniq
    obtain ⟨a, b⟩ := hA.rewired c i hc hci huniq
    rw [d1, d2]
    refine ⟨a, b, ?_⟩
    rw [m1 c, hC.1]
    refine ⟨hc, fun hr => ?_⟩
    exact cp.y2_consumers c hc (mem_of_get hci) (hA.rem_type c hr)

theorem LinkRel.linkRefl (tr : Ref) (g : GraphObj) : LinkRel tr g g :=
  ⟨rfl, rfl, fun _ => rfl, fun _ => rfl, fun _ => rfl, fun _ => rfl, fun _ => rfl, fun _ => rfl,
    fun _ => rfl, fun _ => rfl, fun _ _ h _ => h⟩

theorem LinkRel.linkTrans {tr : Ref} {g h k : GraphObj} (a : LinkRel tr g h) (b : LinkRel tr h k) :
    LinkRel tr g k :=
  ⟨b.ops_eq.trans a.ops_eq, b.tensors_eq.trans a.tensors_eq,
    fun o => (b.type_eq o).trans (a.type_eq o), fun o => (b.inputs_eq o).trans (a.inputs_eq o),
    fun o => (b.outputs_eq o).trans (a.outputs_eq o),
    fun o => (b.permute_eq o).trans (a.permute_eq o),
    fun o => (b.transA_eq o).trans (a.transA_eq o),
    fun o => (b.transB_eq o).trans (a.transB_eq o),
    fun t => (b.source_eq t).trans (a.source_eq t), fun t => (b.dims_eq t).trans (a.dims_eq t),
    fun t c hc hne => b.targets t c (a.targets t c hc hne) hne⟩

/-- An update of the predecessors or successors of one operator stays within `LinkRel`. -/
theorem linkRel_updOp (tr : Ref) (g : GraphObj) (r : Ref) (f : OperatorObj → OperatorObj)
    (hf : ∀ o, (f o).type = o.type ∧ (f o).inputs = o.inputs ∧ (f o).outputs = o.outputs ∧
      (f o).permute = o.permute ∧ (f o).transA = o.transA ∧ (f o).transB = o.transB) :
    LinkRel tr g (g.updOp r f) := by
  refine ⟨rfl, rfl, ?_, ?_, ?_, ?_, ?_, ?_, fun _ => rfl, fun _ => rfl, fun _ _ h _ => h⟩
  all_goals intro o
  all_goals simp only [GraphObj.updOp]
  all_goals by_cases ho : o = r
  · simp only [ho, if_true]; exact (hf _).1
  · simp only [ho, if_false]
  · simp only [ho, if_true]; exact (hf _).2.1
  · simp only [ho, if_false]
  · simp only [ho, if_true]; exact (hf _).2.2.1
  · simp only [ho, if_false]
  · simp only [ho, if_true]; exact (hf _).2.2.2.1
  · simp only [ho, if_false]
  · simp only [ho, if_true]; exact (hf _).2.2.2.2.1
  · simp only [ho, if_false]
  · simp only [ho, if_true]; exact (hf _).2.2.2.2.2
  · simp only [ho, if_false]

theorem linkRel_updTensor (tr : Ref) (g : GraphObj) (x : Ref) (f : TensorObj → TensorObj)
    (hf : ∀ t, (f t).source = t.source ∧ (f t).dims = t.dims ∧
      ∀ c ∈ t.targets, c ≠ tr → c ∈ (f t).targets) :
    LinkRel tr g (g.updTensor x f) := by
  refine ⟨rfl, rfl, fun _ => rfl, fun _ => rfl, fun _ => rfl, fun _ => rfl, fun _ => rfl,
    fun _ => rfl, ?_, ?_, ?_⟩
  · intro t
    simp only [GraphObj.updTensor]
    by_cases ht : t = x
    · simp only [ht, if_true]; exact (hf _).1
    · simp only [ht, if_false]
  · intro t
    simp only [GraphObj.updTensor]
    by_cases ht : t = x
    · simp only [ht, if_true]; exact (hf _).2.1
    · simp only [ht, if_false]
  · intro t c hc hne
    simp only [GraphObj.updTensor]
    by_cases ht : t = x
    · subst ht
      simp only [if_true]
      exact (hf _).2.2 c hc hne
    · simp only [ht, if_false]
      exact hc

theorem linkRel_foldl {tr : Ref} (f : GraphObj → Ref → GraphObj)
    (hf : ∀ g x, LinkRel tr g (f g x)) :
    ∀ (l : List Ref) (g : GraphObj), LinkRel tr g (l.foldl f g)
  | [], g => LinkRel.linkRefl tr g
  | x :: rest, g => (hf g x).linkTrans (linkRel_foldl f hf rest (f g x))

theorem linkRel_fuseLinks (m tr : Ref) (g : GraphObj) : LinkRel tr g (g.fuseLinks m tr) := by
  unfold GraphObj.fuseLinks
  refine (linkRel_foldl _ (fun h p => ?_) _ g).linkTrans (linkRel_updOp tr _ m _ (fun _ => by simp))
  exact (linkRel_updOp tr h p _ (fun _ => by simp)).linkTrans
    (linkRel_updOp tr _ m _ (fun _ => by simp))

theorem linkRel_fuseTargets (m tr : Ref) (g : GraphObj) :
    LinkRel tr g (g.fuseTargets m tr) ∧
      m ∈ ((g.fuseTargets m tr).tensor ((g.op tr).inputs.headD 0)).targets := by
  unfold GraphObj.fuseTargets
  constructor
  · refine (linkRel_updTensor tr g _ (fun t => { t with targets := removeRef t.targets tr })
      (fun t => ⟨rfl, rfl, ?_⟩)).linkTrans
      (linkRel_updTensor tr _ _ (fun t => { t with targets := addRef t.targets m })
        (fun t => ⟨rfl, rfl, ?_⟩))
    · intro c hc hne
      exact mem_removeRef.mpr ⟨hc, hne⟩
    · intro c hc _
      exact mem_addRef.mpr (Or.inl hc)
  · simp [GraphObj.updTensor, mem_addRef]

/-- The graph after a fusion, field by field. -/
theorem fuseGraph_spec (is_left : Bool) (m tr : Ref) (g : GraphObj) :
    (g.fuseGraph is_left m tr).ops = g.ops ∧ (g.fuseGraph is_left m tr).tensors = g.tensors ∧
    Static g (g.fuseGraph is_left m tr) ∧
    (∀ o, o ≠ m → ((g.fuseGraph is_left m tr).op o).inputs = (g.op o).inputs ∧
      ((g.fuseGraph is_left m tr).op o).transA = (g.op o).transA ∧
      ((g.fuseGraph is_left m tr).op o).transB = (g.op o).transB) ∧
    ((g.fuseGraph is_left m tr).op m).inputs =
      (g.op m).inputs.set (if is_left then 0 else 1) ((g.op tr).inputs.headD 0) ∧
    ((g.fuseGraph is_left m tr).op m).transA = (if is_left then true else (g.op m).transA) ∧
    ((g.fuseGraph is_left m tr).op m).transB = (if is_left then (g.op m).transB else true) ∧
    (∀ t c, c ∈ (g.tensor t).targets → c ≠ tr →
      c ∈ ((g.fuseGraph is_left m tr).tensor t).targets) ∧
    m ∈ ((g.fuseGraph is_left m tr).tensor ((g.op tr).inputs.headD 0)).targets := by
  have L2 := linkRel_fuseLinks m tr g
  obtain ⟨L3, hm3⟩ := linkRel_fuseTargets m tr (g.fuseLinks m tr)
  have L4 := L2.linkTrans L3
  have hinp : ((g.fuseLinks m tr).op tr).inputs.headD 0 = (g.op tr).inputs.headD 0 := by
    rw [L2.inputs_eq]
  rw [hinp] at hm3
  unfold GraphObj.fuseGraph
  simp only [hinp]
  generalize (g.fuseLinks m tr).fuseTargets m tr = g4 at L4 hm3
  cases is_left
  · simp only [Bool.false_eq_true, if_false]
    refine ⟨L4.ops_eq, L4.tensors_eq, ⟨?_, ?_, ?_, L4.source_eq, L4.dims_eq, ?_⟩, ?_, ?_, ?_, ?_,
      L4.targets, hm3⟩
    · intro o
      by_cases ho : o = m <;> simp [GraphObj.updOp, ho, L4.type_eq]
    · intro o
      by_cases ho : o = m <;> simp [GraphObj.updOp, ho, L4.outputs_eq]
    · intro o
      by_cases ho : o = m <;> simp [GraphObj.updOp, ho, L4.permute_eq]
    · intro o
      by_cases ho : o = m <;> simp [GraphObj.updOp, ho, L4.inputs_eq]
    · intro o ho
      simp [GraphObj.updOp, ho, L4.inputs_eq, L4.transA_eq, L4.transB_eq]
    · simp [GraphObj.updOp, L4.inputs_eq]
    · simp [GraphObj.updOp, L4.transA_eq]
    · simp [GraphObj.updOp]
  · simp only [if_true]
    refine ⟨L4.ops_eq, L4.tensors_eq, ⟨?_, ?_, ?_, L4.source_eq, L4.dims_eq, ?_⟩, ?_, ?_, ?_, ?_,
      L4.targets, hm3⟩
    · intro o
      by_cases ho : o = m <;> simp [GraphObj.updOp, ho, L4.type_eq]
    · intro o
      by_cases ho : o = m <;> simp [GraphObj.updOp, ho, L4.outputs_eq]
    · intro o
      by_cases ho : o = m <;> simp [GraphObj.updOp, ho, L4.permute_eq]
    · intro o
      by_cases ho : o = m <;> simp [GraphObj.updOp, ho, L4.inputs_eq]
    · intro o ho
      simp [GraphObj.updOp, ho, L4.inputs_eq, L4.transA_eq, L4.transB_eq]
    · simp [GraphObj.updOp, L4.inputs_eq]
    · simp [GraphObj.updOp]
    · simp [GraphObj.updOp, L4.transB_eq]

/-- The lambda `impl` either changes nothing or fuses the Transpose that produces the input
at its index. -/
theorem fuseSide_cases (is_left : Bool) (m : Ref) (st : GraphObj × List Ref) :
    GraphObj.fuseSide is_left m st = st ∨
    ∃ tr, (st.1.tensor ((st.1.op m).inputs.getD (if is_left then 0 else 1) 0)).source = some tr ∧
      (st.1.op tr).type = OpType.Transpose ∧
      GraphObj.fuseSide is_left m st = (st.1.fuseGraph is_left m tr, st.2 ++ [tr]) := by
  unfold GraphObj.fuseSide
  simp only
  cases hs : (st.1.tensor ((st.1.op m).inputs.getD (if is_left then 0 else 1) 0)).source with
  | none => exact Or.inl rfl
  | some tr =>
      simp only
      by_cases h1 : (st.1.op tr).type ≠ OpType.Transpose
      · rw [if_pos h1]
        exact Or.inl rfl
      · rw [if_neg h1]
        split
        · exact Or.inl rfl
        · split
          · exact Or.inl rfl
          · exact Or.inr ⟨tr, rfl, not_not.mp h1, rfl⟩

theorem FuseRel.fuseRefl (g : GraphObj) : FuseRel g g :=
  ⟨rfl, rfl, Static.staticRefl g, fun _ _ _ h _ => h, fun _ _ h _ => h⟩

theorem FuseRel.fuseTrans {g h k : GraphObj} (a : FuseRel g h) (b : FuseRel h k) : FuseRel g k := by
  refine ⟨b.ops_eq.trans a.ops_eq, b.tensors_eq.trans a.tensors_eq, a.static.staticTrans b.static,
    ?_, ?_⟩
  · intro o i v hv hsrc
    apply b.slots o i v (a.slots o i v hv hsrc)
    intro p hp
    rw [a.static.source_eq] at hp
    rw [a.static.type_eq]
    exact hsrc p hp
  · intro t c hc hty
    apply b.targets t c (a.targets t c hc hty)
    rw [a.static.type_eq]
    exact hty

theorem getD_of_get {l : List Ref} {i : Nat} {v : Ref} (h : l[i]? = some v) :
    l.getD i 0 = v := by
  rw [List.getD_eq_getElem?_getD, h]
  rfl

theorem fuseRel_fuseSide (is_left : Bool) (m : Ref) (st : GraphObj × List Ref) :
    FuseRel st.1 (GraphObj.fuseSide is_left m st).1 ∧
      (∀ r ∈ (GraphObj.fuseSide is_left m st).2,
        r ∈ st.2 ∨ (st.1.op r).type = OpType.Transpose) := by
  rcases fuseSide_cases is_left m st with e | ⟨tr, hsrc, hty, e⟩
  · rw [e]
    exact ⟨FuseRel.fuseRefl _, fun r hr => Or.inl hr⟩
  · rw [e]
    obtain ⟨s1, s2, s3, s4, s5, _, _, s8, _⟩ := fuseGraph_spec is_left m tr st.1
    refine ⟨⟨s1, s2, s3, ?_, ?_⟩, ?_⟩
    · intro o i v hv hnt
      by_cases ho : o = m
      · subst ho
        rw [s5]
        by_cases hi : i = (if is_left then 0 else 1)
        · subst hi
          rw [getD_of_get hv] at hsrc
          exact absurd hty (hnt tr hsrc)
        · rw [List.getElem?_set_ne (Ne.symm hi)]
          exact hv
      · rw [(s4 o ho).1]
        exact hv
    · intro t c hc hct
      apply s8 t c hc
      rintro rfl
      exact hct hty
    · intro r hr
      rcases List.mem_append.mp hr with hr | hr
      · exact Or.inl hr
      · rw [List.mem_singleton] at hr
        subst hr
        exact Or.inr hty

/-- One call of `eliminate_redundant_matmul_transpose` stays within `FuseRel` and returns
Transposes only. -/
theorem fuseRel_eliminate (g : GraphObj) (op : Ref) :
    FuseRel g (g.eliminate_redundant_matmul_transpose op).1 ∧
      (∀ r ∈ (g.eliminate_redundant_matmul_transpose op).2, (g.op r).type = OpType.Transpose) := by
  unfold GraphObj.eliminate_redundant_matmul_transpose
  split
  · exact ⟨FuseRel.fuseRefl g, fun r hr => absurd hr (List.not_mem_nil _)⟩
  · split
    · exact ⟨FuseRel.fuseRefl g, fun r hr => absurd hr (List.not_mem_nil _)⟩
    · obtain ⟨a1, a2⟩ := fuseRel_fuseSide true op (g, [])
      obtain ⟨b1, b2⟩ := fuseRel_fuseSide false op (GraphObj.fuseSide true op (g, []))
      refine ⟨a1.fuseTrans b1, ?_⟩
      intro r hr
      rcases b2 r hr with h | h
      · rcases a2 r h with h | h
        · exact absurd h (List.not_mem_nil _)
        · exact h
      · rw [← a1.static.type_eq]
        exact h

/-- The second scan of `optimize` stays within `FuseRel`. -/
theorem fuseRel_scan (g : GraphObj) (l : List Ref) :
    FuseRel g (GraphObj.scanOps GraphObj.eliminate_redundant_matmul_transpose l (g, [])).1 := by
  apply scanOps_invariant GraphObj.eliminate_redundant_matmul_transpose
    (fun st => FuseRel g st.1) l (g, []) _ (FuseRel.fuseRefl g)
  intro st op _ hp
  unfold scanStep
  split
  · exact hp
  · exact hp.fuseTrans (fuseRel_eliminate st.1 op).1

/-- The executor with the fusion rule: the surviving objects stay within `FuseRel` (except for
the collections, which only shrink). -/
theorem fuse_executor_frame (g : GraphObj) :
    let g2 := GraphObj.executor GraphObj.eliminate_redundant_matmul_transpose g
    (∀ x ∈ g2.ops, x ∈ g.ops) ∧ (∀ x ∈ g2.tensors, x ∈ g.tensors) ∧ Static g g2 ∧
    (∀ (o : Ref) (i : Nat) (v : Ref), (g.op o).inputs[i]? = some v →
      (∀ p, (g.tensor v).source = some p → (g.op p).type ≠ OpType.Transpose) →
      (g2.op o).inputs[i]? = some v) ∧
    (∀ t c, c ∈ (g.tensor t).targets → (g.op c).type ≠ OpType.Transpose →
      c ∈ (g2.tensor t).targets) := by
  intro g2
  have hF := fuseRel_scan g g.ops
  have hg2 : g2 = (GraphObj.scanOps GraphObj.eliminate_redundant_matmul_transpose g.ops
      (g, [])).1.deleteOps
      (GraphObj.scanOps GraphObj.eliminate_redundant_matmul_transpose g.ops (g, [])).2 := rfl
  generalize GraphObj.scanOps GraphObj.eliminate_redundant_matmul_transpose g.ops (g, []) = st
    at hF hg2
  obtain ⟨h1, rem⟩ := st
  obtain ⟨d1, d2, d3, d4⟩ := deleteOps_spec h1 rem
  simp only at hF hg2
  rw [← hg2] at d1 d2 d3 d4
  have sub_erase : ∀ (rs l : List Ref) (x : Ref), x ∈ rs.foldl List.erase l → x ∈ l := by
    intro rs
    induction rs with
    | nil => intro l x h; exact h
    | cons r rest ih =>
        intro l x h
        exact List.mem_of_mem_erase (ih _ x h)
  have sub_erase2 : ∀ (rs l : List Ref) (x : Ref),
      x ∈ rs.foldl (fun l r => (h1.op r).outputs.foldl List.erase l) l → x ∈ l := by
    intro rs
    induction rs with
    | nil => intro l x h; exact h
    | cons r rest ih =>
        intro l x h
        exact sub_erase _ _ x (ih _ x h)
  refine ⟨?_, ?_, ?_, ?_, ?_⟩
  · intro x hx
    rw [d3] at hx
    rw [← hF.ops_eq]
    exact sub_erase _ _ x hx
  · intro x hx
    rw [d4] at hx
    rw [← hF.tensors_eq]
    exact sub_erase2 _ _ x hx
  · have := hF.static
    refine ⟨?_, ?_, ?_, ?_, ?_, ?_⟩
    · intro o; rw [d1]; exact this.type_eq o
    · intro o; rw [d1]; exact this.outputs_eq o
    · intro o; rw [d1]; exact this.permute_eq o
    · intro t; rw [d2]; exact this.source_eq t
    · intro t; rw [d2]; exact this.dims_eq t
    · intro o; rw [d1]; exact this.inputs_len o
  · intro o i v hv hs
    rw [d1]
    exact hF.slots o i v hv hs
  · intro t c hc hct
    rw [d2]
    exact hF.targets t c hc hct

/-- C5 (amended). Transpose cancellation: for every well-linked graph containing Transposes
`T1 → T2` in which `T2`'s only predecessor is `T1`, `T1`'s output is consumed only by `T2`,
applying `T1`'s permutation then `T2`'s gives the identity, `T1`'s input `X` is not produced by
a Transpose and `T2`'s output is not consumed by a Transpose, after `optimize` neither `T1`,
`T2` nor their output tensors are in the graph, and every operator that consumed `T2`'s output
in one input slot holds `X` in that slot and is registered among the targets of `X`. -/
theorem transpose_cancellation (g : GraphObj) (T1 T2 X Y1 Y2 : Ref)
    (cp : CancelPair g T1 T2 X Y1 Y2) :
    T1 ∉ g.optimize.ops ∧ T2 ∉ g.optimize.ops ∧
    Y1 ∉ g.optimize.tensors ∧ Y2 ∉ g.optimize.tensors ∧
    ∀ (c : Ref) (i : Nat), c ∈ g.ops → (g.op c).inputs[i]? = some Y2 →
      (∀ j : Nat, (g.op c).inputs[j]? = some Y2 → j = i) →
      (g.optimize.op c).inputs[i]? = some X ∧ c ∈ (g.optimize.tensor X).targets := by
  obtain ⟨hS, _, _, _, _, a1, a2, a3, a4, a5⟩ := cancel_first_pass cp
  obtain ⟨b1, b2, _, b4, b5⟩ :=
    fuse_executor_frame (GraphObj.executor GraphObj.eliminate_redundant_transposes g)
  refine ⟨fun h => a1 (b1 _ h), fun h => a2 (b1 _ h), fun h => a3 (b2 _ h),
    fun h => a4 (b2 _ h), ?_⟩
  intro c i hc hci huniq
  obtain ⟨c1, c2, _⟩ := a5 c i hc hci huniq
  constructor
  · apply b4 c i X c1
    intro p hp
    rw [hS.source_eq] at hp
    rw [hS.type_eq]
    exact cp.x_source p hp
  · apply b5 X c c2
    rw [hS.type_eq]
    exact cp.y2_consumers c hc (mem_of_get hci)

theorem replaceFirst_not_mem (out inp : Ref) (l : List Ref) (h : out ∉ l) :
    replaceFirst out inp l = l := by
  induction l with
  | nil => rfl
  | cons x xs ih =>
      have hx : x ≠ out := fun e => h (e ▸ List.mem_cons_self _ _)
      have hxs : out ∉ xs := fun e => h (List.mem_cons_of_mem _ e)
      simp [replaceFirst, hx, ih hxs]

theorem iterate_replaceFirst_not_mem (out inp : Ref) (n : Nat) (l : List Ref) (h : out ∉ l) :
    (replaceFirst out inp)^[n] l = l := by
  induction n with
  | zero => rfl
  | succ k ih => rw [Function.iterate_succ_apply', ih, replaceFirst_not_mem out inp l h]

theorem fusePair_inputs_mem {g : GraphObj} {is_left : Bool} {M Tr A B Y : Ref}
    (fp : FusePair g is_left M Tr A B Y) (v : Ref) (hv : v ∈ (g.op M).inputs) :
    v = A ∨ v = Y := by
  rw [fp.m_inputs] at hv
  cases is_left <;> simp at hv <;> tauto

theorem fusePair_y_source {g : GraphObj} {is_left : Bool} {M Tr A B Y : Ref}
    (fp : FusePair g is_left M Tr A B Y) : (g.tensor Y).source = some Tr :=
  fp.wl.out_source Tr fp.tr_mem Y (by rw [fp.tr_outputs]; exact List.mem_singleton_self _)

theorem fusePair_y_mem {g : GraphObj} {is_left : Bool} {M Tr A B Y : Ref}
    (fp : FusePair g is_left M Tr A B Y) : Y ∈ (g.op M).inputs := by
  rw [fp.m_inputs]
  cases is_left <;> simp

/-- The first scan leaves a fusible pair alone. -/
theorem keepFuse_step {g : GraphObj} {is_left : Bool} {M Tr A B Y : Ref}
    (fp : FusePair g is_left M Tr A B Y) (st : GraphObj × List Ref) (op : Ref)
    (hop : op ∈ g.ops) (J : KeepFuse g M Tr st) :
    KeepFuse g M Tr (scanStep GraphObj.eliminate_redundant_transposes st op) := by
  unfold scanStep
  by_cases hrem : op ∈ st.2
  · rw [if_pos hrem]
    exact J
  · rw [if_neg hrem]
    rcases eliminate_redundant_transposes_cases st.1 op with e | ⟨t1, h2, hp, h1, e⟩
    · rw [e]
      exact J
    · rw [e]
      have R := spliceRel_spliceGraph st.1 t1 op
      obtain ⟨f1, f2, f3, f4, f5, f6⟩ := splice_facts fp.wl J.static J.preds_sub hop h2 hp h1
      have hopTr : op ≠ Tr := by
        rintro rfl
        obtain ⟨t, ht, hts⟩ := fp.wl.pred_source _ hop _ f6
        rw [fp.tr_inputs, List.mem_singleton] at ht
        subst ht
        exact fp.b_source _ hts f3
      have hAout : A ≠ (st.1.op op).outputs.headD 0 := source_ne_of_transpose fp.a_source f1 f4
      have hBout : B ≠ (st.1.op op).outputs.headD 0 := source_ne_of_transpose fp.b_source f1 f4
      have hYout : Y ≠ (st.1.op op).outputs.headD 0 := by
        intro h
        rw [← h, fusePair_y_source fp] at f1
        exact hopTr (Option.some.inj f1).symm
      refine ⟨J.static.staticTrans R.static, ?_, ?_, ?_, ?_, ?_, ?_, ?_⟩
      · intro o p hpo
        exact J.preds_sub o p (R.preds_sub o p hpo)
      · intro r hr
        rcases (foldl_addRef_pair _ _ _ _).mp hr with hr | rfl | rfl
        · exact J.rem_type r hr
        · exact f3
        · exact f4
      · intro hmem
        rcases (foldl_addRef_pair _ _ _ _).mp hmem with hr | rfl | rfl
        · exact J.tr_not_rem hr
        · obtain ⟨t, ht, hts⟩ := fp.wl.pred_source op hop _ f6
          have hto := fp.wl.source_out op hop t ht _ hts
          rw [fp.tr_outputs, List.mem_singleton] at hto
          subst hto
          have := fp.y_only op hop ht
          subst this
          rw [fp.m_type] at f4
          exact absurd f4 (by decide)
        · exact hopTr rfl
      · obtain ⟨n, hn⟩ := R.inputs_iter M
        rw [hn, J.m_inputs]
        apply iterate_replaceFirst_not_mem
        intro hmem
        rcases fusePair_inputs_mem fp _ hmem with h | h
        · exact hAout h.symm
        · exact hYout h.symm
      · rw [R.transA_eq]
        exact J.m_transA
      · rw [R.transB_eq]
        exact J.m_transB
      · obtain ⟨n, hn⟩ := R.inputs_iter Tr
        rw [hn, J.tr_inputs]
        apply iterate_replaceFirst_not_mem
        rw [fp.tr_inputs, List.mem_singleton]
        exact fun h => hBout h.symm

/-- The first pass of `optimize` on a graph with a fusible pair: `M` stays in the graph with
its inputs and flags, `Tr` keeps its input, and nothing static changes. -/
theorem fuse_first_pass {g : GraphObj} {is_left : Bool} {M Tr A B Y : Ref}
    (fp : FusePair g is_left M Tr A B Y) :
    let g1 := GraphObj.executor GraphObj.eliminate_redundant_transposes g
    Static g g1 ∧ g1.ops.Nodup ∧ g1.tensors.Nodup ∧ M ∈ g1.ops ∧
      (g1.op M).inputs = (g.op M).inputs ∧ (g1.op M).transA = false ∧
      (g1.op M).transB = false ∧ (g1.op Tr).inputs = [B] := by
  intro g1
  have hK : KeepFuse g M Tr
      (GraphObj.scanOps GraphObj.eliminate_redundant_transposes g.ops (g, [])) :=
    scanOps_invariant GraphObj.eliminate_redundant_transposes (KeepFuse g M Tr) g.ops (g, [])
      (fun st op hop J => keepFuse_step fp st op hop J)
      ⟨Static.staticRefl g, fun _ _ h => h, fun _ hr => absurd hr (List.not_mem_nil _),
        List.not_mem_nil _, rfl, rfl, rfl, rfl⟩
  have hC := scan_transposes_collections g g.ops (g, []) ⟨rfl, rfl⟩
  generalize hst : GraphObj.scanOps GraphObj.eliminate_redundant_transposes g.ops (g, []) = st
    at hK hC
  obtain ⟨h1, rem⟩ := st
  have hg1 : g1 = h1.deleteOps rem := by
    show GraphObj.executor GraphObj.eliminate_redundant_transposes g = _
    unfold GraphObj.executor
    rw [hst]
  obtain ⟨d1, d2, d3, d4⟩ := deleteOps_spec h1 rem
  simp only at hC hK
  have hn1 : h1.ops.Nodup := by rw [hC.1]; exact fp.wl.ops_nodup
  have hn2 : h1.tensors.Nodup := by rw [hC.2]; exact fp.wl.tensors_nodup
  obtain ⟨n1, m1⟩ := foldl_erase_nodup rem h1.ops hn1
  obtain ⟨n2, _⟩ := foldl_foldl_erase_nodup (fun r => (h1.op r).outputs) rem h1.tensors hn2
  rw [← d3] at n1 m1
  rw [← d4] at n2
  rw [← hg1] at d1 d2 n1 m1 n2
  have hS : Static g g1 := by
    have := hK.static
    refine ⟨?_, ?_, ?_, ?_, ?_, ?_⟩
    · intro o; rw [d1]; exact this.type_eq o
    · intro o; rw [d1]; exact this.outputs_eq o
    · intro o; rw [d1]; exact this.permute_eq o
    · intro t; rw [d2]; exact this.source_eq t
    · intro t; rw [d2]; exact this.dims_eq t
    · intro o; rw [d1]; exact this.inputs_len o
  refine ⟨hS, n1, n2, ?_, ?_, ?_, ?_, ?_⟩
  · rw [m1 M, hC.1]
    refine ⟨fp.m_mem, fun hr => ?_⟩
    have := hK.rem_type M hr
    rw [fp.m_type] at this
    exact absurd this (by decide)
  · rw [d1]; exact hK.m_inputs
  · rw [d1, hK.m_transA]; exact fp.m_transA
  · rw [d1, hK.m_transB]; exact fp.m_transB
  · rw [d1, hK.tr_inputs]; exact fp.tr_inputs

theorem fuseSide_other (is_left : Bool) (m : Ref) (st : GraphObj × List Ref) (o : Ref)
    (ho : o ≠ m) :
    ((GraphObj.fuseSide is_left m st).1.op o).inputs = (st.1.op o).inputs ∧
    ((GraphObj.fuseSide is_left m st).1.op o).transA = (st.1.op o).transA ∧
    ((GraphObj.fuseSide is_left m st).1.op o).transB = (st.1.op o).transB := by
  rcases fuseSide_cases is_left m st with e | ⟨tr, _, _, e⟩
  · rw [e]
    exact ⟨rfl, rfl, rfl⟩
  · rw [e]
    obtain ⟨_, _, _, s4, _⟩ := fuseGraph_spec is_left m tr st.1
    exact s4 o ho

/-- A call of `eliminate_redundant_matmul_transpose` on `op` leaves the inputs and flags of
every other operator alone. -/
theorem eliminate_matmul_other (g : GraphObj) (op o : Ref) (ho : o ≠ op) :
    ((g.eliminate_redundant_matmul_transpose op).1.op o).inputs = (g.op o).inputs ∧
    ((g.eliminate_redundant_matmul_transpose op).1.op o).transA = (g.op o).transA ∧
    ((g.eliminate_redundant_matmul_transpose op).1.op o).transB = (g.op o).transB := by
  unfold GraphObj.eliminate_redundant_matmul_transpose
  split
  · exact ⟨rfl, rfl, rfl⟩
  · split
    · exact ⟨rfl, rfl, rfl⟩
    · obtain ⟨a1, a2, a3⟩ := fuseSide_other true op (g, []) o ho
      obtain ⟨b1, b2, b3⟩ := fuseSide_other false op (GraphObj.fuseSide true op (g, [])) o ho
      exact ⟨b1.trans a1, b2.trans a2, b3.trans a3⟩

theorem eliminate_matmul_nonmatmul (g : GraphObj) (op : Ref)
    (h : (g.op op).type ≠ OpType.MatMul) :
    g.eliminate_redundant_matmul_transpose op = (g, []) := by
  unfold GraphObj.eliminate_redundant_matmul_transpose
  rw [if_pos h]

/-- The lambda `impl` does nothing on an input that no Transpose produces. -/
theorem fuseSide_skip (is_left : Bool) (m : Ref) (st : GraphObj × List Ref)
    (h : ∀ p, (st.1.tensor ((st.1.op m).inputs.getD (if is_left then 0 else 1) 0)).source =
      some p → (st.1.op p).type ≠ OpType.Transpose) :
    GraphObj.fuseSide is_left m st = st := by
  rcases fuseSide_cases is_left m st with e | ⟨tr, hsrc, hty, _⟩
  · exact e
  · exact absurd hty (h tr hsrc)

/-- The lambda `impl` fuses a Transpose that swaps the last two axes. -/
theorem fuseSide_fires (is_left : Bool) (m tr : Ref) (st : GraphObj × List Ref)
    (hsrc : (st.1.tensor ((st.1.op m).inputs.getD (if is_left then 0 else 1) 0)).source =
      some tr)
    (hty : (st.1.op tr).type = OpType.Transpose) (hperm : SwapsLastTwo (st.1.op tr).permute) :
    GraphObj.fuseSide is_left m st = (st.1.fuseGraph is_left m tr, st.2 ++ [tr]) := by
  obtain ⟨_, p1, p2, p3⟩ := hperm
  unfold GraphObj.fuseSide
  simp only [hsrc, hty, ne_eq, not_true_eq_false, if_false]
  have hany : (List.range ((st.1.op tr).permute.length - 2)).any
      (fun i => (st.1.op tr).permute.getD i 0 != (i : Int)) = false := by
    rw [List.any_eq_false]
    intro i hi
    rw [List.mem_range] at hi
    rw [p1 i hi]
    simp
  rw [hany]
  simp only [Bool.false_eq_true, if_false, p2, p3, not_true_eq_false, or_self]

theorem mem_foldl_addRef_of_mem (l rem : List Ref) (x : Ref) (h : x ∈ rem) :
    x ∈ l.foldl addRef rem := (mem_foldl_addRef l rem x).mpr (Or.inl h)

theorem beforeFuse_step {g : GraphObj} {is_left : Bool} {M Tr A B Y : Ref}
    (fr : FuseReady g is_left M Tr A B Y) (st : GraphObj × List Ref) (op : Ref)
    (hne : op ≠ M) (J : BeforeFuse g M Tr st) :
    BeforeFuse g M Tr (scanStep GraphObj.eliminate_redundant_matmul_transpose st op) := by
  unfold scanStep
  by_cases hrem : op ∈ st.2
  · rw [if_pos hrem]
    exact J
  · rw [if_neg hrem]
    obtain ⟨F, hr⟩ := fuseRel_eliminate st.1 op
    obtain ⟨o1, o2, o3⟩ := eliminate_matmul_other st.1 op M (Ne.symm hne)
    refine ⟨J.static.staticTrans F.static, ?_, o1.trans J.m_inputs, o2.trans J.m_transA,
      o3.trans J.m_transB, ?_⟩
    · intro r hmem
      rcases (mem_foldl_addRef _ _ r).mp hmem with h | h
      · exact J.rem_type r h
      · rw [← J.static.type_eq]
        exact hr r h
    · by_cases hop : op = Tr
      · subst hop
        rw [eliminate_matmul_nonmatmul st.1 op (by
          rw [J.static.type_eq, fr.tr_type]
          decide)]
        exact J.tr_inputs
      · exact (eliminate_matmul_other st.1 op Tr (Ne.symm hop)).1.trans J.tr_inputs

theorem fuse_visit {g : GraphObj} {is_left : Bool} {M Tr A B Y : Ref}
    (fr : FuseReady g is_left M Tr A B Y) (st : GraphObj × List Ref)
    (J : BeforeFuse g M Tr st) :
    AfterFuse g is_left M Tr A B
      (scanStep GraphObj.eliminate_redundant_matmul_transpose st M) := by
  have hMrem : M ∉ st.2 := by
    intro h
    have := J.rem_type M h
    rw [fr.m_type] at this
    exact absurd this (by decide)
  unfold scanStep
  rw [if_neg hMrem]
  have hty : (st.1.op M).type = OpType.MatMul := by rw [J.static.type_eq]; exact fr.m_type
  have htr : (st.1.op Tr).type = OpType.Transpose := by rw [J.static.type_eq]; exact fr.tr_type
  have hperm : SwapsLastTwo (st.1.op Tr).permute := by rw [J.static.permute_eq]; exact fr.tr_perm
  have hsrcY : (st.1.tensor Y).source = some Tr := by rw [J.static.source_eq]; exact fr.y_source
  have hsrcA : ∀ p, (st.1.tensor A).source = some p → (st.1.op p).type ≠ OpType.Transpose := by
    intro p hp
    rw [J.static.source_eq] at hp
    rw [J.static.type_eq]
    exact fr.a_source p hp
  have hinB : (st.1.op Tr).inputs.headD 0 = B := by rw [J.tr_inputs, fr.tr_inputs]; rfl
  have hunf : st.1.eliminate_redundant_matmul_transpose M =
      GraphObj.fuseSide false M (GraphObj.fuseSide true M (st.1, [])) := by
    unfold GraphObj.eliminate_redundant_matmul_transpose
    simp [hty, J.m_transA, J.m_transB]
  rw [hunf]
  have hMin := J.m_inputs
  rw [fr.m_inputs] at hMin
  cases is_left
  · -- the Transpose feeds the right input
    simp only [Bool.false_eq_true, if_false] at hMin
    have hskip : GraphObj.fuseSide true M (st.1, []) = (st.1, []) := by
      apply fuseSide_skip
      simp only [if_true, hMin, List.getD_cons_zero]
      exact hsrcA
    rw [hskip]
    have hfire := fuseSide_fires false M Tr (st.1, []) (by
      simp only [Bool.false_eq_true, if_false, hMin]
      exact hsrcY) htr hperm
    rw [hfire]
    obtain ⟨_, _, s3, _, s5, s6, s7, _, s9⟩ := fuseGraph_spec false M Tr st.1
    rw [hinB] at s5 s9
    refine ⟨J.static.staticTrans s3, ?_, ?_, ?_, ?_, ?_, s9⟩
    · intro r hr
      rcases (mem_foldl_addRef _ _ r).mp hr with h | h
      · exact J.rem_type r h
      · simp only [List.nil_append, List.mem_singleton] at h
        subst h
        exact fr.tr_type
    · exact (mem_foldl_addRef _ _ Tr).mpr (Or.inr (by simp))
    · show ((st.1.fuseGraph false M Tr).op M).inputs = _
      rw [s5, hMin]
      rfl
    · show ((st.1.fuseGraph false M Tr).op M).transA = _
      rw [s6]
      simpa using J.m_transA
    · show ((st.1.fuseGraph false M Tr).op M).transB = _
      rw [s7]
      rfl
  · -- the Transpose feeds the left input
    simp only [if_true] at hMin
    have hfire := fuseSide_fires true M Tr (st.1, []) (by
      simp only [if_true, hMin, List.getD_cons_zero]
      exact hsrcY) htr hperm
    rw [hfire]
    obtain ⟨_, _, s3, _, s5, s6, s7, _, s9⟩ := fuseGraph_spec true M Tr st.1
    rw [hinB] at s5 s9
    have hMin2 : ((st.1.fuseGraph true M Tr).op M).inputs = [B, A] := by
      rw [s5, hMin]
      rfl
    have hskip : GraphObj.fuseSide false M (st.1.fuseGraph true M Tr, [] ++ [Tr]) =
        (st.1.fuseGraph true M Tr, [] ++ [Tr]) := by
      apply fuseSide_skip
      simp only [Bool.false_eq_true, if_false, hMin2]
      intro p hp
      rw [s3.source_eq] at hp
      rw [s3.type_eq]
      exact hsrcA p hp
    rw [hskip]
    refine ⟨J.static.staticTrans s3, ?_, ?_, hMin2, ?_, ?_, s9⟩
    · intro r hr
      rcases (mem_foldl_addRef _ _ r).mp hr with h | h
      · exact J.rem_type r h
      · simp only [List.nil_append, List.mem_singleton] at h
        subst h
        exact fr.tr_type
    · exact (mem_foldl_addRef _ _ Tr).mpr (Or.inr (by simp))
    · show ((st.1.fuseGraph true M Tr).op M).transA = _
      rw [s6]
      rfl
    · show ((st.1.fuseGraph true M Tr).op M).transB = _
      rw [s7]
      simpa using J.m_transB

theorem afterFuse_step {g : GraphObj} {is_left : Bool} {M Tr A B Y : Ref}
    (fr : FuseReady g is_left M Tr A B Y) (st : GraphObj × List Ref) (op : Ref)
    (hne : op ≠ M) (J : AfterFuse g is_left M Tr A B st) :
    AfterFuse g is_left M Tr A B
      (scanStep GraphObj.eliminate_redundant_matmul_transpose st op) := by
  unfold scanStep
  by_cases hrem : op ∈ st.2
  · rw [if_pos hrem]
    exact J
  · rw [if_neg hrem]
    obtain ⟨F, hr⟩ := fuseRel_eliminate st.1 op
    obtain ⟨o1, o2, o3⟩ := eliminate_matmul_other st.1 op M (Ne.symm hne)
    refine ⟨J.static.staticTrans F.static, ?_, mem_foldl_addRef_of_mem _ _ _ J.tr_rem,
      o1.trans J.m_inputs, o2.trans J.m_transA, o3.trans J.m_transB, ?_⟩
    · intro r hmem
      rcases (mem_foldl_addRef _ _ r).mp hmem with h | h
      · exact J.rem_type r h
      · rw [← J.static.type_eq]
        exact hr r h
    · apply F.targets B M J.m_target
      rw [J.static.type_eq, fr.m_type]
      decide

/-- The second pass of `optimize` on a graph that is ready for the fusion of `Tr` into `M`. -/
theorem fuse_second_pass {g : GraphObj} {is_left : Bool} {M Tr A B Y : Ref}
    (fr : FuseReady g is_left M Tr A B Y) :
    let g2 := GraphObj.executor GraphObj.eliminate_redundant_matmul_transpose g
    (g2.op M).transB = !is_left ∧ (g2.op M).transA = is_left ∧
      (g2.op M).inputs = (if is_left then [B, A] else [A, B]) ∧
      M ∈ (g2.tensor B).targets ∧ Tr ∉ g2.ops ∧ Y ∉ g2.tensors := by
  intro g2
  have hA : AfterFuse g is_left M Tr A B
      (GraphObj.scanOps GraphObj.eliminate_redundant_matmul_transpose g.ops (g, [])) :=
    scanOps_invariant_at GraphObj.eliminate_redundant_matmul_transpose
      (BeforeFuse g M Tr) (AfterFuse g is_left M Tr A B) g.ops M fr.m_mem fr.ops_nodup
      (fun st op _ hne J => beforeFuse_step fr st op hne J)
      (fun st J => fuse_visit fr st J)
      (fun st op _ hne J => afterFuse_step fr st op hne J)
      (g, []) ⟨Static.staticRefl g, fun _ hr => absurd hr (List.not_mem_nil _), rfl, fr.m_transA,
        fr.m_transB, rfl⟩
  have hF := fuseRel_scan g g.ops
  have hg2 : g2 = (GraphObj.scanOps GraphObj.eliminate_redundant_matmul_transpose g.ops
      (g, [])).1.deleteOps
      (GraphObj.scanOps GraphObj.eliminate_redundant_matmul_transpose g.ops (g, [])).2 := rfl
  generalize GraphObj.scanOps GraphObj.eliminate_redundant_matmul_transpose g.ops (g, []) = st
    at hA hF hg2
  obtain ⟨h1, rem⟩ := st
  obtain ⟨d1, d2, d3, d4⟩ := deleteOps_spec h1 rem
  simp only at hA hF hg2
  have hn1 : h1.ops.Nodup := by rw [hF.ops_eq]; exact fr.ops_nodup
  have hn2 : h1.tensors.Nodup := by rw [hF.tensors_eq]; exact fr.tensors_nodup
  obtain ⟨_, m1⟩ := foldl_erase_nodup rem h1.ops hn1
  obtain ⟨_, m2⟩ := foldl_foldl_erase_nodup (fun r => (h1.op r).outputs) rem h1.tensors hn2
  rw [← d3] at m1
  rw [← d4] at m2
  rw [← hg2] at d1 d2 m1 m2
  refine ⟨?_, ?_, ?_, ?_, ?_, ?_⟩
  · rw [d1]; exact hA.m_transB
  · rw [d1]; exact hA.m_transA
  · rw [d1]; exact hA.m_inputs
  · rw [d2]; exact hA.m_target
  · intro hx
    exact ((m1 Tr).mp hx).2 hA.tr_rem
  · intro hx
    refine ((m2 Y).mp hx).2 Tr hA.tr_rem ?_
    show Y ∈ (h1.op Tr).outputs
    rw [hA.static.outputs_eq, fr.tr_outputs]
    exact List.mem_singleton_self _

/-- C6 (amended). MatMul fusion: for every well-linked graph containing a MatMul `M` with
`transA = transB = false` whose right input is the output `Y` of a Transpose `Tr` over the
tensor `B`, where `Tr`'s permutation fixes all leading axes and swaps the last two, `Y` is
consumed only by `M`, `M`'s left input `A` is not produced by a Transpose and `B` is not
produced by a Transpose, after `optimize` `M` has `transB = true` and `transA = false`, `M`'s
inputs are `[A, B]`, `B` lists `M` among its targets, and neither `Tr` nor `Y` is in the
graph; symmetrically, with `is_left`, for the left input and `transA`. -/
theorem matmul_fusion (g : GraphObj) (is_left : Bool) (M Tr A B Y : Ref)
    (fp : FusePair g is_left M Tr A B Y) :
    (g.optimize.op M).transB = !is_left ∧ (g.optimize.op M).transA = is_left ∧
      (g.optimize.op M).inputs = (if is_left then [B, A] else [A, B]) ∧
      M ∈ (g.optimize.tensor B).targets ∧ Tr ∉ g.optimize.ops ∧ Y ∉ g.optimize.tensors := by
  obtain ⟨hS, n1, n2, hM, hin, hA, hB, htr⟩ := fuse_first_pass fp
  have fr : FuseReady (GraphObj.executor GraphObj.eliminate_redundant_transposes g)
      is_left M Tr A B Y := by
    refine ⟨n1, n2, hM, ?_, hA, hB, ?_, ?_, htr, ?_, ?_, ?_, ?_⟩
    · rw [hS.type_eq]; exact fp.m_type
    · rw [hin]; exact fp.m_inputs
    · rw [hS.type_eq]; exact fp.tr_type
    · rw [hS.outputs_eq]; exact fp.tr_outputs
    · rw [hS.permute_eq]; exact fp.tr_perm
    · rw [hS.source_eq]; exact fusePair_y_source fp
    · intro p hp
      rw [hS.source_eq] at hp
      rw [hS.type_eq]
      exact fp.a_source p hp
  exact fuse_second_pass fr

theorem chain3_wellLinked : WellLinked chain3 :=
  ⟨by decide, by decide, by decide, by decide, by decide, by decide, by decide, by decide⟩

theorem pairGraph_wellLinked : WellLinked pairGraph :=
  ⟨by decide, by decide, by decide, by decide, by decide, by decide, by decide, by decide⟩

theorem fuse3_wellLinked : WellLinked fuse3 :=
  ⟨by decide, by decide, by decide, by decide, by decide, by decide, by decide, by decide⟩

theorem fuse2_wellLinked : WellLinked fuse2 :=
  ⟨by decide, by decide, by decide, by decide, by decide, by decide, by decide, by decide⟩

theorem pairGraph_cancelPair : CancelPair pairGraph 1 2 1 2 3 :=
  ⟨pairGraph_wellLinked, by decide, by decide, by decide, by decide, by decide, by decide,
    by decide, by decide, by decide, by decide, by decide, by decide, by decide⟩

theorem fuse2_fusePair : FusePair fuse2 false 1 0 2 0 1 :=
  ⟨fuse2_wellLinked, by decide, by decide, by decide, by decide, by decide, by decide,
    by decide, by decide, by decide, by decide, by decide, by decide, by decide⟩

theorem transpose_cancellation_witness :
    CancelPair pairGraph 1 2 1 2 3 ∧
    (1 ∉ pairGraph.optimize.ops ∧ 2 ∉ pairGraph.optimize.ops ∧
      2 ∉ pairGraph.optimize.tensors ∧ 3 ∉ pairGraph.optimize.tensors ∧
      ∀ (c : Ref) (i : Nat), c ∈ pairGraph.ops → (pairGraph.op c).inputs[i]? = some 3 →
        (∀ j : Nat, (pairGraph.op c).inputs[j]? = some 3 → j = i) →
        (pairGraph.optimize.op c).inputs[i]? = some 1 ∧
          c ∈ (pairGraph.optimize.tensor 1).targets) :=
  ⟨pairGraph_cancelPair, transpose_cancellation pairGraph 1 2 1 2 3 pairGraph_cancelPair⟩

/-- C5 (as stated) fails on three cancelling Transposes in a row, `chain3`: the Transposes 1
and 2 satisfy the hypotheses of the claim (the only predecessor of 2 is 1, the output of 1 is
consumed only by 2, the permutations compose to the identity), but the scan pairs 1 with its
own predecessor 0 first, and the Transpose 2 and its output tensor 3 stay in the graph. -/
theorem transpose_chain_counterexample :
    WellLinked chain3 ∧ 1 ∈ chain3.ops ∧ 2 ∈ chain3.ops ∧
      (chain3.op 1).type = OpType.Transpose ∧ (chain3.op 2).type = OpType.Transpose ∧
      (chain3.op 1).inputs = [1] ∧ (chain3.op 1).outputs = [2] ∧
      (chain3.op 2).inputs = [2] ∧ (chain3.op 2).outputs = [3] ∧
      (chain3.op 2).predecessors = [1] ∧
      (∀ c ∈ chain3.ops, 2 ∈ (chain3.op c).inputs → c = 2) ∧
      Cancels (chain3.op 1).permute (chain3.op 2).permute (chain3.tensor 1).dims.length ∧
      2 ∈ chain3.optimize.ops ∧ 3 ∈ chain3.optimize.tensors :=
  ⟨chain3_wellLinked, by decide, by decide, by decide, by decide, by decide, by decide,
    by decide, by decide, by decide, by decide, by decide, by decide, by decide⟩

theorem matmul_fusion_witness :
    FusePair fuse2 false 1 0 2 0 1 ∧
    ((fuse2.optimize.op 1).transB = !false ∧ (fuse2.optimize.op 1).transA = false ∧
      (fuse2.optimize.op 1).inputs = (if false = true then [0, 2] else [2, 0]) ∧
      1 ∈ (fuse2.optimize.tensor 0).targets ∧ 0 ∉ fuse2.optimize.ops ∧
      1 ∉ fuse2.optimize.tensors) :=
  ⟨fuse2_fusePair, matmul_fusion fuse2 false 1 0 2 0 1 fuse2_fusePair⟩

/-- C6 (as stated) fails on `fuse3`: the MatMul 2 and the Transpose 1 over the tensor 1
satisfy the hypotheses of the claim, but the tensor 1 is itself the output of the Transpose 0,
which cancels with 1; the first rule removes both Transposes, and the MatMul keeps
`transB = false` and consumes the tensor 0 instead of the tensor 1. -/
theorem matmul_fusion_counterexample :
    WellLinked fuse3 ∧ 2 ∈ fuse3.ops ∧ 1 ∈ fuse3.ops ∧
      (fuse3.op 2).type = OpType.MatMul ∧ (fuse3.op 2).transA = false ∧
      (fuse3.op 2).transB = false ∧ (fuse3.op 2).inputs = [3, 2] ∧
      (fuse3.op 1).type = OpType.Transpose ∧ (fuse3.op 1).inputs = [1] ∧
      (fuse3.op 1).outputs = [2] ∧ SwapsLastTwo (fuse3.op 1).permute ∧
      (∀ c ∈ fuse3.ops, 2 ∈ (fuse3.op c).inputs → c = 2) ∧
      (∀ p ∈ (fuse3.tensor 3).source, (fuse3.op p).type ≠ OpType.Transpose) ∧
      (fuse3.optimize.op 2).transB = false ∧ (fuse3.optimize.op 2).inputs = [3, 0] ∧
      2 ∈ fuse3.optimize.ops :=
  ⟨fuse3_wellLinked, by decide, by decide, by decide, by decide, by decide, by decide,
    by decide, by decide, by decide, by decide, by decide, by decide, by decide, by decide,
    by decide⟩

/-! ## Allocator: ledger contents, errors and growth -/

/-- C11 (amended). Split ledger contents: on a fresh allocator `alloc(100)` returns offset 0
and reserves the padded range `[0, 104)`; `free(20, 30)` then frees the padded sub-range
`[20, 52)`, and the ledger contains exactly the two live entries `[0, 20)` and `[52, 104)`. -/
theorem split_ledger_contents :
    ∃ a1 a2, Allocator.fresh.alloc 100 = Result.ok 0 a1 ∧ a1.free 20 30 = Result.ok () a2 ∧
      a2.free_blocks_ = [(0, 20), (52, 52)] :=
  ⟨demo1, split1, by decide, by decide, rfl⟩

/-- C11 (as stated) fails: after `alloc(100)` and `free(20, 30)` the ledger is not
`[0, 20)`, `[50, 100)`; the second entry starts at 52 and ends at 104. -/
theorem split_ledger_counterexample :
    ¬ (∀ a1 a2 : Allocator, Allocator.fresh.alloc 100 = Result.ok 0 a1 →
        a1.free 20 30 = Result.ok () a2 → a2.free_blocks_ = [(0, 20), (50, 50)]) := by
  intro h
  have h2 := h demo1 split1 (by decide) (by decide)
  exact absurd h2 (by decide)

/-- C13 (amended). While the backing buffer has not been materialized, `alloc` returns an
offset for every state and every size and never signals an error. -/
theorem alloc_never_fails (a : Allocator) (size : Nat) (h : a.ptr = false) :
    ∃ off a1, a.alloc size = Result.ok off a1 := by
  unfold Allocator.alloc
  simp only [h, Bool.false_eq_true, if_false]
  split_ifs
  · exact ⟨_, _, rfl⟩
  · cases Allocator.findGap (a.getAlignedSize size) 0 a.free_blocks_ with
    | some c => exact ⟨_, _, rfl⟩
    | none => exact ⟨_, _, rfl⟩

theorem alloc_never_fails_witness :
    Allocator.fresh.ptr = false ∧ ∃ off a1, Allocator.fresh.alloc 100 = Result.ok off a1 :=
  ⟨rfl, alloc_never_fails Allocator.fresh 100 rfl⟩

/-- C13 (as stated) fails once `getPtr` has materialized the buffer: the assertion
`ptr == nullptr` at the head of `alloc` throws. -/
theorem alloc_materialized_counterexample :
    Allocator.fresh.getPtr.alloc 8 = Result.raised Allocator.fresh.getPtr ∧
      ¬ ∃ off a1, Allocator.fresh.getPtr.alloc 8 = Result.ok off a1 := by
  refine ⟨by decide, ?_⟩
  rintro ⟨off, a1, h⟩
  have h2 : Allocator.fresh.getPtr.alloc 8 = Result.raised Allocator.fresh.getPtr := by decide
  rw [h2] at h
  exact Result.noConfusion h

/-- C14 (amended). Every live range fits in the planned buffer: in every state reached from a
fresh allocator by `alloc` calls and succeeding `free` calls without 64-bit overflow, every
ledger entry `(o, len)` satisfies `o + len ≤ tail ≤ peak`, and every offset returned by a
further non-overflowing `alloc(size)` satisfies `offset + align8 size ≤ peak`. -/
theorem live_ranges_fit (a : Allocator) (h : Reachable a) :
    (∀ e ∈ a.free_blocks_, e.1 + e.2 ≤ a.last_addr_) ∧ a.last_addr_ ≤ a.peak ∧
      ∀ size off a1, AllocFits a size → a.alloc size = Result.ok off a1 →
        off + align8 size ≤ a1.peak := by
  have hinv := reachable_inv h
  refine ⟨fun e he => (chain_keys_lt _ 0 _ hinv.chain e he).2.2.1, hinv.tail_le, ?_⟩
  intro size off a1 hf hcall
  rw [alloc_eq a size hinv hf] at hcall
  have htl := hinv.tail_le
  by_cases hfast : align8 size + a.last_addr_ ≤ a.peak
  · rw [if_pos hfast] at hcall
    simp only [Result.ok.injEq] at hcall
    obtain ⟨rfl, rfl⟩ := hcall
    show a.last_addr_ + align8 size ≤ a.peak
    omega
  · rw [if_neg hfast] at hcall
    cases hg : Allocator.findGap (align8 size) 0 a.free_blocks_ with
    | some c =>
        rw [hg] at hcall
        simp only [Result.ok.injEq] at hcall
        obtain ⟨rfl, rfl⟩ := hcall
        obtain ⟨p, q, _, _, hq⟩ :=
          findGap_split a.free_blocks_ 0 a.last_addr_ (align8 size) c hinv.chain hf.2.2 hg
        have := chain_le q _ _ hq
        show c + align8 size ≤ a.peak
        omega
    | none =>
        rw [hg] at hcall
        simp only [Result.ok.injEq] at hcall
        obtain ⟨rfl, rfl⟩ := hcall
        exact le_refl _

theorem live_ranges_fit_witness :
    Reachable demo2 ∧
      ((∀ e ∈ demo2.free_blocks_, e.1 + e.2 ≤ demo2.last_addr_) ∧
        demo2.last_addr_ ≤ demo2.peak ∧
        ∀ size off a1, AllocFits demo2 size → demo2.alloc size = Result.ok off a1 →
          off + align8 size ≤ a1.peak) :=
  ⟨demo2_reachable, live_ranges_fit demo2 demo2_reachable⟩

/-- C14 (as stated) fails with overflow: after `alloc(2 ^ 63)` twice the tail has wrapped to
zero, so the entry `(0, 2 ^ 63)` ends above the tail, and the second offset `2 ^ 63` plus its
size exceeds `peak = 2 ^ 63`. -/
theorem live_ranges_overflow_counterexample :
    Allocator.fresh.alloc 9223372036854775808 = Result.ok 0 huge1 ∧
      huge1.alloc 9223372036854775808 = Result.ok 9223372036854775808 huge2 ∧
      (0, 9223372036854775808) ∈ huge2.free_blocks_ ∧
      ¬ (0 + 9223372036854775808 ≤ huge2.last_addr_) ∧
      ¬ (9223372036854775808 + align8 9223372036854775808 ≤ huge2.peak) := by
  decide

theorem findGap_none_of_noGapFits : ∀ (m : Ledger) (cursor hi size : Nat), Chain cursor m hi →
    hi + size < SIZE_MOD → NoGapFits size cursor m → Allocator.findGap size cursor m = none
  | [], _, _, _, _, _, _ => rfl
  | (o, l) :: rest, cursor, hi, size, hc, hs, hn => by
      obtain ⟨c1, c2, c3⟩ := hc
      obtain ⟨n1, n2⟩ := hn
      have hle := chain_le rest _ _ c3
      have w1 : wrap (cursor + size) = cursor + size := wrap_of_lt (by omega)
      have w2 : wrap (o + l) = o + l := wrap_of_lt (by omega)
      unfold Allocator.findGap
      rw [w1, if_neg n1, w2]
      exact findGap_none_of_noGapFits rest (o + l) hi size c3 hs n2

/-- C20 (amended). Growth step: in every state reached without overflow, for a
non-overflowing `alloc(size)` with `size ≥ 1` where neither the tail slack `peak - tail` nor
the gap before the first ledger entry nor any gap between consecutive entries holds
`align8 size`, `alloc` returns the old tail; afterwards the tail is larger than before by
exactly `align8 size` and `peak` equals the new tail, so `peak` grows by `align8 size` less
the slack. -/
theorem growth_step (a : Allocator) (size : Nat) (hr : Reachable a) (hf : AllocFits a size)
    (hslack : a.peak - a.last_addr_ < align8 size)
    (hgaps : NoGapFits (align8 size) 0 a.free_blocks_) :
    ∃ a1, a.alloc size = Result.ok a.last_addr_ a1 ∧
      a1.last_addr_ = a.last_addr_ + align8 size ∧ a1.peak = a1.last_addr_ ∧
      a1.peak = a.peak + align8 size - (a.peak - a.last_addr_) := by
  have hinv := reachable_inv hr
  have htl := hinv.tail_le
  have hnone := findGap_none_of_noGapFits a.free_blocks_ 0 a.last_addr_ (align8 size)
    hinv.chain hf.2.2 hgaps
  have hfast : ¬ (align8 size + a.last_addr_ ≤ a.peak) := by omega
  refine ⟨placeAtTail a (align8 size) (a.last_addr_ + align8 size), ?_, rfl, rfl, ?_⟩
  · rw [alloc_eq a size hinv hf, if_neg hfast, hnone]
  · show a.last_addr_ + align8 size = a.peak + align8 size - (a.peak - a.last_addr_)
    omega

theorem gap4_reachable : Reachable gap4 :=
  Reachable.free gap3 gap4 24 8
    (Reachable.alloc gap2 gap3 8 24
      (Reachable.alloc gap1 gap2 8 16
        (Reachable.alloc Allocator.fresh gap1 16 0 Reachable.fresh (by decide) (by decide))
        (by decide) (by decide))
      (by decide) (by decide))
    (by decide) (by decide)

theorem growth_step_witness :
    (Reachable gap4 ∧ AllocFits gap4 16 ∧ gap4.peak - gap4.last_addr_ < align8 16 ∧
      NoGapFits (align8 16) 0 gap4.free_blocks_) ∧
    ∃ a1, gap4.alloc 16 = Result.ok gap4.last_addr_ a1 ∧
      a1.last_addr_ = gap4.last_addr_ + align8 16 ∧ a1.peak = a1.last_addr_ ∧
      a1.peak = gap4.peak + align8 16 - (gap4.peak - gap4.last_addr_) :=
  ⟨⟨gap4_reachable, by decide, by decide, by simp [NoGapFits, gap4, align8]⟩,
    growth_step gap4 16 gap4_reachable (by decide) (by decide)
      (by simp [NoGapFits, gap4, align8])⟩

/-- C20 (as stated) fails in two ways. In the reachable state `gap4` (ledger `[0, 16)`,
`[16, 24)`, tail 24, `peak` 32) neither the slack of eight bytes nor a gap holds 16 bytes;
`alloc(16)` returns the tail 24 and sets `peak` to 40, which is eight more than before, not
16. In the reachable state `gap5` (one entry `[16, 24)`, so no pair of consecutive entries)
the gap before the first entry holds 16 bytes and `alloc(16)` returns 0, not the tail 24. -/
theorem growth_step_counterexample :
    (Reachable gap4 ∧ gap4.peak - gap4.last_addr_ < align8 16 ∧
      NoGapFits (align8 16) 0 gap4.free_blocks_ ∧
      gap4.alloc 16 = Result.ok 24 grow1 ∧ grow1.peak ≠ gap4.peak + align8 16) ∧
    (Reachable gap5 ∧ gap5.peak - gap5.last_addr_ < align8 16 ∧
      gap5.free_blocks_ = [(16, 8)] ∧
      gap5.alloc 16 = Result.ok 0 gap6 ∧ 0 ≠ gap5.last_addr_) :=
  ⟨⟨gap4_reachable, by decide, by simp [NoGapFits, gap4, align8], by decide, by decide⟩,
    ⟨gap5_reachable, by decide, rfl, by decide, by decide⟩⟩

theorem mapFloor_none : ∀ (m : Ledger) (lo hi addr : Nat), Chain lo m hi →
    mapFloor m addr = none → ∀ e ∈ m, addr < e.1
  | [], _, _, _, _, _ => fun _ he => absurd he (List.not_mem_nil _)
  | (o, l) :: rest, lo, hi, addr, hc, hfl => by
      obtain ⟨c1, c2, c3⟩ := hc
      unfold mapFloor at hfl
      by_cases h : addr < o
      · intro e he
        rcases List.mem_cons.mp he with rfl | he
        · exact h
        · have := (chain_keys_lt rest _ _ c3 e he).1
          omega
      · rw [if_neg h] at hfl
        cases hr : mapFloor rest addr with
        | none => rw [hr] at hfl; simp at hfl
        | some e => rw [hr] at hfl; simp at hfl

/-- Without overflow `free` completes exactly when the entry found by `--upper_bound(addr)`
exists and contains the padded span. -/
theorem free_outcome (a : Allocator) (addr size : Nat) (hinv : Inv a)
    (hf : FreeFits addr size) :
    match mapFloor a.free_blocks_ addr with
    | none => ∃ a1, a.free addr size = Result.raised a1
    | some (o, l) =>
        if addr + align8 size ≤ o + l then ∃ a1, a.free addr size = Result.ok () a1
        else ∃ a1, a.free addr size = Result.raised a1 := by
  obtain ⟨h1, h2, h3⟩ := hf
  have hb := align8_bounds size h1
  have hA := getAlignedSize_eq a size hinv.align h1 h2
  unfold Allocator.free
  simp only [hinv.not_mat, hA, Bool.false_eq_true, if_false]
  cases hfl : mapFloor a.free_blocks_ addr with
  | none => exact ⟨_, rfl⟩
  | some e =>
      obtain ⟨o, l⟩ := e
      obtain ⟨p, q, hm, hp, hl, hq, ho, _⟩ :=
        mapFloor_split a.free_blocks_ 0 a.last_addr_ addr o l hinv.chain hfl
      have hqle := chain_le q (o + l) a.last_addr_ hq
      have htl := hinv.tail_le
      have hpk := hinv.peak_lt
      have w1 : wrap (addr + align8 size) = addr + align8 size := wrap_of_lt h3
      have w2 : wrap (o + l) = o + l := wrap_of_lt (by omega)
      simp only [w1, w2]
      by_cases c1 : addr + align8 size ≤ o + l
      · rw [if_pos c1]
        split_ifs <;> exact ⟨_, rfl⟩
      · rw [if_neg c1]
        have c0 : addr ≠ o ∨ align8 size ≠ l := by
          by_contra hc
          push_neg at hc
          omega
        rw [if_pos c0, if_pos c1]
        exact ⟨_, rfl⟩

/-- C12 (amended). Free raises-iff: for every not yet materialized allocator state satisfying
the ledger invariant and every `addr` and `size ≥ 1` whose padded span does not overflow
(`addr + align8 size < 2 ^ 64`), `free(addr, size)` completes without error if and only if
the ledger has an entry `(o, len)` with `o ≤ addr` and `addr + align8 size ≤ o + len`;
otherwise it signals an error. -/
theorem free_raises_iff (a : Allocator) (addr size : Nat) (hinv : Inv a)
    (hf : FreeFits addr size) :
    ((∃ a1, a.free addr size = Result.ok () a1) ↔
      ∃ e ∈ a.free_blocks_, e.1 ≤ addr ∧ addr + align8 size ≤ e.1 + e.2) ∧
    ((¬ ∃ e ∈ a.free_blocks_, e.1 ≤ addr ∧ addr + align8 size ≤ e.1 + e.2) →
      ∃ a1, a.free addr size = Result.raised a1) := by
  have hout := free_outcome a addr size hinv hf
  have hb := align8_bounds size hf.1
  cases hfl : mapFloor a.free_blocks_ addr with
  | none =>
      rw [hfl] at hout
      obtain ⟨a1, h1⟩ := hout
      have hno := mapFloor_none a.free_blocks_ 0 a.last_addr_ addr hinv.chain hfl
      have hne : ¬ ∃ e ∈ a.free_blocks_, e.1 ≤ addr ∧ addr + align8 size ≤ e.1 + e.2 := by
        rintro ⟨e, he, h2, _⟩
        have := hno e he
        omega
      refine ⟨⟨?_, fun h => absurd h hne⟩, fun _ => ⟨a1, h1⟩⟩
      rintro ⟨a2, h2⟩
      rw [h1] at h2
      exact Result.noConfusion h2
  | some e =>
      obtain ⟨o, l⟩ := e
      rw [hfl] at hout
      obtain ⟨p, q, hm, hp, hl, hq, ho, hafter⟩ :=
        mapFloor_split a.free_blocks_ 0 a.last_addr_ addr o l hinv.chain hfl
      have hiff : (∃ e ∈ a.free_blocks_, e.1 ≤ addr ∧ addr + align8 size ≤ e.1 + e.2) ↔
          addr + align8 size ≤ o + l := by
        constructor
        · rintro ⟨e, he, h2, h3⟩
          rw [hm] at he
          rcases List.mem_append.mp he with he | he
          · have := (chain_keys_lt p 0 o hp e he).2.2.1
            omega
          · rcases List.mem_cons.mp he with rfl | he
            · exact h3
            · have := hafter e he
              omega
        · intro h
          exact ⟨(o, l), by rw [hm]; simp, ho, h⟩
      by_cases c1 : addr + align8 size ≤ o + l
      · simp only [c1, if_true] at hout
        exact ⟨⟨fun _ => hiff.mpr c1, fun _ => hout⟩, fun h => absurd (hiff.mpr c1) h⟩
      · simp only [c1, if_false] at hout
        obtain ⟨a1, h1⟩ := hout
        refine ⟨⟨?_, fun h => absurd (hiff.mp h) c1⟩, fun _ => ⟨a1, h1⟩⟩
        rintro ⟨a2, h2⟩
        rw [h1] at h2
        exact Result.noConfusion h2

theorem one8_inv : Inv one8 :=
  ⟨by simp [one8, Chain], le_refl _, by decide, rfl, rfl, rfl⟩

theorem free_raises_iff_witness :
    (Inv demo2 ∧ FreeFits 104 50) ∧
    (((∃ a1, demo2.free 104 50 = Result.ok () a1) ↔
      ∃ e ∈ demo2.free_blocks_, e.1 ≤ 104 ∧ 104 + align8 50 ≤ e.1 + e.2) ∧
    ((¬ ∃ e ∈ demo2.free_blocks_, e.1 ≤ 104 ∧ 104 + align8 50 ≤ e.1 + e.2) →
      ∃ a1, demo2.free 104 50 = Result.raised a1)) :=
  ⟨⟨reachable_inv demo2_reachable, by decide⟩,
    free_raises_iff demo2 104 50 (reachable_inv demo2_reachable) (by decide)⟩

/-- C12 (as stated) fails with overflow: in the state after `alloc(8)` (one entry `[0, 8)`),
`free(2 ^ 64 - 8, 8)` computes the end `addr + size = 2 ^ 64`, which wraps to zero and passes
the containment assertion, so the call completes although no entry contains the span. -/
theorem free_overflow_counterexample :
    Inv one8 ∧ one8.ptr = false ∧
      (∃ a1, one8.free 18446744073709551608 8 = Result.ok () a1) ∧
      ¬ ∃ e ∈ one8.free_blocks_,
        e.1 ≤ 18446744073709551608 ∧ 18446744073709551608 + align8 8 ≤ e.1 + e.2 := by
  refine ⟨one8_inv, rfl, ⟨⟨0, 8, 8, [(0, 8)], false, 8⟩, by decide⟩, ?_⟩
  simp [one8, align8]

/-! ## The rewrite rules: cancellation test, links and validity -/

/-- C15 (violated by the code). On `cubeGraph` the Transpose 1 has the single predecessor 0,
also a Transpose, and the permutations `[1, 2, 0]` then `[1, 2, 0]` do not compose to the
identity; the test of `eliminate_redundant_transposes` compares the permuted shape
`[3, 3, 3]` with the shape `[3, 3, 3]`, finds them equal, and the rule splices: it returns
both Transposes for deletion, rewires the consumer 2 from tensor 2 to tensor 0, drops the
predecessor of 2 and changes the targets of tensor 0. -/
theorem transpose_shape_test_divergence :
    (cubeGraph.op 1).type = OpType.Transpose ∧ (cubeGraph.op 1).predecessors = [0] ∧
      (cubeGraph.op 0).type = OpType.Transpose ∧
      ¬ Cancels (cubeGraph.op 0).permute (cubeGraph.op 1).permute
        (cubeGraph.tensor 0).dims.length ∧
      apply (apply (cubeGraph.tensor 0).dims (cubeGraph.op 0).permute)
        (cubeGraph.op 1).permute = (cubeGraph.tensor 0).dims ∧
      (cubeGraph.eliminate_redundant_transposes 1).2 = [0, 1] ∧
      (cubeGraph.op 2).inputs = [2] ∧
      ((cubeGraph.eliminate_redundant_transposes 1).1.op 2).inputs = [0] ∧
      (cubeGraph.op 2).predecessors = [1] ∧
      ((cubeGraph.eliminate_redundant_transposes 1).1.op 2).predecessors = [] ∧
      (cubeGraph.tensor 0).targets = [0] ∧
      ((cubeGraph.eliminate_redundant_transposes 1).1.tensor 0).targets = [2] := by
  decide

/-- C16 (violated by the code). The graph `pairGraph` satisfies the link invariant; after
`optimize` has spliced out the Transposes 1 and 2, tensor 1 has the source 0 and the consumer
3 (a target of tensor 1, holding it as input), but 0 is not a predecessor of 3 and 3 is not a
successor of 0. Likewise `fuseProd` satisfies the invariant; after the Transpose 1 is fused
into the MatMul 2, tensor 1 has the source 0 and the consumer 2, 0 is a predecessor of 2, but
2 is not a successor of 0. -/
theorem optimize_links_divergence :
    (LinkInv pairGraph ∧ ¬ LinkInv pairGraph.optimize ∧
      1 ∈ pairGraph.optimize.tensors ∧ 0 ∈ pairGraph.optimize.ops ∧
      3 ∈ pairGraph.optimize.ops ∧ (pairGraph.optimize.tensor 1).source = some 0 ∧
      3 ∈ (pairGraph.optimize.tensor 1).targets ∧ 1 ∈ (pairGraph.optimize.op 3).inputs ∧
      0 ∉ (pairGraph.optimize.op 3).predecessors ∧
      3 ∉ (pairGraph.optimize.op 0).successors) ∧
    (LinkInv fuseProd ∧ ¬ LinkInv fuseProd.optimize ∧
      1 ∈ fuseProd.optimize.tensors ∧ 0 ∈ fuseProd.optimize.ops ∧
      2 ∈ fuseProd.optimize.ops ∧ (fuseProd.optimize.tensor 1).source = some 0 ∧
      2 ∈ (fuseProd.optimize.tensor 1).targets ∧ (fuseProd.optimize.op 2).inputs = [3, 1] ∧
      0 ∈ (fuseProd.optimize.op 2).predecessors ∧
      2 ∉ (fuseProd.optimize.op 0).successors) := by
  decide

/-- C17 (violated by the code). `checkValid` passes on `forkGraph`, where the output of the
Transpose 0 feeds the Transpose 1 and the operator 2; `optimize` deletes both Transposes and
their output tensors 1 and 2, the operator 2 stays with the deleted tensor 1 as input and
the deleted Transpose 0 as predecessor, and `checkValid` fails afterwards. `checkValid` also
passes on `barePair`, a cancelling pair between a graph input and a graph output; after
`optimize` the input tensor 0 is left without source and without targets, and `checkValid`
fails. -/
theorem optimize_validity_divergence :
    (forkGraph.checkValid id = true ∧ forkGraph.optimize.checkValid id = false ∧
      2 ∈ forkGraph.optimize.ops ∧ (forkGraph.optimize.op 2).inputs = [1] ∧
      1 ∉ forkGraph.optimize.tensors ∧ (forkGraph.optimize.op 2).predecessors = [0] ∧
      0 ∉ forkGraph.optimize.ops) ∧
    (barePair.checkValid id = true ∧ barePair.optimize.checkValid id = false ∧
      0 ∈ barePair.optimize.tensors ∧ (barePair.optimize.tensor 0).source = none ∧
      (barePair.optimize.tensor 0).targets = []) := by
  decide

theorem eq_append_pair : ∀ (l : Shape), 2 ≤ l.length → ∃ batch c d, l = batch ++ [c, d]
  | [], h => by simp at h
  | [_], h => by simp at h
  | [c, d], _ => ⟨[], c, d, rfl⟩
  | x :: y :: z :: rest, _ => by
      obtain ⟨batch, c, d, hb⟩ := eq_append_pair (y :: z :: rest) (by simp)
      exact ⟨x :: batch, c, d, by rw [hb]; rfl⟩

/-- A permutation that fixes the leading axes and swaps the last two swaps the last two sizes
of a shape. -/
theorem apply_swap (batch : Shape) (c d : Int) (perm : List Int) (hs : SwapsLastTwo perm)
    (hl : perm.length = batch.length + 2) : apply (batch ++ [c, d]) perm = batch ++ [d, c] := by
  obtain ⟨_, s1, s2, s3⟩ := hs
  have len : (batch ++ [c, d]).length = batch.length + 2 := by simp
  apply List.ext_getElem
  · rw [apply_length]
    simp
  · intro i h1 h2
    have hi : i < batch.length + 2 := by
      rw [apply_length, len] at h1
      exact h1
    have e1 : (apply (batch ++ [c, d]) perm).getD i 0 = (batch ++ [d, c]).getD i 0 := by
      rw [apply_getD _ _ i (by rw [len]; exact hi)]
      by_cases hb : i < batch.length
      · rw [s1 i (by omega)]
        simp [List.getD_eq_getElem?_getD, List.getElem?_append_left hb]
      · by_cases hb2 : i = batch.length
        · subst hb2
          have p1 : perm.getD batch.length 0 = ((batch.length + 1 : Nat) : Int) := by
            have h := s3
            rw [hl] at h
            simpa using h
          rw [p1, Int.toNat_ofNat, (getD_append_pair batch c d).2,
            (getD_append_pair batch d c).1]
        · have hi2 : i = batch.length + 1 := by omega
          subst hi2
          have p2 : perm.getD (batch.length + 1) 0 = ((batch.length : Nat) : Int) := by
            have h := s2
            rw [hl] at h
            simpa using h
          rw [p2, Int.toNat_ofNat, (getD_append_pair batch c d).1,
            (getD_append_pair batch d c).2]
    simpa [List.getD_eq_getElem?_getD, List.getElem?_eq_getElem h1,
      List.getElem?_eq_getElem h2] using e1

/-- C18. MatMul fusion preserves the inferred output shape: for a tensor shape `X` of rank
at least two and a Transpose of it whose permutation fixes the leading axes and swaps the last
two (its output shape is `apply X perm`), `MatmulObj::inferShape` on the transposed right
input with `transB = false` gives the same result (the same shape, or failure in both) as on
the right input `X` with `transB = true`, for every left input and every `transA`; and
symmetrically for a transposed left input and `transA`. -/
theorem fusion_preserves_shape (t : Bool) (X other : Shape) (perm : List Int)
    (h2 : 2 ≤ X.length) (hl : perm.length = X.length) (hs : SwapsLastTwo perm) :
    inferShape t false other (apply X perm) = inferShape t true other X ∧
      inferShape false t (apply X perm) other = inferShape true t X other := by
  obtain ⟨batch, c, d, rfl⟩ := eq_append_pair X h2
  have len1 : (batch ++ [c, d]).length = batch.length + 2 := by simp
  have len2 : (batch ++ [d, c]).length = batch.length + 2 := by simp
  rw [apply_swap batch c d perm hs (by rw [hl, len1])]
  have e1 : (batch ++ [c, d]).dropLast.dropLast = batch := by
    simp [List.dropLast_append_of_ne_nil]
  have e2 : (batch ++ [d, c]).dropLast.dropLast = batch := by
    simp [List.dropLast_append_of_ne_nil]
  have a2 : (batch ++ [c, d]).getD (batch.length + 2 - 2) 0 = c :=
    (getD_append_pair batch c d).1
  have a1 : (batch ++ [c, d]).getD (batch.length + 2 - 1) 0 = d :=
    (getD_append_pair batch c d).2
  have b2 : (batch ++ [d, c]).getD (batch.length + 2 - 2) 0 = d :=
    (getD_append_pair batch d c).1
  have b1 : (batch ++ [d, c]).getD (batch.length + 2 - 1) 0 = c :=
    (getD_append_pair batch d c).2
  unfold inferShape
  simp only [len1, len2, e1, e2, a1, a2, b1, b2, if_true, if_false, Bool.false_eq_true]
  exact ⟨trivial, trivial⟩

theorem fusion_preserves_shape_witness :
    (2 ≤ [2, 4, 3].length ∧ [0, 2, 1].length = [2, 4, 3].length ∧ SwapsLastTwo [0, 2, 1]) ∧
    (inferShape false false [2, 5, 3] (apply [2, 4, 3] [0, 2, 1]) =
        inferShape false true [2, 5, 3] [2, 4, 3] ∧
      inferShape false false (apply [2, 4, 3] [0, 2, 1]) [2, 5, 3] =
        inferShape true false [2, 4, 3] [2, 5, 3]) :=
  ⟨by decide, fusion_preserves_shape false [2, 4, 3] [2, 5, 3] [0, 2, 1] (by decide) (by decide)
    (by decide)⟩

/-! ## Adding an operator -/

theorem Grows.growsRefl (g : GraphObj) : Grows g g :=
  ⟨rfl, rfl, rfl, fun _ => rfl, fun _ => rfl, fun _ _ h => h, fun _ _ h => h, fun _ _ h => h⟩

theorem Grows.growsTrans {g h k : GraphObj} (a : Grows g h) (b : Grows h k) : Grows g k :=
  ⟨b.ops_eq.trans a.ops_eq, b.tensors_eq.trans a.tensors_eq, b.sorted_eq.trans a.sorted_eq,
    fun o => (b.inputs_eq o).trans (a.inputs_eq o),
    fun o => (b.outputs_eq o).trans (a.outputs_eq o),
    fun o x h => b.preds_sub o x (a.preds_sub o x h),
    fun o x h => b.succs_sub o x (a.succs_sub o x h),
    fun t x h => b.targets_sub t x (a.targets_sub t x h)⟩

theorem grows_addPred (g : GraphObj) (r x : Ref) :
    Grows g (g.updOp r (fun o => { o with predecessors := addRef o.predecessors x })) := by
  refine ⟨rfl, rfl, rfl, ?_, ?_, ?_, ?_, fun _ _ h => h⟩
  · intro o
    by_cases h : o = r <;> simp [GraphObj.updOp, h]
  · intro o
    by_cases h : o = r <;> simp [GraphObj.updOp, h]
  · intro o y hy
    by_cases h : o = r
    · subst h
      simpa [GraphObj.updOp] using mem_addRef.mpr (Or.inl hy)
    · simpa [GraphObj.updOp, h] using hy
  · intro o y hy
    by_cases h : o = r
    · subst h
      simpa [GraphObj.updOp] using hy
    · simpa [GraphObj.updOp, h] using hy

theorem grows_addSucc (g : GraphObj) (r x : Ref) :
    Grows g (g.updOp r (fun o => { o with successors := addRef o.successors x })) := by
  refine ⟨rfl, rfl, rfl, ?_, ?_, ?_, ?_, fun _ _ h => h⟩
  · intro o
    by_cases h : o = r <;> simp [GraphObj.updOp, h]
  · intro o
    by_cases h : o = r <;> simp [GraphObj.updOp, h]
  · intro o y hy
    by_cases h : o = r
    · subst h
      simpa [GraphObj.updOp] using hy
    · simpa [GraphObj.updOp, h] using hy
  · intro o y hy
    by_cases h : o = r
    · subst h
      simpa [GraphObj.updOp] using mem_addRef.mpr (Or.inl hy)
    · simpa [GraphObj.updOp, h] using hy

theorem mem_preds_addPred (g : GraphObj) (r x : Ref) :
    x ∈ ((g.updOp r (fun o => { o with predecessors := addRef o.predecessors x })).op
      r).predecessors := by
  simpa [GraphObj.updOp] using mem_addRef.mpr (Or.inr rfl)

theorem mem_succs_addSucc (g : GraphObj) (r x : Ref) :
    x ∈ ((g.updOp r (fun o => { o with successors := addRef o.successors x })).op
      r).successors := by
  simpa [GraphObj.updOp] using mem_addRef.mpr (Or.inr rfl)

/-- One pass of the inner loop links `op` and `succ` and only grows the link sets. -/
theorem connectTarget_spec (op : Ref) (g : GraphObj) (succ : Ref) :
    Grows g (GraphObj.connectTarget op g succ) ∧
      (GraphObj.connectTarget op g succ).tensor = g.tensor ∧
      op ∈ ((GraphObj.connectTarget op g succ).op succ).predecessors ∧
      succ ∈ ((GraphObj.connectTarget op g succ).op op).successors := by
  have G1 := grows_addPred g succ op
  have G2 := grows_addSucc
    (g.updOp succ (fun o => { o with predecessors := addRef o.predecessors op })) op succ
  refine ⟨G1.growsTrans G2, rfl, ?_, ?_⟩
  · exact G2.preds_sub succ op (mem_preds_addPred g succ op)
  · exact mem_succs_addSucc _ op succ

theorem targetFold_spec (op : Ref) : ∀ (ts : List Ref) (g : GraphObj),
    Grows g (ts.foldl (GraphObj.connectTarget op) g) ∧
      (ts.foldl (GraphObj.connectTarget op) g).tensor = g.tensor ∧
      ∀ b ∈ ts, op ∈ ((ts.foldl (GraphObj.connectTarget op) g).op b).predecessors ∧
        b ∈ ((ts.foldl (GraphObj.connectTarget op) g).op op).successors
  | [], g => ⟨Grows.growsRefl g, rfl, fun _ hb => absurd hb (List.not_mem_nil _)⟩
  | x :: rest, g => by
      obtain ⟨s1, s2, s3, s4⟩ := connectTarget_spec op g x
      obtain ⟨r1, r2, r3⟩ := targetFold_spec op rest (GraphObj.connectTarget op g x)
      rw [List.foldl_cons]
      refine ⟨s1.growsTrans r1, r2.trans s2, ?_⟩
      intro b hb
      rcases List.mem_cons.mp hb with rfl | hb
      · exact ⟨r1.preds_sub _ _ s3, r1.succs_sub _ _ s4⟩
      · exact r3 b hb

theorem grows_setSource (g : GraphObj) (t op : Ref) :
    Grows g (g.updTensor t (fun x => { x with source := some op })) := by
  refine ⟨rfl, rfl, rfl, fun _ => rfl, fun _ => rfl, fun _ _ h => h, fun _ _ h => h, ?_⟩
  intro t1 x hx
  by_cases h : t1 = t
  · subst h
    simpa [GraphObj.updTensor] using hx
  · simpa [GraphObj.updTensor, h] using hx

/-- One pass of the second loop: `op` becomes the source of `output` and is linked with every
target of `output`. -/
theorem connectOutput_spec (op : Ref) (g : GraphObj) (output : Ref) :
    Grows g (GraphObj.connectOutput op g output) ∧
      (∀ t, ((GraphObj.connectOutput op g output).tensor t).targets = (g.tensor t).targets) ∧
      (∀ t, ((GraphObj.connectOutput op g output).tensor t).source =
        if t = output then some op else (g.tensor t).source) ∧
      ∀ b ∈ (g.tensor output).targets,
        op ∈ ((GraphObj.connectOutput op g output).op b).predecessors ∧
          b ∈ ((GraphObj.connectOutput op g output).op op).successors := by
  have G1 := grows_setSource g output op
  have ht : ((g.updTensor output (fun x => { x with source := some op })).tensor
      output).targets = (g.tensor output).targets := by
    simp [GraphObj.updTensor]
  obtain ⟨r1, r2, r3⟩ := targetFold_spec op
    ((g.updTensor output (fun x => { x with source := some op })).tensor output).targets
    (g.updTensor output (fun x => { x with source := some op }))
  unfold GraphObj.connectOutput
  refine ⟨G1.growsTrans r1, ?_, ?_, ?_⟩
  · intro t
    simp only [r2]
    by_cases h : t = output
    · subst h
      simp [GraphObj.updTensor]
    · simp [GraphObj.updTensor, h]
  · intro t
    simp only [r2]
    by_cases h : t = output
    · subst h
      simp [GraphObj.updTensor]
    · simp [GraphObj.updTensor, h]
  · intro b hb
    exact r3 b (by rw [ht]; exact hb)

theorem outputFold_spec (op : Ref) : ∀ (l : List Ref) (g : GraphObj),
    Grows g (l.foldl (GraphObj.connectOutput op) g) ∧
      (∀ t, ((l.foldl (GraphObj.connectOutput op) g).tensor t).targets =
        (g.tensor t).targets) ∧
      (∀ t, ((l.foldl (GraphObj.connectOutput op) g).tensor t).source =
        if t ∈ l then some op else (g.tensor t).source) ∧
      ∀ t ∈ l, ∀ b ∈ (g.tensor t).targets,
        op ∈ ((l.foldl (GraphObj.connectOutput op) g).op b).predecessors ∧
          b ∈ ((l.foldl (GraphObj.connectOutput op) g).op op).successors
  | [], g => ⟨Grows.growsRefl g, fun _ => rfl, fun _ => by simp,
      fun _ ht => absurd ht (List.not_mem_nil _)⟩
  | x :: rest, g => by
      obtain ⟨s1, s2, s3, s4⟩ := connectOutput_spec op g x
      obtain ⟨r1, r2, r3, r4⟩ := outputFold_spec op rest (GraphObj.connectOutput op g x)
      rw [List.foldl_cons]
      refine ⟨s1.growsTrans r1, fun t => (r2 t).trans (s2 t), ?_, ?_⟩
      · intro t
        rw [r3 t, s3 t]
        by_cases h1 : t ∈ rest
        · simp [h1]
        · by_cases h2 : t = x
          · simp [h2]
          · simp [h1, h2]
      · intro t ht b hb
        by_cases h1 : t ∈ rest
        · exact r4 t h1 b (by rw [s2 t]; exact hb)
        · have h2 : t = x := by
            rcases List.mem_cons.mp ht with h | h
            · exact h
            · exact absurd h h1
          subst h2
          obtain ⟨c1, c2⟩ := s4 b hb
          exact ⟨r1.preds_sub _ _ c1, r1.succs_sub _ _ c2⟩

theorem grows_addTarget (g : GraphObj) (t op : Ref) :
    Grows g (g.updTensor t (fun x => { x with targets := addRef x.targets op })) := by
  refine ⟨rfl, rfl, rfl, fun _ => rfl, fun _ => rfl, fun _ _ h => h, fun _ _ h => h, ?_⟩
  intro t1 x hx
  by_cases h : t1 = t
  · subst h
    simpa [GraphObj.updTensor] using mem_addRef.mpr (Or.inl hx)
  · simpa [GraphObj.updTensor, h] using hx

/-- One pass of the first loop: `op` becomes a target of `input` and is linked with the source
of `input`. -/
theorem connectInput_spec (op : Ref) (g : GraphObj) (input : Ref) :
    Grows g (GraphObj.connectInput op g input) ∧
      (∀ t, ((GraphObj.connectInput op g input).tensor t).source = (g.tensor t).source) ∧
      (∀ t x, x ∈ ((GraphObj.connectInput op g input).tensor t).targets →
        x ∈ (g.tensor t).targets ∨ (x = op ∧ t = input)) ∧
      op ∈ ((GraphObj.connectInput op g input).tensor input).targets ∧
      ∀ a, (g.tensor input).source = some a →
        a ∈ ((GraphObj.connectInput op g input).op op).predecessors ∧
          op ∈ ((GraphObj.connectInput op g input).op a).successors := by
  have G1 := grows_addTarget g input op
  have hsrc : ∀ t, ((g.updTensor input
      (fun x => { x with targets := addRef x.targets op })).tensor t).source =
      (g.tensor t).source := by
    intro t
    by_cases h : t = input
    · subst h
      simp [GraphObj.updTensor]
    · simp [GraphObj.updTensor, h]
  have htar : ∀ t x, x ∈ ((g.updTensor input
      (fun x => { x with targets := addRef x.targets op })).tensor t).targets →
      x ∈ (g.tensor t).targets ∨ (x = op ∧ t = input) := by
    intro t x hx
    by_cases h : t = input
    · subst h
      have hx2 : x ∈ addRef (g.tensor t).targets op := by simpa [GraphObj.updTensor] using hx
      rcases mem_addRef.mp hx2 with h1 | h1
      · exact Or.inl h1
      · exact Or.inr ⟨h1, rfl⟩
    · exact Or.inl (by simpa [GraphObj.updTensor, h] using hx)
  have hop : op ∈ ((g.updTensor input
      (fun x => { x with targets := addRef x.targets op })).tensor input).targets := by
    simpa [GraphObj.updTensor] using mem_addRef.mpr (Or.inr rfl)
  unfold GraphObj.connectInput
  simp only [hsrc]
  cases hs : (g.tensor input).source with
  | none =>
      refine ⟨G1, hsrc, htar, hop, ?_⟩
      intro a ha
      exact Option.noConfusion ha
  | some pred =>
      have G2 := grows_addSucc (g.updTensor input
        (fun x => { x with targets := addRef x.targets op })) pred op
      have G3 := grows_addPred ((g.updTensor input
        (fun x => { x with targets := addRef x.targets op })).updOp pred
          (fun o => { o with successors := addRef o.successors op })) op pred
      refine ⟨(G1.growsTrans G2).growsTrans G3, hsrc, htar, hop, ?_⟩
      intro a ha
      obtain rfl : pred = a := Option.some.inj ha
      exact ⟨mem_preds_addPred _ op pred, G3.succs_sub _ _ (mem_succs_addSucc _ pred op)⟩

theorem inputFold_spec (op : Ref) : ∀ (l : List Ref) (g : GraphObj),
    Grows g (l.foldl (GraphObj.connectInput op) g) ∧
      (∀ t, ((l.foldl (GraphObj.connectInput op) g).tensor t).source =
        (g.tensor t).source) ∧
      (∀ t x, x ∈ ((l.foldl (GraphObj.connectInput op) g).tensor t).targets →
        x ∈ (g.tensor t).targets ∨ (x = op ∧ t ∈ l)) ∧
      (∀ t ∈ l, op ∈ ((l.foldl (GraphObj.connectInput op) g).tensor t).targets) ∧
      ∀ t ∈ l, ∀ a, (g.tensor t).source = some a →
        a ∈ ((l.foldl (GraphObj.connectInput op) g).op op).predecessors ∧
          op ∈ ((l.foldl (GraphObj.connectInput op) g).op a).successors
  | [], g => ⟨Grows.growsRefl g, fun _ => rfl, fun _ _ h => Or.inl h,
      fun _ ht => absurd ht (List.not_mem_nil _), fun _ ht => absurd ht (List.not_mem_nil _)⟩
  | x :: rest, g => by
      obtain ⟨s1, s2, s3, s4, s5⟩ := connectInput_spec op g x
      obtain ⟨r1, r2, r3, r4, r5⟩ := inputFold_spec op rest (GraphObj.connectInput op g x)
      rw [List.foldl_cons]
      refine ⟨s1.growsTrans r1, fun t => (r2 t).trans (s2 t), ?_, ?_, ?_⟩
      · intro t y hy
        rcases r3 t y hy with h | ⟨h1, h2⟩
        · rcases s3 t y h with h | ⟨h1, h2⟩
          · exact Or.inl h
          · exact Or.inr ⟨h1, by rw [h2]; exact List.mem_cons_self _ _⟩
        · exact Or.inr ⟨h1, List.mem_cons_of_mem _ h2⟩
      · intro t ht
        rcases List.mem_cons.mp ht with rfl | h
        · exact r1.targets_sub _ _ s4
        · exact r4 t h
      · intro t ht a ha
        rcases List.mem_cons.mp ht with rfl | h
        · obtain ⟨c1, c2⟩ := s5 a ha
          exact ⟨r1.preds_sub _ _ c1, r1.succs_sub _ _ c2⟩
        · exact r5 t h a (by rw [s2 t]; exact ha)

/-- The two loops of `addOperatorAndConnect` establish the links of `op` and keep the link
invariant. -/
theorem connectLoops_spec (op : Ref) (g : GraphObj) (hinv : LinkInv g) :
    Grows g (GraphObj.connectLoops op g) ∧
      (∀ t ∈ (g.op op).inputs, op ∈ ((GraphObj.connectLoops op g).tensor t).targets) ∧
      (∀ t ∈ (g.op op).outputs, ((GraphObj.connectLoops op g).tensor t).source = some op) ∧
      (∀ t ∈ (g.op op).inputs, ∀ a ∈ ((GraphObj.connectLoops op g).tensor t).source,
        a ∈ ((GraphObj.connectLoops op g).op op).predecessors ∧
          op ∈ ((GraphObj.connectLoops op g).op a).successors) ∧
      (∀ t ∈ (g.op op).inputs, ∀ a ∈ (g.tensor t).source,
        a ∈ ((GraphObj.connectLoops op g).op op).predecessors ∧
          op ∈ ((GraphObj.connectLoops op g).op a).successors) ∧
      (∀ t ∈ (g.op op).outputs, ∀ b ∈ (g.tensor t).targets,
        b ∈ ((GraphObj.connectLoops op g).op op).successors ∧
          op ∈ ((GraphObj.connectLoops op g).op b).predecessors) ∧
      LinkInv (GraphObj.connectLoops op g) := by
  obtain ⟨i1, i2, i3, i4, i5⟩ := inputFold_spec op (g.op op).inputs g
  simp only [GraphObj.connectLoops]
  generalize (g.op op).inputs.foldl (GraphObj.connectInput op) g = g1 at *
  obtain ⟨o1, o2, o3, o4⟩ := outputFold_spec op (g1.op op).outputs g1
  have hout : (g1.op op).outputs = (g.op op).outputs := i1.outputs_eq op
  rw [hout] at o1 o2 o3 o4 ⊢
  generalize (g.op op).outputs.foldl (GraphObj.connectOutput op) g1 = res at *
  have hlink : ∀ t a b, (res.tensor t).source = some a → b ∈ (g1.tensor t).targets →
      (b ∈ (g.tensor t).targets → t ∈ g.tensors) →
      a ∈ (res.op b).predecessors ∧ b ∈ (res.op a).successors := by
    intro t a b ha hb hmem
    rw [o3 t] at ha
    by_cases hO : t ∈ (g.op op).outputs
    · rw [if_pos hO] at ha
      obtain rfl : op = a := Option.some.inj ha
      exact o4 t hO b hb
    · rw [if_neg hO, i2 t] at ha
      rcases i3 t b hb with h | ⟨h1, h2⟩
      · obtain ⟨c1, c2⟩ := hinv t (hmem h) a ha b h
        exact ⟨o1.preds_sub _ _ (i1.preds_sub _ _ c1), o1.succs_sub _ _ (i1.succs_sub _ _ c2)⟩
      · subst h1
        obtain ⟨c1, c2⟩ := i5 t h2 a ha
        exact ⟨o1.preds_sub _ _ c1, o1.succs_sub _ _ c2⟩
  refine ⟨i1.growsTrans o1, ?_, ?_, ?_, ?_, ?_, ?_⟩
  · intro t ht
    rw [o2 t]
    exact i4 t ht
  · intro t ht
    rw [o3 t, if_pos ht]
  · intro t ht a ha
    by_cases hO : t ∈ (g.op op).outputs
    · have ha2 : (res.tensor t).source = some a := ha
      rw [o3 t, if_pos hO] at ha2
      obtain rfl : op = a := Option.some.inj ha2
      exact o4 t hO op (i4 t ht)
    · have ha2 : (res.tensor t).source = some a := ha
      rw [o3 t, if_neg hO, i2 t] at ha2
      obtain ⟨c1, c2⟩ := i5 t ht a ha2
      exact ⟨o1.preds_sub _ _ c1, o1.succs_sub _ _ c2⟩
  · intro t ht a ha
    obtain ⟨c1, c2⟩ := i5 t ht a ha
    exact ⟨o1.preds_sub _ _ c1, o1.succs_sub _ _ c2⟩
  · intro t ht b hb
    obtain ⟨c1, c2⟩ := o4 t ht b (i1.targets_sub _ _ hb)
    exact ⟨c2, c1⟩
  · intro t ht a ha b hb
    have ht2 : t ∈ g.tensors := by
      rw [← i1.tensors_eq, ← o1.tensors_eq]
      exact ht
    rw [o2 t] at hb
    exact hlink t a b ha hb (fun _ => ht2)

/-- The two loops of `addOperatorAndConnect` leave the collections and the flag alone. -/
theorem connectLoops_grows (op : Ref) (g : GraphObj) : Grows g (GraphObj.connectLoops op g) := by
  obtain ⟨i1, _⟩ := inputFold_spec op (g.op op).inputs g
  obtain ⟨o1, _⟩ := outputFold_spec op
    (((g.op op).inputs.foldl (GraphObj.connectInput op) g).op op).outputs
    ((g.op op).inputs.foldl (GraphObj.connectInput op) g)
  exact i1.growsTrans o1

/-- Adding an operator that the graph does not hold yet keeps the operator list free of
repetitions and clears the cached flag. -/
theorem addOperatorAndConnect_keeps_flag (g : GraphObj) (op : Ref) (hn : g.ops.Nodup)
    (hnew : op ∉ g.ops) :
    (g.addOperatorAndConnect op).ops.Nodup ∧
      ((g.addOperatorAndConnect op).sorted = true → ¬ HasCycle (g.addOperatorAndConnect op)) := by
  have G := connectLoops_grows op { g with sorted := false, ops := g.ops ++ [op] }
  have e1 : (g.addOperatorAndConnect op).ops = g.ops ++ [op] := G.ops_eq
  have e2 : (g.addOperatorAndConnect op).sorted = false := G.sorted_eq
  refine ⟨?_, fun h => ?_⟩
  · rw [e1]
    exact List.nodup_append.mpr ⟨hn, List.nodup_singleton op, by
      intro x hx hx2
      rw [List.mem_singleton] at hx2
      exact hnew (hx2 ▸ hx)⟩
  · rw [e2] at h
    exact absurd h (by decide)

/-- C19. `addOperatorAndConnect` establishes the links: for every graph satisfying the
producer/consumer link invariant and every operator object `op`, after the call `op` is a
target of each of its input tensors and the source of each of its output tensors; the
producer of every input tensor (its source after the call, and its source before the call) is
among the predecessors of `op` and has `op` among its successors; every existing consumer of
each output tensor is among the successors of `op` and has `op` among its predecessors; the
invariant holds for the whole graph; the cached `sorted` flag is false; and `op` is the last
operator of the operator list. The consumers of a tensor are the operators of its target set;
when every operator of the graph is a target of each of its input tensors, the invariant also
holds afterwards in the form "the source of an input tensor of an operator of the graph is
linked with that operator". The proof does not need the output tensors to be without source
before the call. -/
theorem addOperatorAndConnect_links (g : GraphObj) (op : Ref) (hinv : LinkInv g) :
    (∀ t ∈ (g.op op).inputs, op ∈ ((g.addOperatorAndConnect op).tensor t).targets) ∧
      (∀ t ∈ (g.op op).outputs, ((g.addOperatorAndConnect op).tensor t).source = some op) ∧
      (∀ t ∈ (g.op op).inputs, ∀ a ∈ ((g.addOperatorAndConnect op).tensor t).source,
        a ∈ ((g.addOperatorAndConnect op).op op).predecessors ∧
          op ∈ ((g.addOperatorAndConnect op).op a).successors) ∧
      (∀ t ∈ (g.op op).inputs, ∀ a ∈ (g.tensor t).source,
        a ∈ ((g.addOperatorAndConnect op).op op).predecessors ∧
          op ∈ ((g.addOperatorAndConnect op).op a).successors) ∧
      (∀ t ∈ (g.op op).outputs, ∀ b ∈ (g.tensor t).targets,
        b ∈ ((g.addOperatorAndConnect op).op op).successors ∧
          op ∈ ((g.addOperatorAndConnect op).op b).predecessors) ∧
      LinkInv (g.addOperatorAndConnect op) ∧
      (g.addOperatorAndConnect op).sorted = false ∧
      (g.addOperatorAndConnect op).ops = g.ops ++ [op] ∧
      ((∀ c ∈ g.ops, ∀ t ∈ (g.op c).inputs, t ∈ g.tensors ∧ c ∈ (g.tensor t).targets) →
        ∀ c ∈ (g.addOperatorAndConnect op).ops,
          ∀ t ∈ ((g.addOperatorAndConnect op).op c).inputs,
            ∀ a ∈ ((g.addOperatorAndConnect op).tensor t).source,
              a ∈ ((g.addOperatorAndConnect op).op c).predecessors ∧
                c ∈ ((g.addOperatorAndConnect op).op a).successors) := by
  obtain ⟨G, c1, c2, c3, c4, c5, c6⟩ :=
    connectLoops_spec op { g with sorted := false, ops := g.ops ++ [op] } hinv
  refine ⟨c1, c2, c3, c4, c5, c6, G.sorted_eq, G.ops_eq, ?_⟩
  intro hcomp c hc t ht a ha
  have e1 : (g.addOperatorAndConnect op).ops = g.ops ++ [op] := G.ops_eq
  have e2 : ((g.addOperatorAndConnect op).op c).inputs = (g.op c).inputs := G.inputs_eq c
  have e3 : (g.addOperatorAndConnect op).tensors = g.tensors := G.tensors_eq
  have hc2 : c ∈ g.ops ++ [op] := by
    rw [← e1]
    exact hc
  have ht2 : t ∈ (g.op c).inputs := by
    rw [← e2]
    exact ht
  rcases List.mem_append.mp hc2 with h | h
  · obtain ⟨h1, h2⟩ := hcomp c h t ht2
    have h3 : t ∈ (g.addOperatorAndConnect op).tensors := by
      rw [e3]
      exact h1
    exact c6 t h3 a ha c (G.targets_sub t c h2)
  · obtain rfl : c = op := by simpa using h
    exact c3 t ht2 a ha

theorem addOperatorAndConnect_links_witness :
    LinkInv addDemo ∧
    ((∀ t ∈ (addDemo.op 1).inputs, 1 ∈ ((addDemo.addOperatorAndConnect 1).tensor t).targets) ∧
      (∀ t ∈ (addDemo.op 1).outputs,
        ((addDemo.addOperatorAndConnect 1).tensor t).source = some 1) ∧
      (∀ t ∈ (addDemo.op 1).inputs, ∀ a ∈ ((addDemo.addOperatorAndConnect 1).tensor t).source,
        a ∈ ((addDemo.addOperatorAndConnect 1).op 1).predecessors ∧
          1 ∈ ((addDemo.addOperatorAndConnect 1).op a).successors) ∧
      (∀ t ∈ (addDemo.op 1).inputs, ∀ a ∈ (addDemo.tensor t).source,
        a ∈ ((addDemo.addOperatorAndConnect 1).op 1).predecessors ∧
          1 ∈ ((addDemo.addOperatorAndConnect 1).op a).successors) ∧
      (∀ t ∈ (addDemo.op 1).outputs, ∀ b ∈ (addDemo.tensor t).targets,
        b ∈ ((addDemo.addOperatorAndConnect 1).op 1).successors ∧
          1 ∈ ((addDemo.addOperatorAndConnect 1).op b).predecessors) ∧
      LinkInv (addDemo.addOperatorAndConnect 1) ∧
      (addDemo.addOperatorAndConnect 1).sorted = false ∧
      (addDemo.addOperatorAndConnect 1).ops = addDemo.ops ++ [1] ∧
      ((∀ c ∈ addDemo.ops, ∀ t ∈ (addDemo.op c).inputs,
          t ∈ addDemo.tensors ∧ c ∈ (addDemo.tensor t).targets) →
        ∀ c ∈ (addDemo.addOperatorAndConnect 1).ops,
          ∀ t ∈ ((addDemo.addOperatorAndConnect 1).op c).inputs,
            ∀ a ∈ ((addDemo.addOperatorAndConnect 1).tensor t).source,
              a ∈ ((addDemo.addOperatorAndConnect 1).op c).predecessors ∧
                c ∈ ((addDemo.addOperatorAndConnect 1).op a).successors)) :=
  ⟨by decide, addOperatorAndConnect_links addDemo 1 (by decide)⟩

/-! ## Allocator: the state after a failed `free` -/

/-- C21 (amended). The state after a failed `free`: for every allocator state and every `addr`
and `size` for which `free` signals an error, `used`, `peak`, the tail, the buffer flag and
the alignment are exactly as before the call; the ledger is as before when the buffer is
materialized or no entry starts at or before `addr`, and otherwise it is the ledger of before
the call without the entry found by the lookup, which is erased ahead of the containment
assertion. -/
theorem failed_free_state (a a1 : Allocator) (addr size : Nat)
    (h : a.free addr size = Result.raised a1) :
    a1.used = a.used ∧ a1.peak = a.peak ∧ a1.last_addr_ = a.last_addr_ ∧ a1.ptr = a.ptr ∧
      a1.alignment = a.alignment ∧
      a1.free_blocks_ =
        (if a.ptr then a.free_blocks_
         else
           match mapFloor a.free_blocks_ addr with
           | none => a.free_blocks_
           | some (offset, _) => mapErase a.free_blocks_ offset) := by
  unfold Allocator.free at h
  by_cases hp : a.ptr = true
  · rw [if_pos hp] at h
    obtain rfl : a = a1 := Result.raised.inj h
    simp [hp]
  · rw [if_neg hp] at h
    have hp2 : a.ptr = false := by simpa using hp
    cases hfl : mapFloor a.free_blocks_ addr with
    | none =>
        rw [hfl] at h
        obtain rfl : a = a1 := Result.raised.inj h
        simp [hp2, hfl]
    | some e =>
        obtain ⟨o, l⟩ := e
        rw [hfl] at h
        simp only at h
        split_ifs at h
        obtain rfl := Result.raised.inj h
        simp [hp2]

theorem failed_free_state_witness :
    one8.free 0 16 = Result.raised one8Failed ∧
    (one8Failed.used = one8.used ∧ one8Failed.peak = one8.peak ∧
      one8Failed.last_addr_ = one8.last_addr_ ∧ one8Failed.ptr = one8.ptr ∧
      one8Failed.alignment = one8.alignment ∧
      one8Failed.free_blocks_ =
        (if one8.ptr then one8.free_blocks_
         else
           match mapFloor one8.free_blocks_ 0 with
           | none => one8.free_blocks_
           | some (offset, _) => mapErase one8.free_blocks_ offset)) :=
  ⟨by decide, failed_free_state one8 one8Failed 0 16 (by decide)⟩

theorem one8_reachable : Reachable one8 :=
  Reachable.alloc Allocator.fresh one8 8 0 Reachable.fresh (by decide) (by decide)

/-- C21 (as stated) fails: in the state after `alloc(8)` (ledger `[0, 8)`), `free(0, 16)`
finds the entry `(0, 8)`, erases it, and then fails the containment assertion
`addr + size <= offset + block_size`; the exception leaves the ledger empty. -/
theorem failed_free_counterexample :
    ¬ (∀ (a a1 : Allocator) (addr size : Nat), Reachable a →
        a.free addr size = Result.raised a1 →
        a1.free_blocks_ = a.free_blocks_ ∧ a1.used = a.used ∧ a1.peak = a.peak ∧
          a1.last_addr_ = a.last_addr_) := by
  intro h
  have h2 := h one8 one8Failed 0 16 one8_reachable (by decide)
  exact absurd h2.1 (by decide)

end infini
